import Mathlib

/-!
Verification of the PDF-to-man-markdown conversion pipeline
(`src/conversion/pdf_to_man_markdown.py`, class `PDFManPageConverter`).

The Python code is shallowly embedded as executable Lean functions.
Strings are Lean `String`s (sequences of unicode scalar values, matching
Python `str`); per-line processing works on `List String` exactly as the
Python code works on `text.splitlines()` lists.

Modelling notes:
- Python regexes are embedded as Brzozowski-derivative matchers over an
  explicit regex AST (`RE`); `re.match(p, s)` with a `$`-anchored pattern
  is whole-string membership and otherwise is matching a prefix.  Every
  pattern here that is `$`-anchored ends in `\s*$`, and `\s` accepts the
  newline, so the "also match just before a final newline" subtlety of
  Python `$` does not change the accepted language.
- Python `\s` / `str.strip` / `str.split` whitespace is the explicit set
  `pyWs` (the Unicode whitespace characters Python recognises).
- Python `\w` (used for `\b` in the uppercase-despacing regex) is
  modelled by `isWordCh`: ASCII alphanumerics, underscore, and the
  ligature glyphs U+FB00..U+FB06 that this program manipulates (other
  non-ASCII letters do not occur in its data).
- `str.lower` is modelled by `Char.toLower` (ASCII case mapping; the
  strings this program lowercases are ASCII).
- The `LIGATURE_REPLACEMENTS` dict is embedded key for key as Python
  parses it: the source lines 42-43 contain `"""` which starts a
  triple-quoted string, so the dict holds one 15-character key
  `: '"',\n        ` (value `"`), and no curly-double-quote keys.
- `convert` is embedded as an `Except String` pipeline: the `ValueError`s
  raised by `extract_toc_and_man_pages` become `Except.error`, and the
  final `output_path.write_text` is represented by the `Except.ok` payload
  (`convertWrites`): on the error path no write happens in the source,
  since the exception propagates out of `convert` before the write call.
-/

namespace PdfMan

/-! ## Character classes -/

/-- Unicode whitespace as recognised by Python `str.strip`, `str.split`
and `re` `\s` on `str` patterns. -/
def pyWs (c : Char) : Bool :=
  let n := c.toNat
  n = 0x20 || n = 0x9 || n = 0xa || n = 0xd || n = 0xb || n = 0xc ||
  decide (0x1c ≤ n ∧ n ≤ 0x1f) || n = 0x85 || n = 0xa0 || n = 0x1680 ||
  decide (0x2000 ≤ n ∧ n ≤ 0x200a) || n = 0x2028 || n = 0x2029 ||
  n = 0x202f || n = 0x205f || n = 0x3000

/-- Line-break characters for Python `str.splitlines`. -/
def isLineBreak (c : Char) : Bool :=
  let n := c.toNat
  n = 0xa || n = 0xd || n = 0xb || n = 0xc ||
  decide (0x1c ≤ n ∧ n ≤ 0x1e) || n = 0x85 || n = 0x2028 || n = 0x2029

def isUp (c : Char) : Bool := decide ('A' ≤ c ∧ c ≤ 'Z')

def isLow (c : Char) : Bool := decide ('a' ≤ c ∧ c ≤ 'z')

def isDig (c : Char) : Bool := decide ('0' ≤ c ∧ c ≤ '9')

/-- Word characters for `\b` boundaries (`\w`): ASCII alphanumerics,
underscore, and the ligature glyphs this program manipulates. -/
def isWordCh (c : Char) : Bool :=
  isUp c || isLow c || isDig c || c = '_' ||
  decide (0xfb00 ≤ c.toNat ∧ c.toNat ≤ 0xfb06)

/-- Characters of the class `[\-‐-―]` (the dash variants the
converter splits NAME lines on). -/
def isDashCh (c : Char) : Bool :=
  c = '-' || decide (0x2010 ≤ c.toNat ∧ c.toNat ≤ 0x2015)

/-! ## Python string primitives -/

def splitlinesAux : List Char → List Char → List String
  | [], acc => if acc.isEmpty then [] else [String.mk acc.reverse]
  | '\r' :: '\n' :: rest, acc => String.mk acc.reverse :: splitlinesAux rest []
  | c :: rest, acc =>
    if isLineBreak c then String.mk acc.reverse :: splitlinesAux rest []
    else splitlinesAux rest (c :: acc)

/-- Python `str.splitlines`. -/
def splitlines (s : String) : List String := splitlinesAux s.data []

/-- The `"\n".join(lines)` of every per-line pass. -/
def joinNL : List String → String
  | [] => ""
  | [x] => x
  | x :: rest => x ++ "\n" ++ joinNL rest

def stripL (l : List Char) : List Char :=
  ((l.dropWhile pyWs).reverse.dropWhile pyWs).reverse

/-- Python `str.strip()` (no arguments: strips unicode whitespace). -/
def pstrip (s : String) : String := String.mk (stripL s.data)

/-- Python `str.lower()` (ASCII case mapping suffices for this program). -/
def lowerS (s : String) : String := String.mk (s.data.map Char.toLower)

def pySplitStep (c : Char) (st : List Char × List String) :
    List Char × List String :=
  if pyWs c then ([], if st.1.isEmpty then st.2 else String.mk st.1 :: st.2)
  else (c :: st.1, st.2)

/-- Python `str.split()` with no arguments: split on whitespace runs,
discarding empty tokens. -/
def pySplitL (l : List Char) : List String :=
  let st := l.foldr pySplitStep ([], [])
  if st.1.isEmpty then st.2 else String.mk st.1 :: st.2

def startsWithS (s pre : String) : Bool := pre.data.isPrefixOf s.data

def wsRunL (l : List Char) : Nat := (l.takeWhile pyWs).length

def upRunL (l : List Char) : Nat := (l.takeWhile isUp).length

def digRunL (l : List Char) : Nat := (l.takeWhile isDig).length

def allWsL (l : List Char) : Bool := l.all pyWs

/-! ## Regex engine (Brzozowski derivatives)

Character classes are first-order data so that regex values are plain
terms the kernel can evaluate. -/

inductive CC where
  | ws : CC
  | digit : CC
  | tokA : CC
  | tokASp : CC
  | tokAWs : CC
  | dotNL : CC
  | secCls : CC
  | one : Char → CC
  | lcOne : Char → CC

/-- Character-class membership: `tokA` is `[A-Z0-9_]`, `tokASp` adds the
space, `tokAWs` adds all of `\s`, `dotNL` is `.` (anything but newline),
`secCls` is `[A-Z0-9\s/_-]`, `one c` is the literal `c` and `lcOne c`
matches case-insensitively against `c` (given in lowercase): the
character itself, or its uppercase twin when `c` is a letter. -/
def CC.test : CC → Char → Bool
  | .ws, c => pyWs c
  | .digit, c => isDig c
  | .tokA, c => isUp c || isDig c || c = '_'
  | .tokASp, c => isUp c || isDig c || c = '_' || c = ' '
  | .tokAWs, c => isUp c || isDig c || c = '_' || pyWs c
  | .dotNL, c => c ≠ '\n'
  | .secCls, c => isUp c || isDig c || pyWs c || c = '/' || c = '_' || c = '-'
  | .one d, c => c = d
  | .lcOne d, c => c = d || (isLow d && c = Char.ofNat (d.toNat - 32))

inductive RE where
  | emp : RE
  | eps : RE
  | cls : CC → RE
  | seq : RE → RE → RE
  | alt : RE → RE → RE
  | star : RE → RE

def nullable : RE → Bool
  | .emp => false
  | .eps => true
  | .cls _ => false
  | .seq a b => nullable a && nullable b
  | .alt a b => nullable a || nullable b
  | .star _ => true

/-- Smart sequencing (keeps derivatives small). -/
def seqS : RE → RE → RE
  | .emp, _ => .emp
  | _, .emp => .emp
  | .eps, b => b
  | a, .eps => a
  | a, b => .seq a b

/-- Smart alternation (keeps derivatives small). -/
def altS : RE → RE → RE
  | .emp, b => b
  | a, .emp => a
  | a, b => .alt a b

def deriv : RE → Char → RE
  | .emp, _ => .emp
  | .eps, _ => .emp
  | .cls cc, c => if cc.test c then .eps else .emp
  | .seq a b, c =>
    if nullable a then altS (seqS (deriv a c) b) (deriv b c)
    else seqS (deriv a c) b
  | .alt a b, c => altS (deriv a c) (deriv b c)
  | .star a, c => seqS (deriv a c) (.star a)

/-- Whole-string regex membership (`re.match` of a `$`-anchored pattern). -/
def reFull (r : RE) (l : List Char) : Bool := nullable (l.foldl deriv r)

/-- Matching some prefix (`re.match` of an unanchored pattern). -/
def rePre : RE → List Char → Bool
  | r, [] => nullable r
  | r, c :: t => nullable r || rePre (deriv r c) t

def reSeq (rs : List RE) : RE := rs.foldr RE.seq RE.eps

def plusR (r : RE) : RE := .seq r (.star r)

def litR (s : String) : RE := reSeq (s.data.map (fun c => RE.cls (.one c)))

/-- Case-insensitive literal; argument given in lowercase. -/
def litCI (s : String) : RE := reSeq (s.data.map (fun c => RE.cls (.lcOne c)))

/-! ## The patterns of the converter -/

/-- `<!--\s*Page\s+\d+\s*-->` (IGNORECASE, unanchored `re.match`). -/
def pageMarkerRE : RE :=
  reSeq [litCI "<!--", .star (.cls .ws), litCI "page", plusR (.cls .ws),
    plusR (.cls .digit), .star (.cls .ws), litCI "-->"]

/-- `StorNext\s+File\s+System\s+\d+\s*$` (IGNORECASE). -/
def footerRE : RE :=
  reSeq [litCI "stornext", plusR (.cls .ws), litCI "file", plusR (.cls .ws),
    litCI "system", plusR (.cls .ws), plusR (.cls .digit), .star (.cls .ws)]

/-- `^[A-Z0-9_]+\(\d+\)\s+.*\s+[A-Z0-9_]+\(\d+\)\s*$`. -/
def runningHeaderRE : RE :=
  reSeq [plusR (.cls .tokA), litR "(", plusR (.cls .digit), litR ")",
    plusR (.cls .ws), .star (.cls .dotNL), plusR (.cls .ws),
    plusR (.cls .tokA), litR "(", plusR (.cls .digit), litR ")",
    .star (.cls .ws)]

/-- `^[A-Z0-9_\s]+\(\)\s+[A-Z0-9_\s]+\(\)\s*$` (redundant man-page header). -/
def manHeaderRE : RE :=
  reSeq [plusR (.cls .tokAWs), litR "()", plusR (.cls .ws),
    plusR (.cls .tokAWs), litR "()", .star (.cls .ws)]

/-- `^[A-Z0-9_ ]+\(\)\s+[A-Z0-9_ ]+\(\)\s*$` (command-boundary line). -/
def boundaryRE : RE :=
  reSeq [plusR (.cls .tokASp), litR "()", plusR (.cls .ws),
    plusR (.cls .tokASp), litR "()", .star (.cls .ws)]

/-- `^N\s*A\s*M\s*E\s*$` (IGNORECASE). -/
def nameLabelRE : RE :=
  reSeq [litCI "n", .star (.cls .ws), litCI "a", .star (.cls .ws),
    litCI "m", .star (.cls .ws), litCI "e", .star (.cls .ws)]

/-- `^[A-Z0-9\s/_-]+$` (section-label shape). -/
def sectionRE : RE := plusR (.cls .secCls)

def isMarkerLine (l : String) : Bool := pstrip l = "Table of Contents"

def isPageDelim (l : String) : Bool := pstrip l = "---"

def isPageMarker (l : String) : Bool := rePre pageMarkerRE (pstrip l).data

def isFooter (l : String) : Bool := reFull footerRE l.data

def isBoundary (l : String) : Bool := reFull boundaryRE (pstrip l).data

def isManHeader (l : String) : Bool := reFull manHeaderRE (pstrip l).data

def isNameLabel (l : String) : Bool := reFull nameLabelRE (pstrip l).data

/-! ## Stage 2: the Normalizer (three per-line filters) -/

/-- Keep predicate of `remove_page_delimiters`. -/
def keepPD (l : String) : Bool := !isPageDelim l && !isPageMarker l

/-- `remove_page_delimiters`. -/
def removePageDelimiters (text : String) : String :=
  joinNL ((splitlines text).filter keepPD)

/-- Keep predicate of `remove_footers`. -/
def keepFt (l : String) : Bool := !isFooter l

/-- `remove_footers`. -/
def removeFooters (text : String) : String :=
  joinNL ((splitlines text).filter keepFt)

/-- Keep predicate of `remove_running_headers`. -/
def keepRunning (l : String) : Bool :=
  let s := pstrip l
  !startsWithS s "StorNext 7 Man Pages Reference Guide" &&
  !startsWithS s "6-68799-01" &&
  !startsWithS s "December 2022" &&
  !reFull runningHeaderRE s.data

/-- `remove_running_headers`. -/
def removeRunningHeaders (text : String) : String :=
  joinNL ((splitlines text).filter keepRunning)

/-- `remove_man_page_headers`. -/
def removeManPageHeaders (text : String) : String :=
  joinNL ((splitlines text).filter (fun l => !isManHeader l))

/-! ## Stage 3: the Structure Splitter -/

/-- First index `i` in `[start, start+count)` with `p i` (the `for i in
range(...)` search loops). -/
def scanIdx (p : Nat → Bool) (start count : Nat) : Option Nat :=
  (List.range' start count).find? p

/-- `extract_toc_and_man_pages`: `ValueError` becomes `Except.error`. -/
def extractTocAndManPages (text : String) :
    Except String (String × String) :=
  let lines := splitlines text
  match lines.findIdx? isMarkerLine with
  | none => .error "Could not find Table of Contents in source file"
  | some tocStart =>
    match scanIdx (fun i => isBoundary (lines.getD i ""))
        tocStart (lines.length - tocStart) with
    | none => .error "Could not find first man-page header in source file"
    | some firstIdx =>
      .ok (joinNL ((lines.drop tocStart).take (firstIdx - tocStart)),
        joinNL (lines.drop firstIdx))

/-! ## Stage 4: the TOC Indexer -/

/-- Tail of the TOC-entry pattern after the lazy group:
`\s+\((\d+|[lL])\s*\)\s+\d+\s*$`; returns the captured section.  The
character classes at each boundary are disjoint, so this part of the
pattern is deterministic. -/
def tocTail (t : List Char) : Option String :=
  let w1 := wsRunL t
  if w1 = 0 then none else
  match t.drop w1 with
  | '(' :: t1 =>
    let d := digRunL t1
    let sec : Option (List Char × List Char) :=
      if 0 < d then some (t1.take d, t1.drop d)
      else
        match t1 with
        | c :: t1' => if c = 'l' ∨ c = 'L' then some ([c], t1') else none
        | [] => none
    match sec with
    | none => none
    | some (secChars, rest) =>
      match rest.drop (wsRunL rest) with
      | ')' :: t3 =>
        let w2 := wsRunL t3
        if w2 = 0 then none else
        let t4 := t3.drop w2
        let d2 := digRunL t4
        if d2 = 0 then none else
        if allWsL (t4.drop d2) then some (String.mk secChars) else none
      | _ => none
  | _ => none

/-- `re.match` of `^(.+?)\s+\((\d+|[lL])\s*\)\s+\d+\s*$`: the lazy group
takes the shortest prefix whose remainder matches the (deterministic)
tail; `.` excludes the newline. -/
def tocEntry (l : List Char) : Option (String × String) :=
  (List.range' 1 l.length).findSome? (fun i =>
    if (l.take i).contains '\n' then none
    else (tocTail (l.drop i)).map (fun sec => (String.mk (l.take i), sec)))

/-- `re.sub(r"\s+", "", name).lower()`. -/
def normalizeKey (s : String) : String :=
  String.mk ((s.data.filter (fun c => !pyWs c)).map Char.toLower)

/-- The TOC dictionary: association list where the most recent insertion
for a key wins (Python dict overwrite). -/
def TocMap := List (String × String × String)

def tocInsert (m : TocMap) (k d s : String) : TocMap := (k, d, s) :: m

def tocGet (m : TocMap) (k : String) : Option (String × String) :=
  ((m : List (String × String × String)).find? (fun e => e.1 == k)).map
    (fun e => e.2)

/-- Treatment of one TOC line by `build_toc_map`: insert the entry when
the line matches the pattern, do nothing otherwise. -/
def tocAccLine (m : TocMap) (l : String) : TocMap :=
  match tocEntry (pstrip l).data with
  | some (g1, sec) =>
    let name := pstrip g1
    tocInsert m (normalizeKey name) name sec
  | none => m

/-- `build_toc_map`. -/
def buildTocMap (tocText : String) : TocMap :=
  (splitlines tocText).foldl tocAccLine []

/-- The (key, display name, section) triple a TOC line contributes, if
any, used to state what `build_toc_map` computes. -/
def tocLineEntry (l : String) : Option (String × String × String) :=
  (tocEntry (pstrip l).data).map (fun p =>
    (normalizeKey (pstrip p.1), pstrip p.1, p.2))

/-! ## Stage 5: the Heading Synthesizer -/

/-- Prefix of a NAME line before the first dash-like character
(`re.split(r"[\-‐-―]", s, maxsplit=1)[0]`). -/
def takeBeforeDashL (l : List Char) : List Char :=
  l.takeWhile (fun c => !isDashCh c)

/-- First component of `re.split(r"\s*[\-‐-―]\s*", s,
maxsplit=1)`: if a dash occurs, also the whitespace run immediately
before it is consumed by the separator match. -/
def splitDashWs0 (l : List Char) : List Char :=
  let p := l.takeWhile (fun c => !isDashCh c)
  if p.length = l.length then l
  else (p.reverse.dropWhile pyWs).reverse

/-- Lookahead of `add_command_headings`: find the NAME label within 40
lines after the boundary, then the next non-blank line, and cut its text
at the first dash.  `none` when the lookahead is exhausted (`cmd_name`
stays Python `None`). -/
def cmdNameAt (lines : List String) (i : Nat) : Option String :=
  let limit := min lines.length (i + 40)
  match scanIdx (fun j => isNameLabel (lines.getD j "")) (i + 1)
      (limit - (i + 1)) with
  | none => none
  | some j =>
    match scanIdx (fun k => !(pstrip (lines.getD k "") == "")) (j + 1)
        (limit - (j + 1)) with
    | none => none
    | some k =>
      let nameLine := pstrip (lines.getD k "")
      some (pstrip (String.mk (takeBeforeDashL nameLine.data)))

/-- Fallback branch of the heading decision: derive a token from the
boundary line itself (`stripped.split("(")[0].strip().lower()`). -/
def fallbackHeading (stripped : String) : String :=
  let token := lowerS (pstrip (String.mk (stripped.data.takeWhile (fun c => c ≠ '('))))
  if token = "" then "## Command" else "## " ++ token

/-- Heading text chosen by `add_command_headings` for the boundary at
index `i` (a Python empty `cmd_name` is falsy, hence also the fallback). -/
def cmdHeadingAt (lines : List String) (toc : TocMap) (i : Nat) : String :=
  let stripped := pstrip (lines.getD i "")
  match cmdNameAt lines i with
  | some n =>
    if n = "" then fallbackHeading stripped
    else
      match tocGet toc (normalizeKey n) with
      | some (d, sec) =>
        if sec = "" then "## " ++ d else "## " ++ d ++ " (" ++ sec ++ ")"
      | none => "## " ++ n
  | none => fallbackHeading stripped

/-- Condition `out_lines and out_lines[-1].strip() != ""`. -/
def lastIsNonBlank (out : List String) : Bool :=
  match out.getLast? with
  | some l => !(pstrip l == "")
  | none => false

/-- Blank line inserted before a synthesized heading when the previous
emitted line is non-blank. -/
def padBlank (out : List String) : List String :=
  if lastIsNonBlank out then [""] else []

/-- Lines emitted by one iteration of the `add_command_headings` loop. -/
def addCmdEmit (lines : List String) (toc : TocMap) (i : Nat)
    (out : List String) : List String :=
  let line := lines.getD i ""
  if isBoundary line then padBlank out ++ [cmdHeadingAt lines toc i, "", line]
  else [line]

/-- One step of the `add_command_headings` loop. -/
def addCmdStep (lines : List String) (toc : TocMap) (out : List String)
    (i : Nat) : List String :=
  out ++ addCmdEmit lines toc i out

/-- The `add_command_headings` loop over the first `n` indices (the
state of `out_lines` after `n` iterations). -/
def addCmdRunTo (lines : List String) (toc : TocMap) (n : Nat) : List String :=
  (List.range n).foldl (addCmdStep lines toc) []

/-- The `add_command_headings` loop over all indices. -/
def addCmdRun (lines : List String) (toc : TocMap) : List String :=
  addCmdRunTo lines toc lines.length

/-- `add_command_headings`. -/
def addCommandHeadings (manText : String) (toc : TocMap) : String :=
  joinNL (addCmdRun (splitlines manText) toc)

/-- Index of the first line starting with `"## "`. -/
def firstCmdIdx (lines : List String) : Option Nat :=
  lines.findIdx? (fun l => startsWithS l "## ")

def lettersOf (s : String) : List Char :=
  s.data.filter (fun c => isUp c || isDig c)

/-- Condition under which `add_section_headings` treats line `idx` as a
section label (`letters and letters.isupper() and len(letters) >= 2`;
on an `[A-Z0-9]`-only string `isupper` means "some letter occurs"). -/
def isSecLabel (l : String) (idx first : Nat) : Bool :=
  let s := pstrip l
  decide (first ≤ idx) && reFull sectionRE s.data &&
  (let letters := lettersOf s
   !letters.isEmpty && letters.any isUp && decide (2 ≤ letters.length))

/-- `normalize_label`. -/
def normalizeLabel (s : String) : String :=
  let tokens := pySplitL s.data
  if !tokens.isEmpty && tokens.all (fun t => decide (t.length ≤ 2)) then
    String.join tokens
  else String.intercalate " " tokens

/-- Lines emitted by one iteration of the `add_section_headings` loop:
on a section label the heading replaces the line (the loop `continue`s
without emitting the original line). -/
def addSecEmit (first idx : Nat) (l : String) (out : List String) :
    List String :=
  if isSecLabel l idx first then
    padBlank out ++ ["### " ++ normalizeLabel (pstrip l)]
  else [l]

/-- One step of the `add_section_headings` loop. -/
def addSecStep (lines : List String) (first : Nat) (out : List String)
    (idx : Nat) : List String :=
  out ++ addSecEmit first idx (lines.getD idx "") out

/-- The `add_section_headings` loop over the first `n` indices. -/
def addSecFoldTo (lines : List String) (first n : Nat) : List String :=
  (List.range n).foldl (addSecStep lines first) []

/-- The `add_section_headings` loop, given the first-heading index. -/
def addSecFold (lines : List String) (first : Nat) : List String :=
  addSecFoldTo lines first lines.length

/-- The `add_section_headings` line transformation (identity when no
command heading exists). -/
def addSecRun (lines : List String) : List String :=
  match firstCmdIdx lines with
  | none => lines
  | some first => addSecFold lines first

/-- `add_section_headings` (returns the text unchanged when no command
heading exists, as the source does). -/
def addSectionHeadings (text : String) : String :=
  let lines := splitlines text
  match firstCmdIdx lines with
  | none => text
  | some first => joinNL (addSecFold lines first)

/-- Nearest non-blank line already emitted (`out_lines[j]` after skipping
blanks backwards); the raw line is returned, as the code tests
`out_lines[j].startswith("## ")` on the raw line. -/
def lastNonBlank (out : List String) : Option String :=
  out.reverse.find? (fun l => !(pstrip l == ""))

/-- Scan of the previous 10 raw input lines for a `## ` heading
(`for check_idx in range(max(0, idx - 10), idx)`). -/
def rawHasCmdHeading (lines : List String) (idx : Nat) : Bool :=
  (List.range' (idx - 10) (idx - (idx - 10))).any (fun ci =>
    let cl := pstrip (lines.getD ci "")
    startsWithS cl "## " && !startsWithS cl "###")

/-- The `need_heading` decision of `fix_missing_command_headings`. -/
def needHeading (lines : List String) (idx : Nat) (out : List String) :
    Bool :=
  match lastNonBlank out with
  | some l => if startsWithS l "## " then false else !rawHasCmdHeading lines idx
  | none => !rawHasCmdHeading lines idx

/-- Command name derived by the repair pass from the first non-blank line
after `### NAME` (`"Command"` when none exists). -/
def fixCmdNameAt (lines : List String) (idx : Nat) : String :=
  match scanIdx (fun k => !(pstrip (lines.getD k "") == "")) (idx + 1)
      (lines.length - (idx + 1)) with
  | some k => pstrip (String.mk (splitDashWs0 (pstrip (lines.getD k "")).data))
  | none => "Command"

/-- Heading synthesized by the repair pass at index `idx`. -/
def fixHeadingAt (lines : List String) (toc : TocMap) (idx : Nat) : String :=
  let n := fixCmdNameAt lines idx
  match tocGet toc (normalizeKey n) with
  | some (d, sec) =>
    if sec = "" then "## " ++ d else "## " ++ d ++ " (" ++ sec ++ ")"
  | none => "## " ++ n

/-- Lines emitted by one iteration of the `fix_missing_command_headings`
loop. -/
def fixEmit (lines : List String) (toc : TocMap) (idx : Nat)
    (out : List String) : List String :=
  let line := lines.getD idx ""
  if pstrip line == "### NAME" then
    if needHeading lines idx out then
      padBlank out ++ [fixHeadingAt lines toc idx, "", line]
    else [line]
  else [line]

/-- One step of the `fix_missing_command_headings` loop. -/
def fixStep (lines : List String) (toc : TocMap) (out : List String)
    (idx : Nat) : List String :=
  out ++ fixEmit lines toc idx out

/-- The `fix_missing_command_headings` loop over the first `n` indices. -/
def fixRunTo (lines : List String) (toc : TocMap) (n : Nat) : List String :=
  (List.range n).foldl (fixStep lines toc) []

/-- The `fix_missing_command_headings` loop over all indices. -/
def fixRun (lines : List String) (toc : TocMap) : List String :=
  fixRunTo lines toc lines.length

/-- `fix_missing_command_headings`. -/
def fixMissingCommandHeadings (text : String) (toc : TocMap) : String :=
  joinNL (fixRun (splitlines text) toc)

/-! ## Stage 6: the Text Cleaner -/

/-- Fuel-driven worker for `replaceStrL` (the fuel keeps the recursion
structural; any fuel at least the length of the list gives the same
result). -/
def replaceStrF (key rep : List Char) : Nat → List Char → List Char
  | _, [] => []
  | 0, l => l
  | fuel + 1, c :: t =>
    if key.isPrefixOf (c :: t) ∧ key ≠ [] then
      rep ++ replaceStrF key rep fuel ((c :: t).drop key.length)
    else c :: replaceStrF key rep fuel t

/-- Python `str.replace` for a non-empty needle: leftmost,
non-overlapping. -/
def replaceStrL (key rep : List Char) (l : List Char) : List Char :=
  replaceStrF key rep l.length l

def apos : Char := Char.ofNat 39

/-- The accidental multi-character key produced by the `"""` sequences on
source lines 42-43 (Python parses them as one triple-quoted string):
`: '"',` then a newline then eight spaces. -/
def strangeKey : String :=
  String.mk [':', ' ', apos, '"', apos, ',', '\n',
    ' ', ' ', ' ', ' ', ' ', ' ', ' ', ' ']

/-- `LIGATURE_REPLACEMENTS`, key for key as Python parses the source. -/
def LIG_TABLE : List (String × String) :=
  [(String.mk [Char.ofNat 0xfb01], "fi"),
   (String.mk [Char.ofNat 0xfb02], "fl"),
   (String.mk [Char.ofNat 0xfb00], "ff"),
   (String.mk [Char.ofNat 0xfb03], "ffi"),
   (String.mk [Char.ofNat 0xfb04], "ffl"),
   (String.mk [Char.ofNat 0xfb05], "st"),
   (String.mk [Char.ofNat 0xfb06], "st"),
   (String.mk [Char.ofNat 0x2019], String.mk [apos]),
   (String.mk [apos], String.mk [apos]),
   (strangeKey, String.mk ['"']),
   (String.mk [Char.ofNat 0x2013], "-"),
   (String.mk [Char.ofNat 0x2014], "-"),
   (String.mk [Char.ofNat 0x2212], "-"),
   (String.mk [Char.ofNat 0xa0], " ")]

/-- `cleanup_ligatures`: sequential `str.replace` over the table in
insertion order. -/
def cleanupLigatures (text : String) : String :=
  String.mk (LIG_TABLE.foldl (fun acc kv => replaceStrL kv.1.data kv.2.data acc)
    text.data)

/-- Greedy repetition scan of `(?:[A-Z]{1,4}\s+){2,}`: returns the number
of repetitions, the length consumed by them, and the length consumed up
to the end of the last repetition's token (the backtracking fallback
position).  Each repetition is a maximal uppercase run of length 1-4
followed by a non-empty whitespace run; runs are maximal, and a run of
5+ uppercase letters or a missing whitespace separator stops the scan
(shorter backtracked token splits are impossible, as the character after
a shortened token is still an uppercase letter).  The fuel argument
keeps the recursion structural; fuel at least the length of the list
gives the true greedy scan. -/
def repsScanF : Nat → List Char → Nat × Nat × Nat
  | 0, _ => (0, 0, 0)
  | fuel + 1, l =>
    let u := upRunL l
    if 1 ≤ u ∧ u ≤ 4 then
      let w := wsRunL (l.drop u)
      if 1 ≤ w then
        match repsScanF fuel ((l.drop u).drop w) with
        | (0, _, _) => (1, u + w, u)
        | (r + 1, cf, lt) => (r + 2, u + w + cf, u + w + lt)
      else (0, 0, 0)
    else (0, 0, 0)

/-- The greedy repetition scan of a match attempt. -/
def repsScanU (l : List Char) : Nat × Nat × Nat :=
  repsScanF l.length l

/-- One match attempt of `\b(?:[A-Z]{1,4}\s+){2,}[A-Z]{1,4}\b` at the
current position: `pw` says whether the previous character is a word
character (so the leading `\b` fails).  After the greedy repetitions, the
final token must be a maximal uppercase run of length 1-4 followed by a
non-word character or the end; otherwise the engine backtracks one
repetition and uses its token as the final token (needs 3 repetitions,
since `{2,}` must keep two).  Returns the length of the match. -/
def matchAtU (pw : Bool) (l : List Char) : Option Nat :=
  if pw then none else
  match repsScanU l with
  | (r, cf, lt) =>
    let z := l.drop cf
    let u := upRunL z
    let finalOk := decide (1 ≤ u ∧ u ≤ 4) &&
      (match z.drop u with
       | [] => true
       | c :: _ => !isWordCh c)
    if finalOk && decide (2 ≤ r) then some (cf + u)
    else if 3 ≤ r then some lt else none

/-- Fuel-driven worker of the `re.sub` scan: try a match at every
position left to right; on a match, emit it with its ASCII spaces
removed (`group(0).replace(' ', '')`) and continue after it (a match
always ends in an uppercase letter, so the word-state after it is
`true`).  Fuel at least the length of the list gives the true scan. -/
def scanF : Nat → Bool → List Char → List Char
  | _, _, [] => []
  | 0, _, l => l
  | fuel + 1, pw, c :: t =>
    match matchAtU pw (c :: t) with
    | none => c :: scanF fuel (isWordCh c) t
    | some e =>
      if 1 ≤ e then
        ((c :: t).take e).filter (fun x => x ≠ ' ') ++
          scanF fuel true ((c :: t).drop e)
      else c :: scanF fuel (isWordCh c) t

def scanU (pw : Bool) (l : List Char) : List Char :=
  scanF l.length pw l

/-- `cleanup_uppercase_spacing`. -/
def cleanupUppercaseSpacing (text : String) : String :=
  String.mk (scanU false text.data)

/-! ## The full pipeline (`convert`) -/

/-- Stages 2-6 of `convert`, producing the final TOC text and body text;
`Except.error` is a raised `ValueError`. -/
def convertStages (text : String) : Except String (String × String) :=
  let t3 := removeRunningHeaders (removeFooters (removePageDelimiters text))
  (extractTocAndManPages t3).map (fun p =>
    let toc := buildTocMap p.1
    let man := addCommandHeadings p.2 toc
    let man := addSectionHeadings man
    let man := fixMissingCommandHeadings man toc
    let man := removeManPageHeaders man
    let man := cleanupLigatures man
    let tocText := cleanupLigatures p.1
    let man := cleanupUppercaseSpacing man
    let tocText := cleanupUppercaseSpacing tocText
    (tocText, man))

/-- `convert`: the final text written to the output file, or the error. -/
def convertPipeline (text : String) : Except String String :=
  (convertStages text).map (fun p => p.1 ++ "\n\n" ++ p.2 ++ "\n")

/-- Contents written to the output file: `none` when `convert` raises
before reaching `output_path.write_text`. -/
def convertWrites (text : String) : Option String :=
  (convertPipeline text).toOption

/-- Final body text (`man_text` after all passes), for line-count
comparisons. -/
def convertManText (text : String) : Option String :=
  (convertStages text).toOption.map (fun p => p.2)

/-- Number of lines of a text (`len(text.splitlines())`). -/
def lineCount (s : String) : Nat := (splitlines s).length

/-- Body region of the raw extracted text: the lines from the first
command-boundary line onward. -/
def rawBodyLines (text : String) : List String :=
  let lines := splitlines text
  match lines.findIdx? isBoundary with
  | some i => lines.drop i
  | none => []

/-! ## Bounds-checked variants of the Heading Synthesizer

Each Python subscript `lines[...]` in the three heading passes is
modelled with the guarded `lines[j]?`: an out-of-range access aborts the
whole pass with `none` (an uncaught `IndexError`), while a TOC miss and
an exhausted lookahead take the fallback branches of the source. -/

/-- Checked lookahead scan: fetch each index with `lines[j]?`, stop at
the first fetched line satisfying `q`; `some none` means the scan ran
out of indices, `none` means an out-of-range access. -/
def scanChk (lines : List String) (q : String → Bool) :
    List Nat → Option (Option Nat)
  | [] => some none
  | j :: rest =>
    match lines[j]? with
    | none => none
    | some l => if q l then some (some j) else scanChk lines q rest

/-- Checked existence scan over raw input indices. -/
def anyChk (lines : List String) (q : String → Bool) :
    List Nat → Option Bool
  | [] => some false
  | j :: rest =>
    match lines[j]? with
    | none => none
    | some l => if q l then some true else anyChk lines q rest

/-- Checked `cmd_name` lookahead of `add_command_headings`. -/
def cmdNameAtChk (lines : List String) (i : Nat) : Option (Option String) :=
  match scanChk lines (fun l => isNameLabel l)
      (List.range' (i + 1) (min lines.length (i + 40) - (i + 1))) with
  | none => none
  | some none => some none
  | some (some j) =>
    match scanChk lines (fun l => !(pstrip l == ""))
        (List.range' (j + 1) (min lines.length (i + 40) - (j + 1))) with
    | none => none
    | some none => some none
    | some (some k) =>
      match lines[k]? with
      | none => none
      | some lk =>
        some (some (pstrip (String.mk (takeBeforeDashL (pstrip lk).data))))

/-- Checked heading decision of `add_command_headings`. -/
def cmdHeadingAtChk (lines : List String) (toc : TocMap) (i : Nat) :
    Option String :=
  match lines[i]? with
  | none => none
  | some line =>
    match cmdNameAtChk lines i with
    | none => none
    | some (some n) =>
      if n = "" then some (fallbackHeading (pstrip line))
      else
        match tocGet toc (normalizeKey n) with
        | some (d, sec) =>
          some (if sec = "" then "## " ++ d else "## " ++ d ++ " (" ++ sec ++ ")")
        | none => some ("## " ++ n)
    | some none => some (fallbackHeading (pstrip line))

/-- Checked emission of one `add_command_headings` iteration. -/
def addCmdEmitChk (lines : List String) (toc : TocMap) (i : Nat)
    (out : List String) : Option (List String) :=
  match lines[i]? with
  | none => none
  | some line =>
    if isBoundary line then
      match cmdHeadingAtChk lines toc i with
      | none => none
      | some h => some (padBlank out ++ [h, "", line])
    else some [line]

/-- Checked step of the `add_command_headings` loop. -/
def addCmdStepChk (lines : List String) (toc : TocMap)
    (acc : Option (List String)) (i : Nat) : Option (List String) :=
  match acc with
  | none => none
  | some out =>
    match addCmdEmitChk lines toc i out with
    | none => none
    | some e => some (out ++ e)

/-- Checked `add_command_headings` loop over all indices. -/
def addCmdRunChk (lines : List String) (toc : TocMap) :
    Option (List String) :=
  (List.range lines.length).foldl (addCmdStepChk lines toc) (some [])

/-- Checked `add_command_headings`. -/
def addCommandHeadingsChk (manText : String) (toc : TocMap) :
    Option String :=
  (addCmdRunChk (splitlines manText) toc).map joinNL

/-- Checked step of the `add_section_headings` loop (its only access to
the input is the loop line itself). -/
def addSecStepChk (lines : List String) (first : Nat)
    (acc : Option (List String)) (idx : Nat) : Option (List String) :=
  match acc with
  | none => none
  | some out =>
    match lines[idx]? with
    | none => none
    | some l => some (out ++ addSecEmit first idx l out)

/-- Checked `add_section_headings`. -/
def addSectionHeadingsChk (text : String) : Option String :=
  match firstCmdIdx (splitlines text) with
  | none => some text
  | some first =>
    ((List.range (splitlines text).length).foldl
      (addSecStepChk (splitlines text) first) (some [])).map joinNL

/-- Checked 10-line lookback of `fix_missing_command_headings`. -/
def rawHasCmdHeadingChk (lines : List String) (idx : Nat) : Option Bool :=
  anyChk lines
    (fun cl0 => startsWithS (pstrip cl0) "## " && !startsWithS (pstrip cl0) "###")
    (List.range' (idx - 10) (idx - (idx - 10)))

/-- Checked `need_heading` decision (the backwards scan of `out_lines`
is index-guarded in the source and stays pure). -/
def needHeadingChk (lines : List String) (idx : Nat) (out : List String) :
    Option Bool :=
  match lastNonBlank out with
  | some l =>
    if startsWithS l "## " then some false
    else
      match rawHasCmdHeadingChk lines idx with
      | none => none
      | some b => some (!b)
  | none =>
    match rawHasCmdHeadingChk lines idx with
    | none => none
    | some b => some (!b)

/-- Checked command-name lookahead of the repair pass. -/
def fixCmdNameAtChk (lines : List String) (idx : Nat) : Option String :=
  match scanChk lines (fun l => !(pstrip l == ""))
      (List.range' (idx + 1) (lines.length - (idx + 1))) with
  | none => none
  | some none => some "Command"
  | some (some k) =>
    match lines[k]? with
    | none => none
    | some lk => some (pstrip (String.mk (splitDashWs0 (pstrip lk).data)))

/-- Checked heading synthesis of the repair pass. -/
def fixHeadingAtChk (lines : List String) (toc : TocMap) (idx : Nat) :
    Option String :=
  match fixCmdNameAtChk lines idx with
  | none => none
  | some n =>
    match tocGet toc (normalizeKey n) with
    | some (d, sec) =>
      some (if sec = "" then "## " ++ d else "## " ++ d ++ " (" ++ sec ++ ")")
    | none => some ("## " ++ n)

/-- Checked emission of one `fix_missing_command_headings` iteration. -/
def fixEmitChk (lines : List String) (toc : TocMap) (idx : Nat)
    (out : List String) : Option (List String) :=
  match lines[idx]? with
  | none => none
  | some line =>
    if pstrip line == "### NAME" then
      match needHeadingChk lines idx out with
      | none => none
      | some b =>
        if b then
          match fixHeadingAtChk lines toc idx with
          | none => none
          | some h => some (padBlank out ++ [h, "", line])
        else some [line]
    else some [line]

/-- Checked step of the `fix_missing_command_headings` loop. -/
def fixStepChk (lines : List String) (toc : TocMap)
    (acc : Option (List String)) (idx : Nat) : Option (List String) :=
  match acc with
  | none => none
  | some out =>
    match fixEmitChk lines toc idx out with
    | none => none
    | some e => some (out ++ e)

/-- Checked `fix_missing_command_headings` loop over all indices. -/
def fixRunChk (lines : List String) (toc : TocMap) : Option (List String) :=
  (List.range lines.length).foldl (fixStepChk lines toc) (some [])

/-- Checked `fix_missing_command_headings`. -/
def fixMissingCommandHeadingsChk (text : String) (toc : TocMap) :
    Option String :=
  (fixRunChk (splitlines text) toc).map joinNL

/-! ## Block decomposition scaffolding for the spacing-idempotence proof -/

/-- The final-token test of `matchAtU` at the greedy stop suffix. -/
def finalOkAt (z : List Char) : Bool :=
  decide (1 ≤ upRunL z ∧ upRunL z ≤ 4) &&
    (match z.drop (upRunL z) with
     | [] => true
     | c :: _ => !isWordCh c)

/-- Flattening of a token/separator block list followed by a final
token. -/
def blocksFlat (bs : List (List Char × List Char)) (F : List Char) :
    List Char :=
  bs.foldr (fun p acc => p.1 ++ p.2 ++ acc) F

/-- Well-formed token/separator pair: a nonempty uppercase token and a
nonempty whitespace separator. -/
def WFpair (p : List Char × List Char) : Prop :=
  p.1 ≠ [] ∧ (∀ c ∈ p.1, isUp c = true) ∧ p.2 ≠ [] ∧ ∀ c ∈ p.2, pyWs c = true

/-- Well-formed token/separator pair whose separator is also free of
ASCII spaces. -/
def WFpairF (p : List Char × List Char) : Prop :=
  p.1 ≠ [] ∧ (∀ c ∈ p.1, isUp c = true) ∧ p.2 ≠ [] ∧
  (∀ c ∈ p.2, pyWs c = true) ∧ (∀ c ∈ p.2, c ≠ ' ')

/-- Admissible context after a match region: either the next character
(if any) is neither a word nor a whitespace character, or the context is
a whitespace run followed by a suffix on which the repetition scan stops
immediately and the final-token test fails. -/
def CtxOK (ctx : List Char) : Prop :=
  (∀ c, ctx.head? = some c → isWordCh c = false ∧ pyWs c = false) ∨
  (∃ S y, ctx = S ++ y ∧ S ≠ [] ∧ (∀ c ∈ S, pyWs c = true) ∧
    repsScanU y = (0, 0, 0) ∧ finalOkAt y = false ∧
    (∀ c, y.head? = some c → pyWs c = false))


/-! ## Helper lemmas -/

theorem range_split (n m : Nat) (h : n ≤ m) :
    List.range m = List.range n ++ List.range' n (m - n) := by
  rw [List.range_eq_range', List.range_eq_range']
  have h2 := List.range'_append 0 n (m - n) 1
  simp only [Nat.zero_add, Nat.one_mul] at h2
  have h3 : List.range' 0 m = List.range' 0 (m - n + n) := by
    rw [show m - n + n = m by omega]
  rw [h3, ← h2]

theorem tocGet_insert (m : TocMap) (k d s q : String) :
    tocGet (tocInsert m k d s) q =
      if k == q then some (d, s) else tocGet m q := by
  by_cases h : k == q <;> simp [tocGet, tocInsert, List.find?_cons, h]

theorem tocGet_foldl (k : String) : ∀ (ls : List String) (m : TocMap),
    tocGet (ls.foldl tocAccLine m) k =
      ((((ls.filterMap tocLineEntry).reverse.find? (fun e => e.1 == k)).map
        (fun e => e.2)).or (tocGet m k)) := by
  intro ls
  induction ls with
  | nil => intro m; simp
  | cons l ls ih =>
    intro m
    cases h : tocEntry (pstrip l).data with
    | none =>
      have h1 : tocLineEntry l = none := by simp [tocLineEntry, h]
      have h2 : tocAccLine m l = m := by simp [tocAccLine, h]
      simp only [List.foldl_cons, List.filterMap_cons, h1, h2, ih]
    | some p =>
      have h1 : tocLineEntry l =
          some (normalizeKey (pstrip p.1), pstrip p.1, p.2) := by
        simp [tocLineEntry, h]
      have h2 : tocAccLine m l =
          tocInsert m (normalizeKey (pstrip p.1)) (pstrip p.1) p.2 := by
        rw [tocAccLine, h]
      simp only [List.foldl_cons, List.filterMap_cons, h1, h2, ih,
        List.reverse_cons, List.find?_append, tocGet_insert]
      cases h3 : (List.filterMap tocLineEntry ls).reverse.find? (fun e => e.1 == k) with
      | some e => simp
      | none =>
        by_cases h4 : normalizeKey (pstrip p.1) == k <;>
          simp [List.find?_cons, h4]

/-- C3: `build_toc_map` maps, for each line matching the TOC-entry shape,
the whitespace-removed case-folded name to the pair (trimmed name,
section); non-matching lines are ignored; on key collisions the last
occurrence wins (the lookup returns the entry of the last contributing
line with that key); and the line `ACCESS_JSON (1)    42` yields the
entry `access_json` to `(ACCESS_JSON, 1)`. -/
theorem toc_map_builds_last_wins :
    (∀ (tocText : String) (k : String),
      tocGet (buildTocMap tocText) k =
        (((splitlines tocText).filterMap tocLineEntry).reverse.find?
          (fun e => e.1 == k)).map (fun e => e.2)) ∧
    tocGet (buildTocMap "ACCESS_JSON (1)    42") "access_json" =
      some ("ACCESS_JSON", "1") := by
  constructor
  · intro tocText k
    have h := tocGet_foldl k (splitlines tocText) []
    have h0 : tocGet [] k = none := rfl
    rw [h0, Option.or_none] at h
    exact h
  · decide

/-- C6: `normalize_label` joins the whitespace tokens of the line with no
separator when every token has length at most 2, and with a single space
otherwise; in particular `SEE ALSO` normalizes to `SEE ALSO` and
`N A M E` to `NAME`. -/
theorem normalize_label_rule :
    (∀ s : String,
      ((∀ t ∈ pySplitL s.data, t.length ≤ 2) →
        normalizeLabel s = String.join (pySplitL s.data)) ∧
      ((∃ t ∈ pySplitL s.data, 2 < t.length) →
        normalizeLabel s = String.intercalate " " (pySplitL s.data))) ∧
    normalizeLabel "SEE ALSO" = "SEE ALSO" ∧
    normalizeLabel "N A M E" = "NAME" := by
  refine ⟨fun s => ⟨fun h => ?_, fun h => ?_⟩, by decide, by decide⟩
  · cases he : pySplitL s.data with
    | nil => simp [normalizeLabel, he]; rfl
    | cons t ts =>
      have hall : (t :: ts).all (fun t => decide (t.length ≤ 2)) = true := by
        rw [List.all_eq_true]
        intro x hx
        simpa using h x (he ▸ hx)
      simp [normalizeLabel, he, hall]
  · obtain ⟨t, ht, hlen⟩ := h
    have hall : (pySplitL s.data).all (fun t => decide (t.length ≤ 2)) = false := by
      rw [List.all_eq_false]
      exact ⟨t, ht, by simpa using hlen⟩
    simp [normalizeLabel, hall]

/-- Witness for C6 at the two concrete labels of the claim. -/
theorem normalize_label_rule_witness :
    normalizeLabel "N A M E" = String.join (pySplitL ("N A M E" : String).data) ∧
    normalizeLabel "SEE ALSO" =
      String.intercalate " " (pySplitL ("SEE ALSO" : String).data) :=
  ⟨((normalize_label_rule.1 "N A M E").1 (by decide)),
   ((normalize_label_rule.1 "SEE ALSO").2 (by decide))⟩


/-! ## Lines emitted by splitlines contain no line breaks -/

theorem splitlinesAux_noBreak : ∀ (cs acc : List Char),
    (∀ c ∈ acc, isLineBreak c = false) →
    ∀ l ∈ splitlinesAux cs acc, ∀ c ∈ l.data, isLineBreak c = false := by
  intro cs acc
  induction cs, acc using splitlinesAux.induct with
  | case1 acc hacc =>
    intro h l hl
    rw [splitlinesAux, if_pos hacc] at hl
    simp at hl
  | case2 acc hacc =>
    intro h l hl c hc
    rw [splitlinesAux, if_neg hacc] at hl
    simp at hl
    subst hl
    simp at hc
    exact h c hc
  | case3 rest acc ih =>
    intro h l hl c hc
    rw [splitlinesAux] at hl
    rcases List.mem_cons.mp hl with h1 | h1
    · subst h1
      simp at hc
      exact h c hc
    · exact ih (by simp) l h1 c hc
  | case4 c0 rest acc hne hbrk ih =>
    intro h l hl c hc
    rw [splitlinesAux] at hl
    case x_2 => exact hne
    simp only [hbrk, if_true] at hl
    rcases List.mem_cons.mp hl with h1 | h1
    · subst h1
      simp at hc
      exact h c hc
    · exact ih (by simp) l h1 c hc
  | case5 c0 rest acc hne hbrk ih =>
    intro h l hl c hc
    rw [splitlinesAux] at hl
    case x_2 => exact hne
    simp only [Bool.not_eq_true] at hbrk
    simp only [hbrk, Bool.false_eq_true, if_false] at hl
    refine ih ?_ l hl c hc
    intro x hx
    rcases List.mem_cons.mp hx with h1 | h1
    · subst h1
      exact hbrk
    · exact h x h1

theorem splitlines_noBreak (s : String) :
    ∀ l ∈ splitlines s, ∀ c ∈ l.data, isLineBreak c = false :=
  splitlinesAux_noBreak s.data [] (by simp)


/-! ## Round trip of join and splitlines on break-free lines -/

theorem splitlinesAux_flat : ∀ (cs : List Char), ∀ (acc : List Char),
    (∀ c ∈ cs, isLineBreak c = false) →
    splitlinesAux cs acc =
      if acc.isEmpty && cs.isEmpty then [] else
        [String.mk (acc.reverse ++ cs)] := by
  intro cs
  induction cs with
  | nil =>
    intro acc h
    rw [splitlinesAux]
    cases acc <;> simp
  | cons c cs ih =>
    intro acc h
    have hbrk : isLineBreak c = false := h c (by simp)
    have hcr : c ≠ '\r' := by
      intro he
      rw [he] at hbrk
      simp [isLineBreak] at hbrk
    rw [splitlinesAux]
    case x_2 => exact fun r1 hc _ => hcr hc
    rw [hbrk]
    simp only [Bool.false_eq_true, if_false]
    rw [ih (c :: acc) (fun x hx => h x (List.mem_cons_of_mem c hx))]
    simp

theorem splitlinesAux_breakAt : ∀ (xs : List Char), ∀ (rest acc : List Char),
    (∀ c ∈ xs, isLineBreak c = false) →
    splitlinesAux (xs ++ '\n' :: rest) acc =
      String.mk (acc.reverse ++ xs) :: splitlinesAux rest [] := by
  intro xs
  induction xs with
  | nil =>
    intro rest acc h
    rw [List.nil_append, splitlinesAux]
    case x_2 => exact fun r1 hc _ => by simp at hc
    simp [isLineBreak]
  | cons x xs ih =>
    intro rest acc h
    have hbrk : isLineBreak x = false := h x (by simp)
    have hcr : x ≠ '\r' := by
      intro he
      rw [he] at hbrk
      simp [isLineBreak] at hbrk
    rw [List.cons_append, splitlinesAux]
    case x_2 => exact fun r1 hc _ => hcr hc
    rw [hbrk]
    simp only [Bool.false_eq_true, if_false]
    rw [ih rest (x :: acc) (fun c hc => h c (List.mem_cons_of_mem x hc))]
    simp

theorem data_joinNL_cons (x y : String) (ls : List String) :
    (joinNL (x :: y :: ls)).data = x.data ++ '\n' :: (joinNL (y :: ls)).data := by
  rw [joinNL]
  case x_2 => exact fun h => by simp at h
  rw [String.data_append, String.data_append]
  simp

theorem splitlines_joinNL : ∀ (ls : List String),
    (∀ l ∈ ls, ∀ c ∈ l.data, isLineBreak c = false) →
    splitlines (joinNL ls) = ls ∨
      ∃ p, ls = p ++ [""] ∧ splitlines (joinNL ls) = p := by
  intro ls
  induction ls with
  | nil => intro _; left; rfl
  | cons x ls ih =>
    intro h
    cases ls with
    | nil =>
      rw [joinNL]
      unfold splitlines
      rw [splitlinesAux_flat x.data [] (h x (by simp))]
      by_cases hx : x.data.isEmpty
      · right
        refine ⟨[], ?_, ?_⟩
        · have : x = "" := by
            cases x with
            | mk d => cases d with
              | nil => rfl
              | cons a b => simp at hx
          rw [this]
          rfl
        · simp [hx]
      · left
        simp [hx]
    | cons y ls' =>
      have hx : ∀ c ∈ x.data, isLineBreak c = false := h x (by simp)
      have hrest : ∀ l ∈ y :: ls', ∀ c ∈ l.data, isLineBreak c = false :=
        fun l hl => h l (List.mem_cons_of_mem x hl)
      have hstep : splitlines (joinNL (x :: y :: ls')) =
          x :: splitlines (joinNL (y :: ls')) := by
        unfold splitlines
        rw [data_joinNL_cons, splitlinesAux_breakAt x.data _ [] hx]
        simp
      rcases ih hrest with h1 | ⟨p, hp1, hp2⟩
      · left
        rw [hstep, h1]
      · right
        refine ⟨x :: p, by rw [hp1]; rfl, ?_⟩
        rw [hstep, hp2]

/-! ## Stage 2 never increases, heading passes never decrease, line counts -/

theorem lineCount_filter_stage (keep : String → Bool) (s : String) :
    lineCount (joinNL ((splitlines s).filter keep)) ≤ lineCount s := by
  have hnb : ∀ l ∈ (splitlines s).filter keep, ∀ c ∈ l.data, isLineBreak c = false :=
    fun l hl => splitlines_noBreak s l (List.mem_of_mem_filter hl)
  have hlen : ((splitlines s).filter keep).length ≤ (splitlines s).length :=
    List.length_filter_le _ _
  simp only [lineCount]
  rcases splitlines_joinNL _ hnb with h | ⟨p, hp, h⟩
  · rw [h]
    exact hlen
  · rw [h]
    have : ((splitlines s).filter keep).length = p.length + 1 := by
      rw [hp]
      simp
    omega

theorem addCmdRunTo_succ (lines : List String) (toc : TocMap) (n : Nat) :
    addCmdRunTo lines toc (n + 1) =
      addCmdRunTo lines toc n ++
        addCmdEmit lines toc n (addCmdRunTo lines toc n) := by
  rw [addCmdRunTo, addCmdRunTo, List.range_succ, List.foldl_append]
  rfl

theorem addSecFoldTo_succ (lines : List String) (first n : Nat) :
    addSecFoldTo lines first (n + 1) =
      addSecFoldTo lines first n ++
        addSecEmit first n (lines.getD n "") (addSecFoldTo lines first n) := by
  rw [addSecFoldTo, addSecFoldTo, List.range_succ, List.foldl_append]
  rfl

theorem fixRunTo_succ (lines : List String) (toc : TocMap) (n : Nat) :
    fixRunTo lines toc (n + 1) =
      fixRunTo lines toc n ++ fixEmit lines toc n (fixRunTo lines toc n) := by
  rw [fixRunTo, fixRunTo, List.range_succ, List.foldl_append]
  rfl

theorem addCmdEmit_len (lines : List String) (toc : TocMap) (i : Nat)
    (out : List String) : 1 ≤ (addCmdEmit lines toc i out).length := by
  rw [addCmdEmit]
  split <;> simp

theorem addSecEmit_len (first idx : Nat) (l : String) (out : List String) :
    1 ≤ (addSecEmit first idx l out).length := by
  rw [addSecEmit]
  split <;> simp

theorem fixEmit_len (lines : List String) (toc : TocMap) (idx : Nat)
    (out : List String) : 1 ≤ (fixEmit lines toc idx out).length := by
  rw [fixEmit]
  split
  · split <;> simp
  · simp

theorem addCmdRunTo_len (lines : List String) (toc : TocMap) :
    ∀ n, n ≤ (addCmdRunTo lines toc n).length := by
  intro n
  induction n with
  | zero => simp
  | succ n ihn =>
    rw [addCmdRunTo_succ, List.length_append]
    have := addCmdEmit_len lines toc n (addCmdRunTo lines toc n)
    omega

theorem addSecFoldTo_len (lines : List String) (first : Nat) :
    ∀ n, n ≤ (addSecFoldTo lines first n).length := by
  intro n
  induction n with
  | zero => simp
  | succ n ihn =>
    rw [addSecFoldTo_succ, List.length_append]
    have := addSecEmit_len first n (lines.getD n "") (addSecFoldTo lines first n)
    omega

theorem fixRunTo_len (lines : List String) (toc : TocMap) :
    ∀ n, n ≤ (fixRunTo lines toc n).length := by
  intro n
  induction n with
  | zero => simp
  | succ n ihn =>
    rw [fixRunTo_succ, List.length_append]
    have := fixEmit_len lines toc n (fixRunTo lines toc n)
    omega

/-- C9 (amended): stage 2 (the Normalizer: page-delimiter, footer and
running-header removal) never increases the line count, and each heading
pass of the Heading Synthesizer never decreases the number of body
lines; the full stage 2-6 composition is not monotone in either
direction (see the counterexample theorem). -/
theorem line_counts_monotone :
    (∀ text : String,
      lineCount (removeRunningHeaders (removeFooters
        (removePageDelimiters text))) ≤ lineCount text) ∧
    (∀ (lines : List String) (toc : TocMap),
      lines.length ≤ (addCmdRun lines toc).length) ∧
    (∀ lines : List String, lines.length ≤ (addSecRun lines).length) ∧
    (∀ (lines : List String) (toc : TocMap),
      lines.length ≤ (fixRun lines toc).length) := by
  refine ⟨fun text => ?_, fun lines toc => ?_, fun lines => ?_, fun lines toc => ?_⟩
  · calc lineCount (removeRunningHeaders (removeFooters (removePageDelimiters text)))
        ≤ lineCount (removeFooters (removePageDelimiters text)) :=
          lineCount_filter_stage keepRunning _
      _ ≤ lineCount (removePageDelimiters text) :=
          lineCount_filter_stage keepFt _
      _ ≤ lineCount text := lineCount_filter_stage keepPD _
  · exact addCmdRunTo_len lines toc lines.length
  · rw [addSecRun]
    cases h : firstCmdIdx lines with
    | none => simp
    | some first => exact addSecFoldTo_len lines first lines.length
  · exact fixRunTo_len lines toc lines.length

/-- Counterexample to C9 as stated: an input whose body region loses
lines across the stage 2-6 composition (two footer lines are removed
and the redundant boundary line is deleted after heading synthesis, so
the final body has fewer lines than the raw body region). -/
theorem line_count_shrinks_cex :
    convertManText
        "Table of Contents\nAB() AB()\nStorNext File System 9\nStorNext File System 10" =
      some "## ab\n" ∧
    lineCount "## ab\n" <
      (rawBodyLines
        "Table of Contents\nAB() AB()\nStorNext File System 9\nStorNext File System 10").length := by
  constructor
  · decide
  · decide


/-! ## Emission of synthesized headings (add_command_headings,
add_section_headings, fix_missing_command_headings) -/

theorem getD_append_cons : ∀ (pre : List String) (l : String)
    (post : List String) (d : String),
    (pre ++ l :: post).getD pre.length d = l := by
  intro pre
  induction pre with
  | nil => intro l post d; rfl
  | cons a pre ih =>
    intro l post d
    simpa using ih l post d

theorem length_split_lt (pre post : List String) (l : String) :
    pre.length < (pre ++ l :: post).length := by
  simp

/-- C2 (amended): at every boundary line whose lookahead resolves the
command name `access_json`, with the TOC index mapping it to
`("ACCESS_JSON", "1")`, `add_command_headings` emits `## ACCESS_JSON (1)`
followed by a blank line and then the preserved boundary line; one blank
line is inserted before the heading exactly when the output emitted so
far ends with a non-blank line (`padBlank`); when the boundary is the
first line, or the previously emitted line is blank, no blank is
inserted. -/
theorem add_command_heading_emission (lines : List String) (toc : TocMap)
    (pre post : List String) (l : String)
    (hsplit : lines = pre ++ l :: post)
    (hb : isBoundary l = true)
    (hname : cmdNameAt lines pre.length = some "access_json")
    (htoc : tocGet toc (normalizeKey "access_json") = some ("ACCESS_JSON", "1")) :
    addCmdRun lines toc =
      (List.range' (pre.length + 1) (lines.length - (pre.length + 1))).foldl
        (addCmdStep lines toc)
        (addCmdRunTo lines toc pre.length ++
          padBlank (addCmdRunTo lines toc pre.length) ++
          ["## ACCESS_JSON (1)", "", l]) := by
  have hn : pre.length < lines.length := by
    rw [hsplit]
    exact length_split_lt pre post l
  have hl : lines.getD pre.length "" = l := by
    rw [hsplit]
    exact getD_append_cons pre l post ""
  have hheading : cmdHeadingAt lines toc pre.length = "## ACCESS_JSON (1)" := by
    rw [cmdHeadingAt, hname]
    simp [htoc]
  rw [addCmdRun, addCmdRunTo, range_split (pre.length + 1) lines.length (by omega),
    List.foldl_append]
  have hstepeq : List.foldl (addCmdStep lines toc) [] (List.range (pre.length + 1)) =
      addCmdRunTo lines toc (pre.length + 1) := rfl
  rw [hstepeq, addCmdRunTo_succ, addCmdEmit, hl, hb, if_pos rfl, hheading]
  simp [List.append_assoc]

/-- Counterexample to C2 as stated: when the boundary is the first body
line, the synthesized heading is the first emitted line and is not
preceded by any blank line, refuting "preceded by exactly one blank
line" for every such input. -/
theorem add_command_heading_no_leading_blank_cex :
    addCmdRun
        ["ACCESS_JSON() ACCESS_JSON()", "NAME", "access_json - manage JSON access"]
        [("access_json", "ACCESS_JSON", "1")] =
      ["## ACCESS_JSON (1)", "", "ACCESS_JSON() ACCESS_JSON()", "NAME",
        "access_json - manage JSON access"] ∧
    (addCmdRun
        ["ACCESS_JSON() ACCESS_JSON()", "NAME", "access_json - manage JSON access"]
        [("access_json", "ACCESS_JSON", "1")]).head? =
      some "## ACCESS_JSON (1)" := by
  constructor
  · decide
  · decide

/-- Witness for C2 (amended) with a non-blank line before the boundary:
exactly one blank line is inserted before the heading. -/
theorem add_command_heading_emission_witness :
    addCmdRun
        ["x", "ACCESS_JSON() ACCESS_JSON()", "NAME",
          "access_json - manage JSON access"]
        [("access_json", "ACCESS_JSON", "1")] =
      (List.range' 2 2).foldl
        (addCmdStep
          ["x", "ACCESS_JSON() ACCESS_JSON()", "NAME",
            "access_json - manage JSON access"]
          [("access_json", "ACCESS_JSON", "1")])
        (addCmdRunTo
          ["x", "ACCESS_JSON() ACCESS_JSON()", "NAME",
            "access_json - manage JSON access"]
          [("access_json", "ACCESS_JSON", "1")] 1 ++
          padBlank (addCmdRunTo
            ["x", "ACCESS_JSON() ACCESS_JSON()", "NAME",
              "access_json - manage JSON access"]
            [("access_json", "ACCESS_JSON", "1")] 1) ++
          ["## ACCESS_JSON (1)", "", "ACCESS_JSON() ACCESS_JSON()"]) :=
  add_command_heading_emission _ _ ["x"]
    ["NAME", "access_json - manage JSON access"] "ACCESS_JSON() ACCESS_JSON()"
    rfl (by decide) (by decide) (by decide)

/-- C4: when a `### NAME` line has no command heading among the emitted
output (nearest non-blank emitted line does not start with `## `) nor in
the previous 10 raw input lines, the repair pass inserts the synthesized
heading (`fixHeadingAt`: the first non-blank line after `### NAME`, cut
at the first dash-like character and resolved against the TOC index)
immediately before the `### NAME` line, with its blank-line discipline
(an inserted blank before it when the output so far ends non-blank, and
a blank line after it). -/
theorem fix_missing_heading_insertion (lines : List String) (toc : TocMap)
    (pre post : List String) (l : String)
    (hsplit : lines = pre ++ l :: post)
    (hname : pstrip l = "### NAME")
    (hout : ∀ u ∈ (lastNonBlank (fixRunTo lines toc pre.length)).toList,
      startsWithS u "## " = false)
    (hraw : rawHasCmdHeading lines pre.length = false) :
    fixRun lines toc =
      (List.range' (pre.length + 1) (lines.length - (pre.length + 1))).foldl
        (fixStep lines toc)
        (fixRunTo lines toc pre.length ++
          padBlank (fixRunTo lines toc pre.length) ++
          [fixHeadingAt lines toc pre.length, "", l]) := by
  have hn : pre.length < lines.length := by
    rw [hsplit]
    exact length_split_lt pre post l
  have hl : lines.getD pre.length "" = l := by
    rw [hsplit]
    exact getD_append_cons pre l post ""
  have hneed : needHeading lines pre.length (fixRunTo lines toc pre.length) = true := by
    rw [needHeading]
    cases hlast : lastNonBlank (fixRunTo lines toc pre.length) with
    | none => simp [hraw]
    | some u =>
      have hs := hout u (by rw [hlast]; simp)
      simp [hs, hraw]
  rw [fixRun, fixRunTo, range_split (pre.length + 1) lines.length (by omega),
    List.foldl_append]
  have hstepeq : List.foldl (fixStep lines toc) [] (List.range (pre.length + 1)) =
      fixRunTo lines toc (pre.length + 1) := rfl
  rw [hstepeq, fixRunTo_succ, fixEmit, hl, hname]
  have hbeq : (("### NAME" : String) == "### NAME") = true := by decide
  rw [hbeq, if_pos rfl, hneed, if_pos rfl]
  simp [List.append_assoc]

/-- Witness for C4: a body whose `N A M E` line precedes `### NAME` with
no command heading in range; the synthesized heading is resolved through
the TOC index. -/
theorem fix_missing_heading_insertion_witness :
    fixRun ["N A M E", "### NAME", "access_json - manage JSON access"]
        [("access_json", "ACCESS_JSON", "1")] =
      (List.range' 2 1).foldl
        (fixStep ["N A M E", "### NAME", "access_json - manage JSON access"]
          [("access_json", "ACCESS_JSON", "1")])
        (fixRunTo ["N A M E", "### NAME", "access_json - manage JSON access"]
          [("access_json", "ACCESS_JSON", "1")] 1 ++
          padBlank (fixRunTo ["N A M E", "### NAME", "access_json - manage JSON access"]
            [("access_json", "ACCESS_JSON", "1")] 1) ++
          [fixHeadingAt ["N A M E", "### NAME", "access_json - manage JSON access"]
            [("access_json", "ACCESS_JSON", "1")] 1, "", "### NAME"]) :=
  fix_missing_heading_insertion _ _ ["N A M E"]
    ["access_json - manage JSON access"] "### NAME"
    rfl (by decide) (by decide) (by decide)

/-- C5 (amended): a section-label line at or after the first `## `
heading is replaced by the synthesized `### <normalized label>` heading:
the heading is emitted (with the blank-line discipline) and the original
label line is removed from the output (the loop continues without
emitting it). -/
theorem add_section_label_replacement (lines : List String) (first : Nat)
    (pre post : List String) (l : String)
    (hsplit : lines = pre ++ l :: post)
    (hfirst : firstCmdIdx lines = some first)
    (hsec : isSecLabel l pre.length first = true) :
    addSecRun lines =
      (List.range' (pre.length + 1) (lines.length - (pre.length + 1))).foldl
        (addSecStep lines first)
        (addSecFoldTo lines first pre.length ++
          padBlank (addSecFoldTo lines first pre.length) ++
          ["### " ++ normalizeLabel (pstrip l)]) := by
  have hn : pre.length < lines.length := by
    rw [hsplit]
    exact length_split_lt pre post l
  have hl : lines.getD pre.length "" = l := by
    rw [hsplit]
    exact getD_append_cons pre l post ""
  have hrun : addSecRun lines = addSecFoldTo lines first lines.length := by
    rw [addSecRun, hfirst]
    rfl
  rw [hrun, addSecFoldTo,
    range_split (pre.length + 1) lines.length (by omega), List.foldl_append]
  have hstepeq : List.foldl (addSecStep lines first) [] (List.range (pre.length + 1)) =
      addSecFoldTo lines first (pre.length + 1) := rfl
  rw [hstepeq, addSecFoldTo_succ, addSecEmit, hl, hsec, if_pos rfl]
  simp [List.append_assoc, addSecEmit, hl, hsec]

/-- Counterexample to C5 as stated: the original label line `NAME` does
not appear in the output; the synthesized `### NAME` heading stands in
its place. -/
theorem add_section_label_removed_cex :
    addSecRun ["## foo", "NAME", "hello"] = ["## foo", "", "### NAME", "hello"] ∧
    ("NAME" ∈ addSecRun ["## foo", "NAME", "hello"]) = False := by
  constructor
  · decide
  · simp only [eq_iff_iff, iff_false]
    decide

/-- Witness for C5 (amended) at the same concrete body. -/
theorem add_section_label_replacement_witness :
    addSecRun ["## foo", "NAME", "hello"] =
      (List.range' 2 1).foldl (addSecStep ["## foo", "NAME", "hello"] 0)
        (addSecFoldTo ["## foo", "NAME", "hello"] 0 1 ++
          padBlank (addSecFoldTo ["## foo", "NAME", "hello"] 0 1) ++
          ["### " ++ normalizeLabel (pstrip "NAME")]) :=
  add_section_label_replacement _ 0 ["## foo"] ["hello"] "NAME"
    rfl (by decide) (by decide)


/-! ## The Table of Contents marker survives the Normalizer -/

theorem pstrip_decomp (l s : String) (h : pstrip l = s) :
    ∃ W T, l.data = W ++ s.data ++ T ∧
      (∀ c ∈ W, pyWs c = true) ∧ (∀ c ∈ T, pyWs c = true) := by
  have hdata : stripL l.data = s.data := congrArg String.data h
  rw [stripL] at hdata
  have h1 : l.data = l.data.takeWhile pyWs ++ l.data.dropWhile pyWs :=
    (List.takeWhile_append_dropWhile (p := pyWs) (l := l.data)).symm
  have h2 : (l.data.dropWhile pyWs).reverse =
      (l.data.dropWhile pyWs).reverse.takeWhile pyWs ++
        (l.data.dropWhile pyWs).reverse.dropWhile pyWs :=
    (List.takeWhile_append_dropWhile (p := pyWs)
      (l := (l.data.dropWhile pyWs).reverse)).symm
  have h3 : l.data.dropWhile pyWs = s.data ++
      ((l.data.dropWhile pyWs).reverse.takeWhile pyWs).reverse := by
    conv_lhs => rw [← List.reverse_reverse (l.data.dropWhile pyWs), h2]
    rw [List.reverse_append, hdata]
  have hfinal : l.data = l.data.takeWhile pyWs ++ s.data ++
      ((l.data.dropWhile pyWs).reverse.takeWhile pyWs).reverse := by
    conv_lhs => rw [h1, h3]
    rw [List.append_assoc]
  exact ⟨_, _, hfinal, fun c hc => List.mem_takeWhile_imp hc,
    fun c hc => List.mem_takeWhile_imp (List.mem_reverse.mp hc)⟩

theorem foldl_deriv_emp (l : List Char) : l.foldl deriv .emp = .emp := by
  induction l with
  | nil => rfl
  | cons c t ih => simpa [deriv] using ih

theorem reFull_emp (l : List Char) : reFull .emp l = false := by
  rw [reFull, foldl_deriv_emp]
  rfl

theorem reFull_seq_head_false (cc : CC) (a b : RE) (c : Char) (l : List Char)
    (h : cc.test c = false) :
    reFull (RE.seq (RE.seq (RE.cls cc) a) b) (c :: l) = false := by
  have hd : deriv (RE.seq (RE.seq (RE.cls cc) a) b) c = .emp := by
    simp [deriv, nullable, h, seqS]
  rw [reFull, List.foldl_cons, hd]
  exact reFull_emp l

theorem ws_not_lcS (c : Char) (h : pyWs c = true) :
    CC.test (.lcOne 's') c = false := by
  have h1 : c ≠ 's' := by
    rintro rfl
    exact absurd h (by decide)
  have h2 : c ≠ 'S' := by
    rintro rfl
    exact absurd h (by decide)
  simp [CC.test, h1, h2, isLow]

theorem marker_not_footer (l : String) (h : pstrip l = "Table of Contents") :
    isFooter l = false := by
  obtain ⟨W, T, hdata, hW, _hT⟩ := pstrip_decomp l _ h
  rw [isFooter, hdata]
  cases W with
  | nil =>
    rw [List.nil_append]
    exact reFull_seq_head_false _ _ _ 'T' _ (by decide)
  | cons w W' =>
    rw [List.cons_append]
    exact reFull_seq_head_false _ _ _ w _ (ws_not_lcS w (hW w (by simp)))

theorem marker_keepPD (l : String) (h : pstrip l = "Table of Contents") :
    keepPD l = true := by
  rw [keepPD, isPageDelim, isPageMarker, h]
  decide

theorem marker_keepFt (l : String) (h : pstrip l = "Table of Contents") :
    keepFt l = true := by
  rw [keepFt, marker_not_footer l h]
  rfl

theorem marker_keepRunning (l : String) (h : pstrip l = "Table of Contents") :
    keepRunning l = true := by
  rw [keepRunning, h]
  decide

theorem marker_ne_empty (m : String) (h : pstrip m = "Table of Contents") :
    m ≠ "" := by
  rintro rfl
  exact absurd h (by decide)


/-! ## Decomposition at the first marker line -/

theorem findIdx?_split (p : String → Bool) : ∀ (ls : List String) (i : Nat),
    ls.findIdx? p = some i →
    ∃ A m B, ls = A ++ m :: B ∧ A.length = i ∧ p m = true ∧
      ∀ a ∈ A, p a = false := by
  intro ls
  induction ls with
  | nil => intro i h; exact absurd h (by simp)
  | cons x xs ih =>
    intro i h
    rw [List.findIdx?_cons] at h
    by_cases hx : p x
    · rw [if_pos hx] at h
      injection h with h
      exact ⟨[], x, xs, rfl, h, hx, by simp⟩
    · rw [if_neg hx] at h
      rw [List.findIdx?_succ] at h
      cases hxs : xs.findIdx? p with
      | none => rw [hxs] at h; simp at h
      | some j =>
        rw [hxs] at h
        simp only [Option.map_some'] at h
        injection h with h
        obtain ⟨A, m, B, hsplit, hlen, hm, hA⟩ := ih j hxs
        refine ⟨x :: A, m, B, by rw [hsplit]; rfl, by simp [hlen, ← h], hm, ?_⟩
        intro a ha
        rcases List.mem_cons.mp ha with h1 | h1
        · subst h1
          simpa using hx
        · exact hA a h1

theorem findIdx?_of_split (p : String → Bool) (A B : List String) (m : String)
    (hA : ∀ a ∈ A, p a = false) (hm : p m = true) :
    (A ++ m :: B).findIdx? p = some A.length := by
  induction A with
  | nil => simp [List.findIdx?_cons, hm]
  | cons a A ih =>
    rw [List.cons_append, List.findIdx?_cons]
    rw [hA a (by simp)]
    rw [if_neg (by simp), List.findIdx?_succ,
      ih (fun x hx => hA x (List.mem_cons_of_mem a hx))]
    rfl

/-! ## One Normalizer stage keeps the marker and only drops other lines -/

theorem stage_preserve (keep : String → Bool) (A B : List String) (m : String)
    (hnb : ∀ l ∈ A ++ m :: B, ∀ c ∈ l.data, isLineBreak c = false)
    (hkeep : keep m = true) (hm : m ≠ "") :
    ∃ A' B', splitlines (joinNL ((A ++ m :: B).filter keep)) = A' ++ m :: B' ∧
      (∀ a ∈ A', a ∈ A) ∧ (∀ b ∈ B', b ∈ B) := by
  have hsplit : (A ++ m :: B).filter keep =
      A.filter keep ++ m :: B.filter keep := by
    simp [List.filter_append, List.filter_cons, hkeep]
  rw [hsplit]
  have hnb' : ∀ l ∈ A.filter keep ++ m :: B.filter keep, ∀ c ∈ l.data,
      isLineBreak c = false := by
    rw [← hsplit]
    exact fun l hl => hnb l (List.mem_of_mem_filter hl)
  rcases splitlines_joinNL _ hnb' with h | ⟨p, hp, h⟩
  · exact ⟨A.filter keep, B.filter keep, h,
      fun a ha => List.mem_of_mem_filter ha,
      fun b hb => List.mem_of_mem_filter hb⟩
  · rcases List.eq_nil_or_concat (B.filter keep) with hBn | ⟨B2, b, hBc⟩
    · rw [hBn] at hp
      have hlast := congrArg List.getLast? hp
      rw [List.getLast?_append, List.getLast?_append] at hlast
      simp at hlast
      exact absurd hlast hm
    · rw [List.concat_eq_append] at hBc
      rw [hBc] at hp
      have hp2 : (A.filter keep ++ m :: B2) ++ [b] = p ++ [""] := by
        rw [← hp]
        simp
      have hinj := List.append_inj' hp2 (by simp)
      have hpe : p = A.filter keep ++ m :: B2 := hinj.1.symm
      rw [hpe] at h
      refine ⟨A.filter keep, B2, h, fun a ha => List.mem_of_mem_filter ha, ?_⟩
      intro x hx
      have hxf : x ∈ B.filter keep := by
        rw [hBc]
        exact List.mem_append_left _ hx
      exact List.mem_of_mem_filter hxf

theorem stage_members (keep : String → Bool) (ls : List String)
    (hnb : ∀ l ∈ ls, ∀ c ∈ l.data, isLineBreak c = false) :
    ∀ x ∈ splitlines (joinNL (ls.filter keep)), x ∈ ls := by
  have hnb' : ∀ l ∈ ls.filter keep, ∀ c ∈ l.data, isLineBreak c = false :=
    fun l hl => hnb l (List.mem_of_mem_filter hl)
  rcases splitlines_joinNL _ hnb' with h | ⟨p, hp, h⟩
  · rw [h]
    exact fun x hx => List.mem_of_mem_filter hx
  · rw [h]
    intro x hx
    have hxf : x ∈ ls.filter keep := by
      rw [hp]
      exact List.mem_append_left _ hx
    exact List.mem_of_mem_filter hxf

theorem getD_mem_suffix (A X : List String) (i : Nat)
    (hlo : A.length ≤ i) (hhi : i < (A ++ X).length) :
    (A ++ X).getD i "" ∈ X := by
  have h2 : i - A.length < X.length := by
    rw [List.length_append] at hhi
    omega
  have h1 : (A ++ X).getD i "" = X.getD (i - A.length) "" := by
    simp [List.getD, List.getElem?_append_right hlo]
  rw [h1, List.getD_eq_getElem _ _ h2]
  exact List.getElem_mem h2

/-! ## C1: a missing structural marker aborts the conversion -/

/-- C1: if the extracted text has no line whose stripped form is the
marker phrase `Table of Contents`, or no line of command-boundary shape
at or after the first such marker line, then `convert` raises the fatal
structural `ValueError` of `extract_toc_and_man_pages` before reaching
the output write: the pipeline result is an error and nothing is written
(`convertWrites` is `none`; in the source, `output_path.write_text` is
only reached after all stages succeed). -/
theorem structural_error_no_output (text : String)
    (h : (∀ l ∈ splitlines text, isMarkerLine l = false) ∨
      (∃ i, (splitlines text).findIdx? isMarkerLine = some i ∧
        ∀ l ∈ (splitlines text).drop i, isBoundary l = false)) :
    convertWrites text = none ∧ (convertPipeline text).isOk = false := by
  have hnb0 : ∀ l ∈ splitlines text, ∀ c ∈ l.data, isLineBreak c = false :=
    splitlines_noBreak text
  have herr : ∃ msg, extractTocAndManPages (removeRunningHeaders (removeFooters
      (removePageDelimiters text))) = .error msg := by
    rcases h with h1 | ⟨i, hidx, hbnd⟩
    · -- no marker anywhere: it stays absent through the three filters
      have hm1 : ∀ x ∈ splitlines (removePageDelimiters text),
          x ∈ splitlines text :=
        stage_members keepPD (splitlines text) hnb0
      have hnb1 : ∀ l ∈ splitlines (removePageDelimiters text), ∀ c ∈ l.data,
          isLineBreak c = false := splitlines_noBreak _
      have hm2 : ∀ x ∈ splitlines (removeFooters (removePageDelimiters text)),
          x ∈ splitlines text := by
        intro x hx
        exact hm1 x (stage_members keepFt _ hnb1 x hx)
      have hnb2 : ∀ l ∈ splitlines (removeFooters (removePageDelimiters text)),
          ∀ c ∈ l.data, isLineBreak c = false := splitlines_noBreak _
      have hm3 : ∀ x ∈ splitlines (removeRunningHeaders (removeFooters
          (removePageDelimiters text))), x ∈ splitlines text := by
        intro x hx
        exact hm2 x (stage_members keepRunning _ hnb2 x hx)
      have hfindnone : (splitlines (removeRunningHeaders (removeFooters
          (removePageDelimiters text)))).findIdx? isMarkerLine = none :=
        List.findIdx?_eq_none_iff.mpr (fun x hx => h1 x (hm3 x hx))
      refine ⟨"Could not find Table of Contents in source file", ?_⟩
      simp only [extractTocAndManPages, hfindnone]
    · -- marker at index i, but no boundary line from there on
      obtain ⟨A0, m, B0, hsplit0, hlen0, hm0, hA0⟩ :=
        findIdx?_split isMarkerLine (splitlines text) i hidx
      have hdrop : (splitlines text).drop i = m :: B0 := by
        rw [hsplit0, ← hlen0]
        simp [List.drop_append_eq_append_drop]
      have hmm : pstrip m = "Table of Contents" := by
        have hm0' := hm0
        rw [isMarkerLine] at hm0'
        exact of_decide_eq_true hm0'
      have hbm : isBoundary m = false := hbnd m (by rw [hdrop]; simp)
      have hbB0 : ∀ b ∈ B0, isBoundary b = false := by
        intro b hb
        exact hbnd b (by rw [hdrop]; exact List.mem_cons_of_mem m hb)
      have hnbs : ∀ l ∈ A0 ++ m :: B0, ∀ c ∈ l.data, isLineBreak c = false := by
        rw [← hsplit0]
        exact hnb0
      obtain ⟨A1, B1, h1, hA1, hB1⟩ := stage_preserve keepPD A0 B0 m hnbs
        (marker_keepPD m hmm) (marker_ne_empty m hmm)
      have hrw1 : splitlines (removePageDelimiters text) = A1 ++ m :: B1 := by
        rw [removePageDelimiters, hsplit0]
        exact h1
      have hnb1 : ∀ l ∈ A1 ++ m :: B1, ∀ c ∈ l.data, isLineBreak c = false := by
        rw [← hrw1]
        exact splitlines_noBreak _
      obtain ⟨A2, B2, h2, hA2, hB2⟩ := stage_preserve keepFt A1 B1 m hnb1
        (marker_keepFt m hmm) (marker_ne_empty m hmm)
      have hrw2 : splitlines (removeFooters (removePageDelimiters text)) =
          A2 ++ m :: B2 := by
        rw [removeFooters, hrw1]
        exact h2
      have hnb2 : ∀ l ∈ A2 ++ m :: B2, ∀ c ∈ l.data, isLineBreak c = false := by
        rw [← hrw2]
        exact splitlines_noBreak _
      obtain ⟨A3, B3, h3, hA3, hB3⟩ := stage_preserve keepRunning A2 B2 m hnb2
        (marker_keepRunning m hmm) (marker_ne_empty m hmm)
      have hrw3 : splitlines (removeRunningHeaders (removeFooters
          (removePageDelimiters text))) = A3 ++ m :: B3 := by
        rw [removeRunningHeaders, hrw2]
        exact h3
      have hA3marker : ∀ a ∈ A3, isMarkerLine a = false := by
        intro a ha
        exact hA0 a (hA1 a (hA2 a (hA3 a ha)))
      have hfind3 : (A3 ++ m :: B3).findIdx? isMarkerLine = some A3.length :=
        findIdx?_of_split isMarkerLine A3 B3 m hA3marker hm0
      have hscannone : scanIdx
          (fun j => isBoundary ((A3 ++ m :: B3).getD j ""))
          A3.length ((A3 ++ m :: B3).length - A3.length) = none := by
        rw [scanIdx]
        refine List.find?_eq_none.mpr ?_
        intro j hj
        obtain ⟨k, hk, hjk⟩ := by simpa using List.mem_range'.mp hj
        have hlo : A3.length ≤ j := by omega
        have hhi : j < (A3 ++ m :: B3).length := by
          have hlen : (A3 ++ m :: B3).length = A3.length + (B3.length + 1) := by
            simp
          omega
        have hmem := getD_mem_suffix A3 (m :: B3) j hlo hhi
        rcases List.mem_cons.mp hmem with hcase | hcase
        · rw [hcase, hbm]
          simp
        · rw [hbB0 _ (hB1 _ (hB2 _ (hB3 _ hcase)))]
          simp
      refine ⟨"Could not find first man-page header in source file", ?_⟩
      simp only [extractTocAndManPages, hrw3, hfind3, hscannone]
  obtain ⟨msg, hmsg⟩ := herr
  constructor
  · rw [convertWrites, convertPipeline, convertStages, hmsg]
    rfl
  · rw [convertPipeline, convertStages, hmsg]
    rfl

/-- Witness for C1: a text with no Table of Contents marker produces no
output. -/
theorem structural_error_no_output_witness :
    convertWrites "hello" = none ∧ (convertPipeline "hello").isOk = false :=
  structural_error_no_output "hello" (Or.inl (by decide))


/-! ## C10: every subscript of the Heading Synthesizer stays in range -/

theorem getElem?_getD (l : List String) (i : Nat) (h : i < l.length) :
    l[i]? = some (l.getD i "") := by
  rw [List.getElem?_eq_getElem h, List.getD_eq_getElem l "" h]

theorem mem_range'_sub_lt (s e m j : Nat) (he : e ≤ m)
    (hj : j ∈ List.range' s (e - s)) : j < m := by
  obtain ⟨k, hk, hjk⟩ := by simpa using List.mem_range'.mp hj
  omega

theorem scanChk_eq (lines : List String) (q : String → Bool) :
    ∀ idxs : List Nat, (∀ j ∈ idxs, j < lines.length) →
    scanChk lines q idxs =
      some (idxs.find? (fun j => q (lines.getD j ""))) := by
  intro idxs
  induction idxs with
  | nil => intro h; rfl
  | cons j rest ih =>
    intro h
    cases hq : q (lines.getD j "") with
    | true =>
      simp only [scanChk, getElem?_getD lines j (h j (by simp)), hq, if_true,
        List.find?_cons]
    | false =>
      simp only [scanChk, getElem?_getD lines j (h j (by simp)), hq,
        Bool.false_eq_true, if_false, List.find?_cons]
      exact ih (fun x hx => h x (List.mem_cons_of_mem j hx))

theorem scanChk_scanIdx (lines : List String) (q : String → Bool)
    (p : Nat → Bool) (start count : Nat)
    (hp : ∀ j, p j = q (lines.getD j ""))
    (h : ∀ j ∈ List.range' start count, j < lines.length) :
    scanChk lines q (List.range' start count) =
      some (scanIdx p start count) := by
  rw [scanIdx]
  have hpe : p = fun j => q (lines.getD j "") := funext hp
  rw [hpe]
  exact scanChk_eq lines q _ h

theorem anyChk_eq (lines : List String) (q : String → Bool) :
    ∀ idxs : List Nat, (∀ j ∈ idxs, j < lines.length) →
    anyChk lines q idxs =
      some (idxs.any (fun j => q (lines.getD j ""))) := by
  intro idxs
  induction idxs with
  | nil => intro h; rfl
  | cons j rest ih =>
    intro h
    cases hq : q (lines.getD j "") with
    | true =>
      simp only [anyChk, getElem?_getD lines j (h j (by simp)), hq, if_true,
        List.any_cons, Bool.true_or]
    | false =>
      simp only [anyChk, getElem?_getD lines j (h j (by simp)), hq,
        Bool.false_eq_true, if_false, List.any_cons, Bool.false_or]
      exact ih (fun x hx => h x (List.mem_cons_of_mem j hx))

theorem cmdNameAtChk_eq (lines : List String) (i : Nat) :
    cmdNameAtChk lines i = some (cmdNameAt lines i) := by
  have hb1 : ∀ j ∈ List.range' (i + 1) (min lines.length (i + 40) - (i + 1)),
      j < lines.length :=
    fun j hj => mem_range'_sub_lt (i + 1) (min lines.length (i + 40))
      lines.length j (Nat.min_le_left _ _) hj
  simp only [cmdNameAtChk, cmdNameAt]
  rw [scanChk_scanIdx lines (fun l => isNameLabel l)
    (fun j => isNameLabel (lines.getD j "")) (i + 1) _ (fun j => rfl) hb1]
  cases hf : scanIdx (fun j => isNameLabel (lines.getD j "")) (i + 1)
      (min lines.length (i + 40) - (i + 1)) with
  | none => rfl
  | some j =>
    simp only []
    have hb2 : ∀ k ∈ List.range' (j + 1) (min lines.length (i + 40) - (j + 1)),
        k < lines.length :=
      fun k hk => mem_range'_sub_lt (j + 1) (min lines.length (i + 40))
        lines.length k (Nat.min_le_left _ _) hk
    rw [scanChk_scanIdx lines (fun l => !(pstrip l == ""))
      (fun k => !(pstrip (lines.getD k "") == "")) (j + 1) _ (fun k => rfl) hb2]
    cases hs : scanIdx (fun k => !(pstrip (lines.getD k "") == "")) (j + 1)
        (min lines.length (i + 40) - (j + 1)) with
    | none => rfl
    | some k =>
      have hk : k < lines.length := by
        rw [scanIdx] at hs
        exact hb2 k (List.mem_of_find?_eq_some hs)
      simp only []
      rw [getElem?_getD lines k hk]

set_option maxRecDepth 4096 in
theorem cmdHeadingAtChk_eq (lines : List String) (toc : TocMap) (i : Nat)
    (h : i < lines.length) :
    cmdHeadingAtChk lines toc i = some (cmdHeadingAt lines toc i) := by
  simp only [cmdHeadingAtChk, cmdHeadingAt, getElem?_getD lines i h,
    cmdNameAtChk_eq]
  cases cmdNameAt lines i with
  | none => rfl
  | some n =>
    simp only []
    by_cases hne : n = ""
    · simp only [if_pos hne]
    · simp only [if_neg hne]
      cases tocGet toc (normalizeKey n) with
      | none => rfl
      | some p =>
        obtain ⟨d, sec⟩ := p
        rfl

theorem addCmdEmitChk_eq (lines : List String) (toc : TocMap) (i : Nat)
    (out : List String) (h : i < lines.length) :
    addCmdEmitChk lines toc i out = some (addCmdEmit lines toc i out) := by
  simp only [addCmdEmitChk, addCmdEmit, getElem?_getD lines i h,
    cmdHeadingAtChk_eq lines toc i h]
  by_cases hb : isBoundary (lines.getD i "")
  · simp only [if_pos hb]
  · simp only [if_neg hb]

theorem addCmdRunChk_to (lines : List String) (toc : TocMap) :
    ∀ n, n ≤ lines.length →
    (List.range n).foldl (addCmdStepChk lines toc) (some []) =
      some (addCmdRunTo lines toc n) := by
  intro n
  induction n with
  | zero => intro h; rfl
  | succ n ih =>
    intro h
    rw [List.range_succ, List.foldl_append, ih (Nat.le_of_succ_le h)]
    simp only [List.foldl_cons, List.foldl_nil, addCmdStepChk,
      addCmdEmitChk_eq lines toc n (addCmdRunTo lines toc n) (by omega)]
    rw [addCmdRunTo_succ]

theorem addSecFoldChk_to (lines : List String) (first : Nat) :
    ∀ n, n ≤ lines.length →
    (List.range n).foldl (addSecStepChk lines first) (some []) =
      some (addSecFoldTo lines first n) := by
  intro n
  induction n with
  | zero => intro h; rfl
  | succ n ih =>
    intro h
    rw [List.range_succ, List.foldl_append, ih (Nat.le_of_succ_le h)]
    simp only [List.foldl_cons, List.foldl_nil, addSecStepChk,
      getElem?_getD lines n (by omega)]
    rw [addSecFoldTo_succ]

theorem rawHasCmdHeadingChk_eq (lines : List String) (idx : Nat)
    (h : idx ≤ lines.length) :
    rawHasCmdHeadingChk lines idx = some (rawHasCmdHeading lines idx) := by
  have hb : ∀ j ∈ List.range' (idx - 10) (idx - (idx - 10)),
      j < lines.length :=
    fun j hj => mem_range'_sub_lt (idx - 10) idx lines.length j h hj
  simp only [rawHasCmdHeadingChk, rawHasCmdHeading]
  exact anyChk_eq lines _ _ hb

theorem needHeadingChk_eq (lines : List String) (idx : Nat)
    (out : List String) (h : idx ≤ lines.length) :
    needHeadingChk lines idx out = some (needHeading lines idx out) := by
  simp only [needHeadingChk, needHeading, rawHasCmdHeadingChk_eq lines idx h]
  cases lastNonBlank out with
  | none => rfl
  | some l =>
    simp only []
    by_cases hs : startsWithS l "## "
    · simp only [if_pos hs]
    · simp only [if_neg hs]

theorem fixCmdNameAtChk_eq (lines : List String) (idx : Nat) :
    fixCmdNameAtChk lines idx = some (fixCmdNameAt lines idx) := by
  have hb : ∀ j ∈ List.range' (idx + 1) (lines.length - (idx + 1)),
      j < lines.length :=
    fun j hj => mem_range'_sub_lt (idx + 1) lines.length lines.length j
      le_rfl hj
  simp only [fixCmdNameAtChk, fixCmdNameAt]
  rw [scanChk_scanIdx lines (fun l => !(pstrip l == ""))
    (fun k => !(pstrip (lines.getD k "") == "")) (idx + 1) _ (fun k => rfl) hb]
  cases hs : scanIdx (fun k => !(pstrip (lines.getD k "") == "")) (idx + 1)
      (lines.length - (idx + 1)) with
  | none => rfl
  | some k =>
    have hk : k < lines.length := by
      rw [scanIdx] at hs
      exact hb k (List.mem_of_find?_eq_some hs)
    simp only []
    rw [getElem?_getD lines k hk]

theorem fixHeadingAtChk_eq (lines : List String) (toc : TocMap) (idx : Nat) :
    fixHeadingAtChk lines toc idx = some (fixHeadingAt lines toc idx) := by
  simp only [fixHeadingAtChk, fixHeadingAt, fixCmdNameAtChk_eq]
  cases tocGet toc (normalizeKey (fixCmdNameAt lines idx)) with
  | none => rfl
  | some p =>
    obtain ⟨d, sec⟩ := p
    rfl

theorem fixEmitChk_eq (lines : List String) (toc : TocMap) (idx : Nat)
    (out : List String) (h : idx < lines.length) :
    fixEmitChk lines toc idx out = some (fixEmit lines toc idx out) := by
  simp only [fixEmitChk, fixEmit, getElem?_getD lines idx h]
  cases hp : (pstrip (lines.getD idx "") == "### NAME") with
  | false => simp only [hp, Bool.false_eq_true, if_false]
  | true =>
    simp only [hp, if_true, needHeadingChk_eq lines idx out (Nat.le_of_lt h)]
    cases hn : needHeading lines idx out with
    | false => simp only [Bool.false_eq_true, if_false]
    | true =>
      simp only [if_true, fixHeadingAtChk_eq lines toc idx]

theorem fixRunChk_to (lines : List String) (toc : TocMap) :
    ∀ n, n ≤ lines.length →
    (List.range n).foldl (fixStepChk lines toc) (some []) =
      some (fixRunTo lines toc n) := by
  intro n
  induction n with
  | zero => intro h; rfl
  | succ n ih =>
    intro h
    rw [List.range_succ, List.foldl_append, ih (Nat.le_of_succ_le h)]
    simp only [List.foldl_cons, List.foldl_nil, fixStepChk,
      fixEmitChk_eq lines toc n (fixRunTo lines toc n) (by omega)]
    rw [fixRunTo_succ]

/-- C10: the Heading Synthesizer never fails. The bounds-checked
embeddings of `add_command_headings`, `add_section_headings` and
`fix_missing_command_headings` — in which every `lines[...]` subscript
is guarded and an out-of-range access aborts the pass with `none`,
while a TOC miss falls back to the derived token and an exhausted
lookahead falls back to the placeholder heading, exactly as in the
source — return `some` of the total embeddings on every body text and
every TOC index: no input reaches a failing access or error branch. -/
theorem heading_synthesizer_total (text : String) (toc : TocMap) :
    addCommandHeadingsChk text toc = some (addCommandHeadings text toc) ∧
    addSectionHeadingsChk text = some (addSectionHeadings text) ∧
    fixMissingCommandHeadingsChk text toc =
      some (fixMissingCommandHeadings text toc) := by
  refine ⟨?_, ?_, ?_⟩
  · rw [addCommandHeadingsChk, addCmdRunChk,
      addCmdRunChk_to (splitlines text) toc _ le_rfl]
    rfl
  · simp only [addSectionHeadingsChk, addSectionHeadings]
    cases hf : firstCmdIdx (splitlines text) with
    | none => rfl
    | some first =>
      simp only []
      rw [addSecFoldChk_to (splitlines text) first _ le_rfl]
      rfl
  · rw [fixMissingCommandHeadingsChk, fixRunChk,
      fixRunChk_to (splitlines text) toc _ le_rfl]
    rfl


/-! ## Text Cleaner lemmas: character tracking through str.replace -/

theorem replaceStrF_subset (key rep : List Char) :
    ∀ (fuel : Nat) (l : List Char) (x : Char),
    x ∈ replaceStrF key rep fuel l → x ∈ l ∨ x ∈ rep := by
  intro fuel
  induction fuel with
  | zero =>
    intro l x hx
    cases l with
    | nil => simp [replaceStrF] at hx
    | cons c t => exact Or.inl hx
  | succ fuel ih =>
    intro l x hx
    cases l with
    | nil => simp [replaceStrF] at hx
    | cons c t =>
      rw [replaceStrF] at hx
      by_cases hpre : key.isPrefixOf (c :: t) ∧ key ≠ []
      · rw [if_pos hpre] at hx
        rcases List.mem_append.mp hx with h1 | h1
        · exact Or.inr h1
        · rcases ih _ x h1 with h2 | h2
          · exact Or.inl (List.mem_of_mem_drop h2)
          · exact Or.inr h2
      · rw [if_neg hpre] at hx
        rcases List.mem_cons.mp hx with h1 | h1
        · exact Or.inl (by simp [h1])
        · rcases ih t x h1 with h2 | h2
          · exact Or.inl (List.mem_cons_of_mem c h2)
          · exact Or.inr h2

theorem replaceStr_absent_id (key rep : List Char) (d : Char) (hd : d ∈ key) :
    ∀ (fuel : Nat) (l : List Char), d ∉ l →
    replaceStrF key rep fuel l = l := by
  intro fuel
  induction fuel with
  | zero =>
    intro l hl
    cases l with
    | nil => rfl
    | cons c t => rfl
  | succ fuel ih =>
    intro l hl
    cases l with
    | nil => rfl
    | cons c t =>
      rw [replaceStrF]
      have hpre : ¬ (key.isPrefixOf (c :: t) ∧ key ≠ []) := by
        rintro ⟨h1, _⟩
        exact hl ((List.isPrefixOf_iff_prefix.mp h1).subset hd)
      rw [if_neg hpre, ih t (fun hm => hl (List.mem_cons_of_mem c hm))]

theorem replaceStr_self_id (c : Char) :
    ∀ (fuel : Nat) (l : List Char), replaceStrF [c] [c] fuel l = l := by
  intro fuel
  induction fuel with
  | zero =>
    intro l
    cases l with
    | nil => rfl
    | cons x t => rfl
  | succ fuel ih =>
    intro l
    cases l with
    | nil => rfl
    | cons x t =>
      rw [replaceStrF]
      by_cases hx : c = x
      · subst hx
        rw [if_pos (by simp [List.isPrefixOf])]
        simp [ih]
      · rw [if_neg (by simp [List.isPrefixOf, hx])]
        rw [ih]

theorem replaceStr_single_removed (c : Char) (rep : List Char)
    (hrep : c ∉ rep) :
    ∀ (fuel : Nat) (l : List Char), l.length ≤ fuel →
    c ∉ replaceStrF [c] rep fuel l := by
  intro fuel
  induction fuel with
  | zero =>
    intro l hl
    have : l = [] := List.eq_nil_of_length_eq_zero (Nat.le_zero.mp hl)
    subst this
    simp [replaceStrF]
  | succ fuel ih =>
    intro l hl
    cases l with
    | nil => simp [replaceStrF]
    | cons x t =>
      rw [replaceStrF]
      have hlt : t.length ≤ fuel := by
        simp only [List.length_cons] at hl
        omega
      by_cases hx : c = x
      · subst hx
        rw [if_pos (by simp [List.isPrefixOf])]
        intro hmem
        rcases List.mem_append.mp hmem with h1 | h1
        · exact hrep h1
        · exact ih t hlt h1
      · rw [if_neg (by simp [List.isPrefixOf, hx])]
        intro hmem
        rcases List.mem_cons.mp hmem with h1 | h1
        · exact hx h1
        · exact ih t hlt h1

theorem foldl_replace_id :
    ∀ (tbl : List (String × String)) (l : List Char),
    (∀ kv ∈ tbl, replaceStrL kv.1.data kv.2.data l = l) →
    tbl.foldl (fun acc kv => replaceStrL kv.1.data kv.2.data acc) l = l := by
  intro tbl
  induction tbl with
  | nil => intro l _; rfl
  | cons kv rest ih =>
    intro l h
    rw [List.foldl_cons, h kv (by simp)]
    exact ih l (fun x hx => h x (List.mem_cons_of_mem kv hx))

theorem foldl_preserve_absent (c : Char) :
    ∀ (tbl : List (String × String)) (l : List Char), c ∉ l →
    (∀ kv ∈ tbl, c ∉ kv.2.data) →
    c ∉ tbl.foldl (fun acc kv => replaceStrL kv.1.data kv.2.data acc) l := by
  intro tbl
  induction tbl with
  | nil => intro l hl _; exact hl
  | cons kv rest ih =>
    intro l hl h
    rw [List.foldl_cons]
    refine ih _ ?_ (fun x hx => h x (List.mem_cons_of_mem kv hx))
    intro hmem
    rcases replaceStrF_subset kv.1.data kv.2.data _ _ c hmem with h1 | h1
    · exact hl h1
    · exact h kv (by simp) h1

theorem after_pass_absent (c : Char) :
    ∀ (tbl : List (String × String)) (l : List Char),
    (∀ kv ∈ tbl, c ∉ kv.2.data) →
    (c ∉ l ∨ String.mk [c] ∈ tbl.map Prod.fst) →
    c ∉ tbl.foldl (fun acc kv => replaceStrL kv.1.data kv.2.data acc) l := by
  intro tbl
  induction tbl with
  | nil =>
    intro l _ hd
    rcases hd with hd | hd
    · exact hd
    · simp at hd
  | cons kv rest ih =>
    intro l h hd
    rw [List.foldl_cons]
    rcases hd with hd | hd
    · refine ih _ (fun x hx => h x (List.mem_cons_of_mem kv hx)) ?_
      left
      intro hmem
      rcases replaceStrF_subset kv.1.data kv.2.data _ _ c hmem with h1 | h1
      · exact hd h1
      · exact h kv (by simp) h1
    · rw [List.map_cons, List.mem_cons] at hd
      rcases hd with hd | hd
      · refine ih _ (fun x hx => h x (List.mem_cons_of_mem kv hx)) ?_
        left
        rw [← hd]
        exact replaceStr_single_removed c kv.2.data (h kv (by simp)) _ _ le_rfl
      · exact ih _ (fun x hx => h x (List.mem_cons_of_mem kv hx)) (Or.inr hd)

/-! ## The spacing pass only keeps characters of its input -/

theorem scanF_subset : ∀ (fuel : Nat) (pw : Bool) (l : List Char) (x : Char),
    x ∈ scanF fuel pw l → x ∈ l := by
  intro fuel
  induction fuel with
  | zero =>
    intro pw l x hx
    cases l with
    | nil => simp [scanF] at hx
    | cons c t => exact hx
  | succ fuel ih =>
    intro pw l x hx
    cases l with
    | nil => simp [scanF] at hx
    | cons c t =>
      rw [scanF] at hx
      cases hm : matchAtU pw (c :: t) with
      | none =>
        simp only [hm] at hx
        rcases List.mem_cons.mp hx with h1 | h1
        · simp [h1]
        · exact List.mem_cons_of_mem c (ih _ t x h1)
      | some e =>
        simp only [hm] at hx
        by_cases he : 1 ≤ e
        · rw [if_pos he] at hx
          rcases List.mem_append.mp hx with h1 | h1
          · exact List.mem_of_mem_take (List.mem_of_mem_filter h1)
          · exact List.mem_of_mem_drop (ih _ _ x h1)
        · rw [if_neg he] at hx
          rcases List.mem_cons.mp hx with h1 | h1
          · simp [h1]
          · exact List.mem_cons_of_mem c (ih _ t x h1)

theorem scanF_id_of_no_space :
    ∀ (fuel : Nat) (pw : Bool) (l : List Char), ' ' ∉ l →
    scanF fuel pw l = l := by
  intro fuel
  induction fuel with
  | zero =>
    intro pw l _
    cases l with
    | nil => rfl
    | cons c t => rfl
  | succ fuel ih =>
    intro pw l hl
    cases l with
    | nil => rfl
    | cons c t =>
      rw [scanF]
      cases hm : matchAtU pw (c :: t) with
      | none =>
        simp only [hm]
        rw [ih _ t (fun hm2 => hl (List.mem_cons_of_mem c hm2))]
      | some e =>
        simp only [hm]
        by_cases he : 1 ≤ e
        · rw [if_pos he]
          have hfil : ((c :: t).take e).filter (fun x => x ≠ ' ') =
              (c :: t).take e := by
            refine List.filter_eq_self.mpr ?_
            intro a ha
            have hne : a ≠ ' ' := fun hae => hl (hae ▸ List.mem_of_mem_take ha)
            simpa using hne
          rw [hfil, ih _ _ (fun hm2 => hl (List.mem_of_mem_drop hm2)),
            List.take_append_drop]
        · rw [if_neg he]
          rw [ih _ t (fun hm2 => hl (List.mem_cons_of_mem c hm2))]

/-! ## The ligature pass on benign inputs -/

theorem cleanupLigatures_id_ascii (s : String)
    (h : ∀ c ∈ s.data, c.toNat < 128) (hnl : '\n' ∉ s.data) :
    cleanupLigatures s = s := by
  have hid : ∀ kv ∈ LIG_TABLE, replaceStrL kv.1.data kv.2.data s.data = s.data := by
    intro kv hkv
    simp only [LIG_TABLE, List.mem_cons, List.not_mem_nil, or_false] at hkv
    have habs : ∀ d : Char, 128 ≤ d.toNat → d ∉ s.data := by
      intro d hd hmem
      have := h d hmem
      omega
    rcases hkv with rfl | rfl | rfl | rfl | rfl | rfl | rfl | rfl | rfl | rfl |
      rfl | rfl | rfl | rfl
    · exact replaceStr_absent_id _ _ (Char.ofNat 0xfb01) (by simp) _ _ (habs _ (by decide))
    · exact replaceStr_absent_id _ _ (Char.ofNat 0xfb02) (by simp) _ _ (habs _ (by decide))
    · exact replaceStr_absent_id _ _ (Char.ofNat 0xfb00) (by simp) _ _ (habs _ (by decide))
    · exact replaceStr_absent_id _ _ (Char.ofNat 0xfb03) (by simp) _ _ (habs _ (by decide))
    · exact replaceStr_absent_id _ _ (Char.ofNat 0xfb04) (by simp) _ _ (habs _ (by decide))
    · exact replaceStr_absent_id _ _ (Char.ofNat 0xfb05) (by simp) _ _ (habs _ (by decide))
    · exact replaceStr_absent_id _ _ (Char.ofNat 0xfb06) (by simp) _ _ (habs _ (by decide))
    · exact replaceStr_absent_id _ _ (Char.ofNat 0x2019) (by simp) _ _ (habs _ (by decide))
    · exact replaceStr_self_id apos _ _
    · exact replaceStr_absent_id _ _ '\n' (by decide) _ _ hnl
    · exact replaceStr_absent_id _ _ (Char.ofNat 0x2013) (by simp) _ _ (habs _ (by decide))
    · exact replaceStr_absent_id _ _ (Char.ofNat 0x2014) (by simp) _ _ (habs _ (by decide))
    · exact replaceStr_absent_id _ _ (Char.ofNat 0x2212) (by simp) _ _ (habs _ (by decide))
    · exact replaceStr_absent_id _ _ (Char.ofNat 0xa0) (by simp) _ _ (habs _ (by decide))
  rw [cleanupLigatures, foldl_replace_id LIG_TABLE s.data hid]



/-! ## Character class facts -/

theorem up_word (c : Char) (h : isUp c = true) : isWordCh c = true := by
  rw [isWordCh, h]
  rfl

theorem isWordCh_iff (c : Char) : isWordCh c = true ↔
    (65 ≤ c.toNat ∧ c.toNat ≤ 90) ∨ (97 ≤ c.toNat ∧ c.toNat ≤ 122) ∨
    (48 ≤ c.toNat ∧ c.toNat ≤ 57) ∨ c.toNat = 95 ∨
    (0xfb00 ≤ c.toNat ∧ c.toNat ≤ 0xfb06) := by
  rw [isWordCh, isUp, isLow, isDig]
  simp only [Bool.or_eq_true, decide_eq_true_iff, Char.le_def]
  constructor
  · rintro ((((h | h) | h) | h) | h)
    · exact Or.inl h
    · exact Or.inr (Or.inl h)
    · exact Or.inr (Or.inr (Or.inl h))
    · subst h
      exact Or.inr (Or.inr (Or.inr (Or.inl rfl)))
    · exact Or.inr (Or.inr (Or.inr (Or.inr h)))
  · rintro (h | h | h | h | h)
    · exact Or.inl (Or.inl (Or.inl (Or.inl h)))
    · exact Or.inl (Or.inl (Or.inl (Or.inr h)))
    · exact Or.inl (Or.inl (Or.inr h))
    · refine Or.inl (Or.inr ?_)
      have h1 := Char.ofNat_toNat c
      rw [h] at h1
      exact h1.symm
    · exact Or.inr h

theorem ws_not_word (c : Char) (h : pyWs c = true) : isWordCh c = false := by
  rw [pyWs] at h
  simp only [Bool.or_eq_true, decide_eq_true_iff] at h
  cases hw : isWordCh c with
  | false => rfl
  | true =>
    exfalso
    rw [isWordCh_iff] at hw
    omega

theorem word_not_ws (c : Char) (h : isWordCh c = true) : pyWs c = false := by
  cases hw : pyWs c with
  | false => rfl
  | true => rw [ws_not_word c hw] at h; exact absurd h (by simp)

theorem up_not_ws (c : Char) (h : isUp c = true) : pyWs c = false :=
  word_not_ws c (up_word c h)

theorem up_ne_space (c : Char) (h : isUp c = true) : c ≠ ' ' := by
  intro he
  subst he
  exact absurd h (by decide)

/-! ## Run lemmas -/

theorem takeWhile_append_all {p : Char → Bool} {A : List Char}
    (h : ∀ c ∈ A, p c = true) (x : List Char) :
    (A ++ x).takeWhile p = A ++ x.takeWhile p := by
  induction A with
  | nil => rfl
  | cons a A ih =>
    have ha : p a = true := h a (by simp)
    rw [List.cons_append]
    simp only [List.takeWhile_cons, ha, if_true]
    rw [ih (fun c hc => h c (List.mem_cons_of_mem a hc))]
    rfl

theorem takeWhile_append_stop {p : Char → Bool} {A : List Char}
    (h : ∃ c ∈ A, p c = false) (x : List Char) :
    (A ++ x).takeWhile p = A.takeWhile p := by
  induction A with
  | nil => obtain ⟨c, hc, _⟩ := h; simp at hc
  | cons a A ih =>
    rw [List.cons_append]
    cases hp : p a with
    | false => simp [List.takeWhile_cons, hp]
    | true =>
      obtain ⟨c, hc, hcp⟩ := h
      rcases List.mem_cons.mp hc with rfl | hc2
      · rw [hp] at hcp; exact absurd hcp (by simp)
      · simp only [List.takeWhile_cons, hp, if_true]
        rw [ih ⟨c, hc2, hcp⟩]

theorem dropWhile_head?_false {p : Char → Bool} :
    ∀ (l : List Char) (c : Char), (l.dropWhile p).head? = some c →
      p c = false := by
  intro l
  induction l with
  | nil => intro c hc; simp at hc
  | cons d t ih =>
    intro c hc
    cases hp : p d with
    | true =>
      simp only [List.dropWhile_cons, hp, if_true] at hc
      exact ih c hc
    | false =>
      simp only [List.dropWhile_cons, hp, Bool.false_eq_true, if_false,
        List.head?_cons, Option.some.injEq] at hc
      rw [← hc]
      exact hp

theorem take_run {p : Char → Bool} (l : List Char) :
    l.take (l.takeWhile p).length = l.takeWhile p := by
  nth_rewrite 2 [← List.takeWhile_append_dropWhile (p := p) (l := l)]
  exact List.take_left _ _

theorem drop_run {p : Char → Bool} (l : List Char) :
    l.drop (l.takeWhile p).length = l.dropWhile p := by
  nth_rewrite 2 [← List.takeWhile_append_dropWhile (p := p) (l := l)]
  exact List.drop_left _ _

theorem run_append_exact {p : Char → Bool} (A x : List Char)
    (hA : ∀ c ∈ A, p c = true)
    (hx : ∀ c, x.head? = some c → p c = false) :
    ((A ++ x).takeWhile p).length = A.length := by
  rw [takeWhile_append_all hA]
  cases x with
  | nil => simp
  | cons c t =>
    rw [List.takeWhile_cons, hx c rfl]
    simp

theorem upRunL_append_exact (A x : List Char) (hA : ∀ c ∈ A, isUp c = true)
    (hx : ∀ c, x.head? = some c → isUp c = false) :
    upRunL (A ++ x) = A.length :=
  run_append_exact A x hA hx

theorem wsRunL_append_exact (A x : List Char) (hA : ∀ c ∈ A, pyWs c = true)
    (hx : ∀ c, x.head? = some c → pyWs c = false) :
    wsRunL (A ++ x) = A.length :=
  run_append_exact A x hA hx

theorem run_append_conf {p : Char → Bool} (A x : List Char)
    (hA : ∃ c ∈ A, p c = false) :
    ((A ++ x).takeWhile p).length = (A.takeWhile p).length ∧
      (A.takeWhile p).length < A.length := by
  refine ⟨by rw [takeWhile_append_stop hA], ?_⟩
  rcases Nat.lt_or_ge (A.takeWhile p).length A.length with h | h
  · exact h
  · exfalso
    obtain ⟨d, hd, hdp⟩ := hA
    have hpre := A.takeWhile_prefix (p := p)
    have hlen : (A.takeWhile p).length = A.length :=
      Nat.le_antisymm (List.IsPrefix.length_le hpre) h
    have heq : A.takeWhile p = A := List.IsPrefix.eq_of_length hpre hlen
    have := List.mem_takeWhile_imp (p := p) (l := A) (by rw [heq]; exact hd)
    rw [hdp] at this
    exact absurd this (by simp)

theorem upRunL_append_conf (A x : List Char) (hA : ∃ c ∈ A, isUp c = false) :
    upRunL (A ++ x) = upRunL A ∧ upRunL A < A.length :=
  run_append_conf A x hA

theorem wsRunL_append_conf (A x : List Char) (hA : ∃ c ∈ A, pyWs c = false) :
    wsRunL (A ++ x) = wsRunL A ∧ wsRunL A < A.length :=
  run_append_conf A x hA

theorem upRun_le_length (l : List Char) : upRunL l ≤ l.length := by
  rw [upRunL]
  exact List.IsPrefix.length_le (l.takeWhile_prefix _)

theorem wsRun_le_length (l : List Char) : wsRunL l ≤ l.length := by
  rw [wsRunL]
  exact List.IsPrefix.length_le (l.takeWhile_prefix _)

theorem upRun_take_upper (l : List Char) :
    ∀ c ∈ l.take (upRunL l), isUp c = true := by
  intro c hc
  rw [upRunL, take_run] at hc
  exact List.mem_takeWhile_imp hc

theorem wsRun_take_ws (l : List Char) :
    ∀ c ∈ l.take (wsRunL l), pyWs c = true := by
  intro c hc
  rw [wsRunL, take_run] at hc
  exact List.mem_takeWhile_imp hc

theorem upRun_stop (l : List Char) :
    ∀ c, (l.drop (upRunL l)).head? = some c → isUp c = false := by
  intro c hc
  rw [upRunL, drop_run] at hc
  exact dropWhile_head?_false l c hc

theorem wsRun_stop (l : List Char) :
    ∀ c, (l.drop (wsRunL l)).head? = some c → pyWs c = false := by
  intro c hc
  rw [wsRunL, drop_run] at hc
  exact dropWhile_head?_false l c hc

theorem upRun_zero (l : List Char) (h : upRunL l = 0) :
    ∀ c, l.head? = some c → isUp c = false := by
  intro c hc
  cases l with
  | nil => simp at hc
  | cons d t =>
    simp only [List.head?_cons, Option.some.injEq] at hc
    subst hc
    rw [upRunL, List.takeWhile_cons] at h
    cases hc2 : isUp d with
    | false => rfl
    | true => rw [hc2] at h; simp at h

theorem upRun_head_up (c : Char) (t : List Char) (h : isUp c = true) :
    upRunL (c :: t) = upRunL t + 1 := by
  rw [upRunL, upRunL, List.takeWhile_cons, h]
  simp

theorem upRun_head_not (c : Char) (t : List Char) (h : isUp c = false) :
    upRunL (c :: t) = 0 := by
  rw [upRunL, List.takeWhile_cons, h]
  simp

theorem wsRun_head_not (c : Char) (t : List Char) (h : pyWs c = false) :
    wsRunL (c :: t) = 0 := by
  rw [wsRunL, List.takeWhile_cons, h]
  simp

theorem upRun_pos_head (l : List Char) (h : 1 ≤ upRunL l) :
    ∃ c t, l = c :: t ∧ isUp c = true := by
  cases l with
  | nil => rw [upRunL] at h; simp at h
  | cons c t =>
    refine ⟨c, t, rfl, ?_⟩
    cases hc : isUp c with
    | true => rfl
    | false => rw [upRun_head_not c t hc] at h; omega


/-! ## Fuel robustness of the greedy scans -/

theorem repsScanF_nil : ∀ fuel, repsScanF fuel [] = (0, 0, 0) := by
  intro fuel
  cases fuel with
  | zero => rfl
  | succ f =>
    rw [repsScanF]
    have h : upRunL ([] : List Char) = 0 := rfl
    simp [h]

theorem repsScanF_congr : ∀ (f1 f2 : Nat) (l : List Char),
    l.length ≤ f1 → l.length ≤ f2 → repsScanF f1 l = repsScanF f2 l := by
  intro f1
  induction f1 with
  | zero =>
    intro f2 l h1 _
    have : l = [] := List.eq_nil_of_length_eq_zero (Nat.le_zero.mp h1)
    subst this
    rw [repsScanF_nil, repsScanF_nil]
  | succ g ih =>
    intro f2 l h1 h2
    cases l with
    | nil => rw [repsScanF_nil, repsScanF_nil]
    | cons c t =>
      cases f2 with
      | zero => simp at h2
      | succ g2 =>
        rw [repsScanF, repsScanF]
        by_cases hu : 1 ≤ upRunL (c :: t) ∧ upRunL (c :: t) ≤ 4
        · simp only [if_pos hu]
          by_cases hw : 1 ≤ wsRunL ((c :: t).drop (upRunL (c :: t)))
          · simp only [if_pos hw]
            have hlen : (((c :: t).drop (upRunL (c :: t))).drop
                (wsRunL ((c :: t).drop (upRunL (c :: t))))).length ≤
                (c :: t).length - 2 := by
              rw [List.length_drop, List.length_drop]
              omega
            rw [ih g2 _ (by simp at h1 ⊢; omega) (by simp at h2 ⊢; omega)]
          · simp only [if_neg hw]
        · simp only [if_neg hu]

theorem repsScanF_norm (fuel : Nat) (l : List Char) (h : l.length ≤ fuel) :
    repsScanF fuel l = repsScanU l :=
  repsScanF_congr fuel l.length l h le_rfl

theorem repsScanU_step0 (l : List Char)
    (h1 : 1 ≤ upRunL l ∧ upRunL l ≤ 4)
    (h2 : 1 ≤ wsRunL (l.drop (upRunL l)))
    (a b : Nat)
    (h3 : repsScanU ((l.drop (upRunL l)).drop (wsRunL (l.drop (upRunL l)))) =
      (0, a, b)) :
    repsScanU l = (1, upRunL l + wsRunL (l.drop (upRunL l)), upRunL l) := by
  obtain ⟨c, t, rfl, _⟩ := upRun_pos_head l h1.1
  rw [repsScanU, List.length_cons, repsScanF]
  simp only [if_pos h1, if_pos h2]
  rw [repsScanF_norm _ _ (by
    rw [List.length_drop, List.length_drop]
    simp only [List.length_cons]
    omega), h3]

theorem repsScanU_stepS (l : List Char)
    (h1 : 1 ≤ upRunL l ∧ upRunL l ≤ 4)
    (h2 : 1 ≤ wsRunL (l.drop (upRunL l)))
    (r cf lt : Nat)
    (h3 : repsScanU ((l.drop (upRunL l)).drop (wsRunL (l.drop (upRunL l)))) =
      (r + 1, cf, lt)) :
    repsScanU l = (r + 2,
      upRunL l + wsRunL (l.drop (upRunL l)) + cf,
      upRunL l + wsRunL (l.drop (upRunL l)) + lt) := by
  obtain ⟨c, t, rfl, _⟩ := upRun_pos_head l h1.1
  rw [repsScanU, List.length_cons, repsScanF]
  simp only [if_pos h1, if_pos h2]
  rw [repsScanF_norm _ _ (by
    rw [List.length_drop, List.length_drop]
    simp only [List.length_cons]
    omega), h3]

theorem repsScanU_stop (l : List Char)
    (h : ¬(1 ≤ upRunL l ∧ upRunL l ≤ 4) ∨
      wsRunL (l.drop (upRunL l)) = 0) :
    repsScanU l = (0, 0, 0) := by
  cases l with
  | nil => rfl
  | cons c t =>
    rw [repsScanU, List.length_cons, repsScanF]
    rcases h with h | h
    · simp only [if_neg h]
    · by_cases hu : 1 ≤ upRunL (c :: t) ∧ upRunL (c :: t) ≤ 4
      · simp only [if_pos hu, h]
        simp
      · simp only [if_neg hu]

theorem repsScanF_bounds : ∀ (fuel : Nat) (l : List Char) (r cf lt : Nat),
    repsScanF fuel l = (r, cf, lt) →
    lt ≤ cf ∧ cf ≤ l.length ∧ (1 ≤ r → 1 ≤ lt) := by
  intro fuel
  induction fuel with
  | zero =>
    intro l r cf lt h
    rw [repsScanF] at h
    injection h with h1 h2
    injection h2 with h2 h3
    omega
  | succ g ih =>
    intro l r cf lt h
    cases l with
    | nil =>
      rw [repsScanF_nil] at h
      injection h with h1 h2
      injection h2 with h2 h3
      omega
    | cons c t =>
      rw [repsScanF] at h
      by_cases hu : 1 ≤ upRunL (c :: t) ∧ upRunL (c :: t) ≤ 4
      · simp only [if_pos hu] at h
        by_cases hw : 1 ≤ wsRunL ((c :: t).drop (upRunL (c :: t)))
        · simp only [if_pos hw] at h
          have hwle := wsRun_le_length ((c :: t).drop (upRunL (c :: t)))
          rw [List.length_drop] at hwle
          have hule := upRun_le_length (c :: t)
          cases ht : repsScanF g (((c :: t).drop (upRunL (c :: t))).drop
              (wsRunL ((c :: t).drop (upRunL (c :: t))))) with
          | mk r2 p2 =>
            cases p2 with
            | mk cf2 lt2 =>
              obtain ⟨hb1, hb2, hb3⟩ := ih _ _ _ _ ht
              rw [List.length_drop, List.length_drop] at hb2
              rw [ht] at h
              cases r2 with
              | zero =>
                simp only [] at h
                injection h with h1 h2
                injection h2 with h2 h3
                omega
              | succ r3 =>
                simp only [] at h
                injection h with h1 h2
                injection h2 with h2 h3
                omega
        · simp only [if_neg hw] at h
          injection h with h1 h2
          injection h2 with h2 h3
          omega
      · simp only [if_neg hu] at h
        injection h with h1 h2
        injection h2 with h2 h3
        omega

theorem repsScanU_bounds (l : List Char) (r cf lt : Nat)
    (h : repsScanU l = (r, cf, lt)) :
    lt ≤ cf ∧ cf ≤ l.length ∧ (1 ≤ r → 1 ≤ lt) :=
  repsScanF_bounds l.length l r cf lt h

/-! ## The match decision in terms of the greedy data -/

theorem matchAtU_eqn (l : List Char) (r cf lt : Nat)
    (h : repsScanU l = (r, cf, lt)) :
    matchAtU false l =
      if finalOkAt (l.drop cf) && decide (2 ≤ r) then
        some (cf + upRunL (l.drop cf))
      else if 3 ≤ r then some lt else none := by
  rw [matchAtU]
  simp only [Bool.false_eq_true, if_false, h, finalOkAt]

theorem matchAtU_true (pw : Bool) (l : List Char) (h : pw = true) :
    matchAtU pw l = none := by
  subst h
  rfl

theorem matchAtU_some_pw (pw : Bool) (l : List Char) (e : Nat)
    (h : matchAtU pw l = some e) : pw = false := by
  cases pw with
  | false => rfl
  | true => rw [matchAtU_true true l rfl] at h; simp at h

theorem matchAtU_r0_none (pw : Bool) (l : List Char) (a b : Nat)
    (h : repsScanU l = (0, a, b)) : matchAtU pw l = none := by
  cases pw with
  | true => rfl
  | false =>
    rw [matchAtU_eqn l 0 a b h]
    simp

theorem matchAtU_head_not_up (pw : Bool) (l : List Char)
    (h : ∀ c, l.head? = some c → isUp c = false) :
    matchAtU pw l = none := by
  have hu : upRunL l = 0 := by
    cases l with
    | nil => rfl
    | cons c t => exact upRun_head_not c t (h c rfl)
  exact matchAtU_r0_none pw l 0 0 (repsScanU_stop l (Or.inl (by omega)))

theorem finalOkAt_true (z : List Char) (h : finalOkAt z = true) :
    1 ≤ upRunL z ∧ upRunL z ≤ 4 ∧
      (∀ c, (z.drop (upRunL z)).head? = some c → isWordCh c = false) := by
  rw [finalOkAt, Bool.and_eq_true, decide_eq_true_iff] at h
  refine ⟨h.1.1, h.1.2, ?_⟩
  intro c hc
  have h2 := h.2
  cases hd : z.drop (upRunL z) with
  | nil => rw [hd] at hc; simp at hc
  | cons d t =>
    rw [hd] at hc h2
    simp only [List.head?_cons, Option.some.injEq] at hc
    subst hc
    simp only [Bool.not_eq_true'] at h2
    exact h2

theorem matchAtU_le (pw : Bool) (l : List Char) (e : Nat)
    (h : matchAtU pw l = some e) : 1 ≤ e ∧ e ≤ l.length := by
  have hpw := matchAtU_some_pw pw l e h
  subst hpw
  cases hr : repsScanU l with
  | mk r p =>
    cases p with
    | mk cf lt =>
      rw [matchAtU_eqn l r cf lt hr] at h
      obtain ⟨hb1, hb2, hb3⟩ := repsScanU_bounds l r cf lt hr
      by_cases hf : finalOkAt (l.drop cf) && decide (2 ≤ r)
      · rw [if_pos hf] at h
        injection h with h
        rw [Bool.and_eq_true] at hf
        obtain ⟨hu1, _, _⟩ := finalOkAt_true _ hf.1
        have := upRun_le_length (l.drop cf)
        rw [List.length_drop] at this
        omega
      · rw [if_neg hf] at h
        by_cases h3 : 3 ≤ r
        · rw [if_pos h3] at h
          injection h with h
          omega
        · rw [if_neg h3] at h
          simp at h

/-! ## Fuel robustness of the substitution scan -/

theorem scanF_nil : ∀ fuel pw, scanF fuel pw [] = [] := by
  intro fuel pw
  cases fuel <;> rfl

theorem scanF_congr : ∀ (f1 f2 : Nat) (pw : Bool) (l : List Char),
    l.length ≤ f1 → l.length ≤ f2 → scanF f1 pw l = scanF f2 pw l := by
  intro f1
  induction f1 with
  | zero =>
    intro f2 pw l h1 _
    have : l = [] := List.eq_nil_of_length_eq_zero (Nat.le_zero.mp h1)
    subst this
    rw [scanF_nil, scanF_nil]
  | succ g ih =>
    intro f2 pw l h1 h2
    cases l with
    | nil => rw [scanF_nil, scanF_nil]
    | cons c t =>
      cases f2 with
      | zero => simp at h2
      | succ g2 =>
        rw [scanF, scanF]
        cases hm : matchAtU pw (c :: t) with
        | none =>
          simp only []
          rw [ih g2 (isWordCh c) t (by simp at h1; omega) (by simp at h2; omega)]
        | some e =>
          simp only []
          by_cases he : 1 ≤ e
          · simp only [if_pos he]
            have hel : ((c :: t).drop e).length ≤ t.length := by
              rw [List.length_drop]
              simp only [List.length_cons]
              omega
            rw [ih g2 true ((c :: t).drop e)
              (by simp at h1; omega) (by simp at h2; omega)]
          · simp only [if_neg he]
            rw [ih g2 (isWordCh c) t (by simp at h1; omega) (by simp at h2; omega)]

theorem scanF_norm (fuel pw : _) (l : List Char) (h : l.length ≤ fuel) :
    scanF fuel pw l = scanU pw l :=
  scanF_congr fuel l.length pw l h le_rfl

theorem scanU_step_none (pw : Bool) (c : Char) (t : List Char)
    (h : matchAtU pw (c :: t) = none) :
    scanU pw (c :: t) = c :: scanU (isWordCh c) t := by
  rw [scanU, List.length_cons, scanF, h]
  rfl

theorem scanU_step_some (pw : Bool) (c : Char) (t : List Char) (e : Nat)
    (h : matchAtU pw (c :: t) = some e) (he : 1 ≤ e) :
    scanU pw (c :: t) =
      ((c :: t).take e).filter (fun x => x ≠ ' ') ++
        scanU true ((c :: t).drop e) := by
  rw [scanU, List.length_cons, scanF, h]
  simp only [if_pos he]
  rw [scanF_norm _ _ _ (by rw [List.length_drop]; simp only [List.length_cons]; omega)]

theorem scanU_true_cons (c : Char) (t : List Char) :
    scanU true (c :: t) = c :: scanU (isWordCh c) t :=
  scanU_step_none true c t (matchAtU_true true (c :: t) rfl)

/-! ## Copy lemmas -/

theorem ws_not_up (c : Char) (h : pyWs c = true) : isUp c = false := by
  cases hu : isUp c with
  | false => rfl
  | true => rw [up_not_ws c hu] at h; exact absurd h (by simp)

theorem ws_copy (S : List Char) (hS : ∀ c ∈ S, pyWs c = true) (hne : S ≠ []) :
    ∀ (pw : Bool) (x : List Char), scanU pw (S ++ x) = S ++ scanU false x := by
  induction S with
  | nil => exact absurd rfl hne
  | cons c S ih =>
    intro pw x
    have hc : pyWs c = true := hS c (by simp)
    have hm : matchAtU pw (c :: (S ++ x)) = none :=
      matchAtU_head_not_up pw _ (fun d hd => by
        simp only [List.head?_cons, Option.some.injEq] at hd
        rw [← hd]
        exact ws_not_up c hc)
    rw [List.cons_append, scanU_step_none pw c (S ++ x) hm,
      ws_not_word c hc]
    by_cases hSn : S = []
    · subst hSn
      rfl
    · rw [ih (fun d hd => hS d (List.mem_cons_of_mem c hd)) hSn false x]
      rfl

theorem copy_true_words (a : List Char) (ha : ∀ c ∈ a, isWordCh c = true) :
    ∀ x, scanU true (a ++ x) = a ++ scanU true x := by
  induction a with
  | nil => intro x; rfl
  | cons c a ih =>
    intro x
    rw [List.cons_append, scanU_true_cons, ha c (by simp),
      ih (fun d hd => ha d (List.mem_cons_of_mem c hd))]
    rfl

theorem token_copy (a : List Char) (x : List Char) (pw : Bool)
    (hne : a ≠ []) (ha : ∀ c ∈ a, isWordCh c = true)
    (hm : matchAtU pw (a ++ x) = none) :
    scanU pw (a ++ x) = a ++ scanU true x := by
  cases a with
  | nil => exact absurd rfl hne
  | cons c a2 =>
    rw [List.cons_append] at hm ⊢
    rw [scanU_step_none pw c (a2 ++ x) hm, ha c (by simp),
      copy_true_words a2 (fun d hd => ha d (List.mem_cons_of_mem c hd)) x]
    rfl


/-! ## Block decomposition of a greedy repetition scan -/


theorem blocksFlat_nil (F : List Char) : blocksFlat [] F = F := rfl

theorem blocksFlat_cons (U V : List Char) (bs : List (List Char × List Char))
    (F : List Char) :
    blocksFlat ((U, V) :: bs) F = U ++ V ++ blocksFlat bs F := rfl

theorem blocksFlat_final_append (bs : List (List Char × List Char))
    (F G : List Char) :
    blocksFlat bs F ++ G = blocksFlat bs (F ++ G) := by
  induction bs with
  | nil => rfl
  | cons p bs ih =>
    cases p with
    | mk U V =>
      rw [blocksFlat_cons, blocksFlat_cons, ← ih]
      simp [List.append_assoc]

theorem repsScanF_r0 : ∀ (fuel : Nat) (l : List Char) (a b : Nat),
    repsScanF fuel l = (0, a, b) → a = 0 ∧ b = 0 := by
  intro fuel
  induction fuel with
  | zero =>
    intro l a b h
    rw [repsScanF] at h
    injection h with h1 h2
    injection h2 with h2 h3
    omega
  | succ g ih =>
    intro l a b h
    cases l with
    | nil =>
      rw [repsScanF_nil] at h
      injection h with h1 h2
      injection h2 with h2 h3
      omega
    | cons c t =>
      rw [repsScanF] at h
      by_cases hu : 1 ≤ upRunL (c :: t) ∧ upRunL (c :: t) ≤ 4
      · simp only [if_pos hu] at h
        by_cases hw : 1 ≤ wsRunL ((c :: t).drop (upRunL (c :: t)))
        · simp only [if_pos hw] at h
          cases ht : repsScanF g (((c :: t).drop (upRunL (c :: t))).drop
              (wsRunL ((c :: t).drop (upRunL (c :: t))))) with
          | mk r2 p2 =>
            cases p2 with
            | mk cf2 lt2 =>
              rw [ht] at h
              cases r2 with
              | zero => simp only [] at h; injection h with h1 _; omega
              | succ r3 => simp only [] at h; injection h with h1 _; omega
        · simp only [if_neg hw] at h
          injection h with h1 h2
          injection h2 with h2 h3
          omega
      · simp only [if_neg hu] at h
        injection h with h1 h2
        injection h2 with h2 h3
        omega

theorem repsScanU_r0 (l : List Char) (a b : Nat)
    (h : repsScanU l = (0, a, b)) : repsScanU l = (0, 0, 0) := by
  obtain ⟨ha, hb⟩ := repsScanF_r0 l.length l a b h
  rw [h, ha, hb]

theorem reps_stop_inv (z : List Char) (h0 : repsScanU z = (0, 0, 0))
    (hu : 1 ≤ upRunL z ∧ upRunL z ≤ 4) :
    wsRunL (z.drop (upRunL z)) = 0 := by
  by_cases hw : 1 ≤ wsRunL (z.drop (upRunL z))
  · exfalso
    cases ht : repsScanU ((z.drop (upRunL z)).drop (wsRunL (z.drop (upRunL z)))) with
    | mk r2 p2 =>
      cases p2 with
      | mk cf2 lt2 =>
        cases r2 with
        | zero =>
          rw [repsScanU_step0 z hu hw cf2 lt2 ht] at h0
          injection h0 with h1 _
          omega
        | succ r3 =>
          rw [repsScanU_stepS z hu hw r3 cf2 lt2 ht] at h0
          injection h0 with h1 _
          omega
  · omega

theorem wsRun_zero (l : List Char) (h : wsRunL l = 0) :
    ∀ c, l.head? = some c → pyWs c = false := by
  intro c hc
  cases l with
  | nil => simp at hc
  | cons d t =>
    simp only [List.head?_cons, Option.some.injEq] at hc
    rw [wsRunL, List.takeWhile_cons] at h
    cases hc2 : pyWs d with
    | false => rw [← hc]; exact hc2
    | true => rw [hc2] at h; simp at h

theorem upRun_ge_prefix (a y : List Char) (ha : ∀ c ∈ a, isUp c = true) :
    a.length ≤ upRunL (a ++ y) := by
  rw [upRunL, takeWhile_append_all ha]
  simp

/-- Token-by-token decomposition of a successful greedy repetition
scan. -/
theorem repsShape : ∀ (n : Nat) (x : List Char), x.length ≤ n →
    ∀ (r cf lt : Nat), repsScanU x = (r + 1, cf, lt) →
    ∃ (bs : List (List Char × List Char)) (T S : List Char),
      (∀ p ∈ bs, WFpair p) ∧ bs.length = r ∧
      T ≠ [] ∧ (∀ c ∈ T, isUp c = true) ∧
      S ≠ [] ∧ (∀ c ∈ S, pyWs c = true) ∧
      x.take cf = blocksFlat bs (T ++ S) ∧
      x.take lt = blocksFlat bs T ∧
      repsScanU (x.drop cf) = (0, 0, 0) ∧
      (∀ c, (x.drop cf).head? = some c → pyWs c = false) := by
  intro n
  induction n with
  | zero =>
    intro x hx r cf lt h
    have : x = [] := List.eq_nil_of_length_eq_zero (Nat.le_zero.mp hx)
    subst this
    rw [repsScanU] at h
    simp only [List.length_nil] at h
    rw [repsScanF] at h
    injection h with h1 _
    omega
  | succ m ih =>
    intro x hx r cf lt h
    by_cases hu : 1 ≤ upRunL x ∧ upRunL x ≤ 4
    · by_cases hw : 1 ≤ wsRunL (x.drop (upRunL x))
      · cases ht : repsScanU ((x.drop (upRunL x)).drop (wsRunL (x.drop (upRunL x)))) with
        | mk r2 p2 =>
          cases p2 with
          | mk cf2 lt2 =>
            have hulen := upRun_le_length x
            have hwlen := wsRun_le_length (x.drop (upRunL x))
            rw [List.length_drop] at hwlen
            cases r2 with
            | zero =>
              rw [repsScanU_step0 x hu hw cf2 lt2 ht] at h
              injection h with h1 h2
              injection h2 with h2 h3
              refine ⟨[], x.take (upRunL x), (x.drop (upRunL x)).take
                (wsRunL (x.drop (upRunL x))), by simp,
                by simp only [List.length_nil]; omega, ?_, ?_, ?_, ?_, ?_, ?_, ?_, ?_⟩
              · have := hu.1
                intro he
                rw [← List.length_eq_zero] at he
                rw [List.length_take] at he
                omega
              · exact upRun_take_upper x
              · have := hw
                intro he
                rw [← List.length_eq_zero] at he
                rw [List.length_take] at he
                rw [List.length_drop] at he
                omega
              · exact wsRun_take_ws (x.drop (upRunL x))
              · rw [blocksFlat_nil, ← h2, List.take_add]
              · rw [blocksFlat_nil, ← h3]
              · rw [← h2, ← List.drop_drop]
                exact repsScanU_r0 _ _ _ ht
              · rw [← h2, ← List.drop_drop]
                intro c hc
                exact wsRun_stop (x.drop (upRunL x)) c hc
            | succ r3 =>
              rw [repsScanU_stepS x hu hw r3 cf2 lt2 ht] at h
              injection h with h1 h2
              injection h2 with h2 h3
              have htl : ((x.drop (upRunL x)).drop (wsRunL (x.drop (upRunL x)))).length ≤ m := by
                rw [List.length_drop, List.length_drop]
                omega
              obtain ⟨bs2, T, S, hwf, hlen, hT1, hT2, hS1, hS2, hcf, hlt, hstop, hhead⟩ :=
                ih _ htl r3 cf2 lt2 ht
              refine ⟨(x.take (upRunL x), (x.drop (upRunL x)).take
                (wsRunL (x.drop (upRunL x)))) :: bs2, T, S, ?_, by simp [hlen]; omega,
                hT1, hT2, hS1, hS2, ?_, ?_, ?_, ?_⟩
              · intro p hp
                rcases List.mem_cons.mp hp with rfl | hp2
                · refine ⟨?_, upRun_take_upper x, ?_, wsRun_take_ws _⟩
                  · have := hu.1
                    intro he
                    rw [← List.length_eq_zero, List.length_take] at he
                    omega
                  · have := hw
                    intro he
                    rw [← List.length_eq_zero, List.length_take,
                      List.length_drop] at he
                    omega
                · exact hwf p hp2
              · rw [blocksFlat_cons, ← h2]
                rw [show upRunL x + wsRunL (x.drop (upRunL x)) + cf2 =
                  upRunL x + (wsRunL (x.drop (upRunL x)) + cf2) by omega]
                rw [List.take_add, List.take_add, hcf, List.append_assoc]
              · rw [blocksFlat_cons, ← h3]
                rw [show upRunL x + wsRunL (x.drop (upRunL x)) + lt2 =
                  upRunL x + (wsRunL (x.drop (upRunL x)) + lt2) by omega]
                rw [List.take_add, List.take_add, hlt, List.append_assoc]
              · rw [← h2, show upRunL x + wsRunL (x.drop (upRunL x)) + cf2 =
                  upRunL x + (wsRunL (x.drop (upRunL x)) + cf2) by omega,
                  ← List.drop_drop, ← List.drop_drop]
                exact hstop
              · rw [← h2, show upRunL x + wsRunL (x.drop (upRunL x)) + cf2 =
                  upRunL x + (wsRunL (x.drop (upRunL x)) + cf2) by omega,
                  ← List.drop_drop, ← List.drop_drop]
                exact hhead
      · exfalso
        rw [repsScanU_stop x (Or.inr (by omega))] at h
        injection h with h1 _
        omega
    · exfalso
      rw [repsScanU_stop x (Or.inl hu)] at h
      injection h with h1 _
      omega


/-! ## Decision lemmas for the match attempt -/

theorem matchAtU_full (l : List Char) (r cf lt : Nat)
    (h : repsScanU l = (r, cf, lt)) (hf : finalOkAt (l.drop cf) = true)
    (hr : 2 ≤ r) : matchAtU false l = some (cf + upRunL (l.drop cf)) := by
  rw [matchAtU_eqn l r cf lt h, hf, decide_eq_true hr]
  rfl

theorem matchAtU_back (l : List Char) (r cf lt : Nat)
    (h : repsScanU l = (r, cf, lt)) (hf : finalOkAt (l.drop cf) = false)
    (hr : 3 ≤ r) : matchAtU false l = some lt := by
  rw [matchAtU_eqn l r cf lt h, hf]
  simp only [Bool.false_and, Bool.false_eq_true, if_false]
  rw [if_pos hr]

theorem matchAtU_none_of (l : List Char) (r cf lt : Nat)
    (h : repsScanU l = (r, cf, lt)) (hr : r ≤ 2)
    (hf : finalOkAt (l.drop cf) = true → r ≤ 1) :
    matchAtU false l = none := by
  rw [matchAtU_eqn l r cf lt h]
  cases hfo : finalOkAt (l.drop cf) with
  | false =>
    simp only [Bool.false_and, Bool.false_eq_true, if_false]
    rw [if_neg (by omega)]
  | true =>
    have h1 := hf hfo
    rw [decide_eq_false (by omega : ¬ 2 ≤ r)]
    simp only [Bool.and_false, Bool.false_eq_true, if_false]
    rw [if_neg (by omega)]

theorem matchAtU_none_data (l : List Char) (r cf lt : Nat)
    (h : repsScanU l = (r, cf, lt)) (hm : matchAtU false l = none) :
    r ≤ 2 ∧ (finalOkAt (l.drop cf) = true → r ≤ 1) := by
  rw [matchAtU_eqn l r cf lt h] at hm
  by_cases hb : (finalOkAt (l.drop cf) && decide (2 ≤ r)) = true
  · rw [if_pos hb] at hm
    simp at hm
  · rw [if_neg hb] at hm
    by_cases h3 : 3 ≤ r
    · rw [if_pos h3] at hm
      simp at hm
    · refine ⟨by omega, ?_⟩
      intro hfo
      by_contra hr1
      exact hb (by rw [hfo, decide_eq_true (by omega : 2 ≤ r)]; rfl)

theorem matchAtU_some_data (l : List Char) (r cf lt e : Nat)
    (h : repsScanU l = (r, cf, lt)) (hm : matchAtU false l = some e) :
    (finalOkAt (l.drop cf) = true ∧ 2 ≤ r ∧ e = cf + upRunL (l.drop cf)) ∨
    (finalOkAt (l.drop cf) = false ∧ 3 ≤ r ∧ e = lt) := by
  rw [matchAtU_eqn l r cf lt h] at hm
  by_cases hb : (finalOkAt (l.drop cf) && decide (2 ≤ r)) = true
  · rw [if_pos hb] at hm
    rw [Bool.and_eq_true, decide_eq_true_iff] at hb
    injection hm with hm
    exact Or.inl ⟨hb.1, hb.2, hm.symm⟩
  · rw [if_neg hb] at hm
    by_cases h3 : 3 ≤ r
    · rw [if_pos h3] at hm
      injection hm with hm
      refine Or.inr ⟨?_, h3, hm.symm⟩
      cases hfo : finalOkAt (l.drop cf) with
      | false => rfl
      | true => exact absurd (by rw [hfo, decide_eq_true (by omega : 2 ≤ r)]; rfl) hb
    · rw [if_neg h3] at hm
      simp at hm

/-! ## Small helpers on runs, heads and last elements -/

theorem not_word_not_up (c : Char) (h : isWordCh c = false) : isUp c = false := by
  cases hu : isUp c with
  | false => rfl
  | true => rw [up_word c hu] at h; exact absurd h (by simp)

theorem head?_prop_of_all {P : Char → Prop} (a : List Char) (h : ∀ c ∈ a, P c) :
    ∀ c, a.head? = some c → P c := by
  intro c hc
  cases a with
  | nil => simp at hc
  | cons d t =>
    simp only [List.head?_cons, Option.some.injEq] at hc
    exact hc ▸ h d (by simp)

theorem head?_append_ne_nil (a x : List Char) (ha : a ≠ []) :
    (a ++ x).head? = a.head? := by
  cases a with
  | nil => exact absurd rfl ha
  | cons c t => rfl

theorem wsRunL_head_zero (l : List Char)
    (h : ∀ c, l.head? = some c → pyWs c = false) : wsRunL l = 0 := by
  cases l with
  | nil => rfl
  | cons c t => exact wsRun_head_not c t (h c rfl)

theorem upRunL_head_zero (l : List Char)
    (h : ∀ c, l.head? = some c → isUp c = false) : upRunL l = 0 := by
  cases l with
  | nil => rfl
  | cons c t => exact upRun_head_not c t (h c rfl)

theorem getLast?_drop_of_ne_nil (A : List Char) (k : Nat)
    (h : A.drop k ≠ []) : (A.drop k).getLast? = A.getLast? := by
  conv_rhs => rw [← List.take_append_drop k A]
  rw [List.getLast?_append_of_ne_nil _ h]

theorem drop_ne_nil_of_lt (A : List Char) (k : Nat) (h : k < A.length) :
    A.drop k ≠ [] := by
  intro he
  have := congrArg List.length he
  rw [List.length_drop] at this
  simp at this
  omega

theorem getLast?_ex (A : List Char) (h : A ≠ []) :
    ∃ d, A.getLast? = some d ∧ d ∈ A := by
  cases hd : A.getLast? with
  | none => exact absurd (List.getLast?_eq_none_iff.mp hd) h
  | some d => exact ⟨d, rfl, List.mem_of_mem_getLast? hd⟩

theorem filter_no_space (l : List Char) (h : ∀ c ∈ l, c ≠ ' ') :
    l.filter (fun x => x ≠ ' ') = l := by
  refine List.filter_eq_self.mpr ?_
  intro a ha
  simpa using h a ha

theorem up_no_space (l : List Char) (h : ∀ c ∈ l, isUp c = true) :
    ∀ c ∈ l, c ≠ ' ' := fun c hc => up_ne_space c (h c hc)

/-! ## Repetition data of one leading token/separator pair -/

theorem pair_run_data (U V X : List Char) (hU1 : U ≠ [])
    (hUup : ∀ c ∈ U, isUp c = true) (hV1 : V ≠ [])
    (hVws : ∀ c ∈ V, pyWs c = true)
    (hX : ∀ c, X.head? = some c → pyWs c = false) :
    upRunL (U ++ (V ++ X)) = U.length ∧
    (U ++ (V ++ X)).drop U.length = V ++ X ∧
    wsRunL (V ++ X) = V.length ∧
    (V ++ X).drop V.length = X := by
  refine ⟨?_, List.drop_left U (V ++ X), wsRunL_append_exact V X hVws hX,
    List.drop_left V X⟩
  refine upRunL_append_exact U (V ++ X) hUup ?_
  intro c hc
  rw [head?_append_ne_nil V X hV1] at hc
  exact ws_not_up c (head?_prop_of_all V hVws c hc)

theorem pair_reps0 (U V X : List Char) (hU1 : U ≠ []) (hU4 : U.length ≤ 4)
    (hUup : ∀ c ∈ U, isUp c = true) (hV1 : V ≠ [])
    (hVws : ∀ c ∈ V, pyWs c = true)
    (hX : ∀ c, X.head? = some c → pyWs c = false)
    (a b : Nat) (h : repsScanU X = (0, a, b)) :
    repsScanU (U ++ (V ++ X)) = (1, U.length + V.length, U.length) := by
  obtain ⟨hu, hdU, hw, hdV⟩ := pair_run_data U V X hU1 hUup hV1 hVws hX
  have h1 : 1 ≤ upRunL (U ++ (V ++ X)) ∧ upRunL (U ++ (V ++ X)) ≤ 4 := by
    rw [hu]
    exact ⟨List.length_pos.mpr hU1, hU4⟩
  have h2 : 1 ≤ wsRunL ((U ++ (V ++ X)).drop (upRunL (U ++ (V ++ X)))) := by
    rw [hu, hdU, hw]
    exact List.length_pos.mpr hV1
  have h3 : repsScanU (((U ++ (V ++ X)).drop (upRunL (U ++ (V ++ X)))).drop
      (wsRunL ((U ++ (V ++ X)).drop (upRunL (U ++ (V ++ X)))))) = (0, a, b) := by
    rw [hu, hdU, hw, hdV]
    exact h
  have hs := repsScanU_step0 (U ++ (V ++ X)) h1 h2 a b h3
  rw [hu, hdU, hw] at hs
  exact hs

theorem pair_repsS (U V X : List Char) (hU1 : U ≠ []) (hU4 : U.length ≤ 4)
    (hUup : ∀ c ∈ U, isUp c = true) (hV1 : V ≠ [])
    (hVws : ∀ c ∈ V, pyWs c = true)
    (hX : ∀ c, X.head? = some c → pyWs c = false)
    (r cf lt : Nat) (h : repsScanU X = (r + 1, cf, lt)) :
    repsScanU (U ++ (V ++ X)) = (r + 2, U.length + V.length + cf,
      U.length + V.length + lt) := by
  obtain ⟨hu, hdU, hw, hdV⟩ := pair_run_data U V X hU1 hUup hV1 hVws hX
  have h1 : 1 ≤ upRunL (U ++ (V ++ X)) ∧ upRunL (U ++ (V ++ X)) ≤ 4 := by
    rw [hu]
    exact ⟨List.length_pos.mpr hU1, hU4⟩
  have h2 : 1 ≤ wsRunL ((U ++ (V ++ X)).drop (upRunL (U ++ (V ++ X)))) := by
    rw [hu, hdU, hw]
    exact List.length_pos.mpr hV1
  have h3 : repsScanU (((U ++ (V ++ X)).drop (upRunL (U ++ (V ++ X)))).drop
      (wsRunL ((U ++ (V ++ X)).drop (upRunL (U ++ (V ++ X)))))) = (r + 1, cf, lt) := by
    rw [hu, hdU, hw, hdV]
    exact h
  have hs := repsScanU_stepS (U ++ (V ++ X)) h1 h2 r cf lt h3
  rw [hu, hdU, hw] at hs
  exact hs

/-! ## The final-token test after an uppercase token -/

theorem finalOkAt_up_nonword (T X : List Char) (hT1 : T ≠ [])
    (hTup : ∀ c ∈ T, isUp c = true)
    (hX : ∀ c, X.head? = some c → isWordCh c = false) :
    finalOkAt (T ++ X) = decide (T.length ≤ 4) := by
  have hu : upRunL (T ++ X) = T.length :=
    upRunL_append_exact T X hTup (fun c hc => not_word_not_up c (hX c hc))
  have h1 : 0 < T.length := List.length_pos.mpr hT1
  rw [finalOkAt, hu, List.drop_left]
  cases X with
  | nil =>
    simp only [Bool.and_true]
    exact decide_eq_decide.mpr ⟨fun h => h.2, fun h => ⟨h1, h⟩⟩
  | cons d X2 =>
    have hd : isWordCh d = false := hX d rfl
    simp only [hd]
    simp only [Bool.not_false, Bool.and_true]
    exact decide_eq_decide.mpr ⟨fun h => h.2, fun h => ⟨h1, h⟩⟩

/-! ## Repetition data of a bare final token before the context -/

theorem region_reps_nil_CA (F ctx : List Char) (hF1 : F ≠ [])
    (hFup : ∀ c ∈ F, isUp c = true)
    (hctx : ∀ c, ctx.head? = some c → isWordCh c = false ∧ pyWs c = false) :
    repsScanU (F ++ ctx) = (0, 0, 0) := by
  have hu : upRunL (F ++ ctx) = F.length :=
    upRunL_append_exact F ctx hFup
      (fun c hc => not_word_not_up c (hctx c hc).1)
  by_cases h4 : F.length ≤ 4
  · refine repsScanU_stop _ (Or.inr ?_)
    rw [hu, List.drop_left]
    exact wsRunL_head_zero ctx (fun c hc => (hctx c hc).2)
  · exact repsScanU_stop _ (Or.inl (by rw [hu]; omega))

theorem region_reps_nil_CB_long (F S y : List Char) (hFup : ∀ c ∈ F, isUp c = true)
    (hF5 : 5 ≤ F.length) (hS1 : S ≠ []) (hSws : ∀ c ∈ S, pyWs c = true) :
    repsScanU (F ++ (S ++ y)) = (0, 0, 0) := by
  have hu : upRunL (F ++ (S ++ y)) = F.length := by
    refine upRunL_append_exact F (S ++ y) hFup ?_
    intro c hc
    rw [head?_append_ne_nil S y hS1] at hc
    exact ws_not_up c (head?_prop_of_all S hSws c hc)
  exact repsScanU_stop _ (Or.inl (by rw [hu]; omega))


/-! ## Confinement of a failed match attempt to a prefix -/

theorem finalOkAt_conf (B q q2 : List Char) (hB : B ≠ [])
    (hlast : ∀ c, B.getLast? = some c → isWordCh c = false) :
    finalOkAt (B ++ q) = finalOkAt (B ++ q2) := by
  obtain ⟨d, hd, hdmem⟩ := getLast?_ex B hB
  have hdup : isUp d = false := not_word_not_up d (hlast d hd)
  obtain ⟨huq, hult⟩ := upRunL_append_conf B q ⟨d, hdmem, hdup⟩
  obtain ⟨huq2, _⟩ := upRunL_append_conf B q2 ⟨d, hdmem, hdup⟩
  have hne : B.drop (upRunL B) ≠ [] := drop_ne_nil_of_lt B _ hult
  rw [finalOkAt, finalOkAt, huq, huq2,
    List.drop_append_of_le_length (by omega),
    List.drop_append_of_le_length (by omega)]
  cases hbd : B.drop (upRunL B) with
  | nil => exact absurd hbd hne
  | cons c t => rfl

/-- If the tail after one token/separator pair admits a match, the whole
list admits a match. -/
theorem reps_lift_match (l Y : List Char)
    (h1 : 1 ≤ upRunL l ∧ upRunL l ≤ 4)
    (h2 : 1 ≤ wsRunL (l.drop (upRunL l)))
    (hY2 : l.drop (upRunL l + wsRunL (l.drop (upRunL l))) = Y)
    (hm : matchAtU false Y ≠ none) :
    matchAtU false l ≠ none := by
  have hYt : (l.drop (upRunL l)).drop (wsRunL (l.drop (upRunL l))) = Y := by
    rw [List.drop_drop]
    exact hY2
  have hsfx : ∀ k, l.drop (upRunL l + wsRunL (l.drop (upRunL l)) + k) =
      Y.drop k := by
    intro k
    rw [← List.drop_drop, hY2]
  cases hq : repsScanU Y with
  | mk rq p =>
    cases p with
    | mk cfq ltq =>
      cases hqe : matchAtU false Y with
      | none => exact absurd hqe hm
      | some e =>
        rcases matchAtU_some_data Y rq cfq ltq e hq hqe with
          ⟨hf, h2r, _⟩ | ⟨hf, h3r, _⟩
        · obtain ⟨rq2, rfl⟩ : ∃ k, rq = k + 1 := ⟨rq - 1, by omega⟩
          have hreps := repsScanU_stepS l h1 h2 rq2 cfq ltq
            (by rw [hYt]; exact hq)
          rw [matchAtU_full l _ _ _ hreps (by rw [hsfx cfq]; exact hf)
            (by omega)]
          simp
        · obtain ⟨rq2, rfl⟩ : ∃ k, rq = k + 1 := ⟨rq - 1, by omega⟩
          have hreps := repsScanU_stepS l h1 h2 rq2 cfq ltq
            (by rw [hYt]; exact hq)
          rw [matchAtU_back l _ _ _ hreps (by rw [hsfx cfq]; exact hf)
            (by omega)]
          simp

/-- Confinement: behind a prefix ending in a non-word character, a failed
match attempt computes repetition data that does not depend on what
follows the prefix, provided the continuation itself admits a match and
both continuations start with a non-whitespace character. -/
theorem conf_data : ∀ (n : Nat) (A q q2 : List Char), A.length ≤ n →
    A ≠ [] →
    (∀ c, A.getLast? = some c → isWordCh c = false) →
    (∀ c, q.head? = some c → pyWs c = false) →
    (∀ c, q2.head? = some c → pyWs c = false) →
    matchAtU false q ≠ none →
    matchAtU false (A ++ q) ≠ none ∨
    (∃ r cf lt, repsScanU (A ++ q) = (r, cf, lt) ∧
      repsScanU (A ++ q2) = (r, cf, lt) ∧ cf < A.length) := by
  intro n
  induction n with
  | zero =>
    intro A q q2 hA hAne _ _ _ _
    exact absurd (List.eq_nil_of_length_eq_zero (Nat.le_zero.mp hA)) hAne
  | succ m ih =>
    intro A q q2 hA hAne hlast hqh hq2h hqm
    obtain ⟨d, hd, hdmem⟩ := getLast?_ex A hAne
    have hdw : isWordCh d = false := hlast d hd
    have hdup : isUp d = false := not_word_not_up d hdw
    obtain ⟨huq, hulek⟩ := upRunL_append_conf A q ⟨d, hdmem, hdup⟩
    obtain ⟨huq2, _⟩ := upRunL_append_conf A q2 ⟨d, hdmem, hdup⟩
    by_cases hu14 : 1 ≤ upRunL A ∧ upRunL A ≤ 4
    case neg =>
      refine Or.inr ⟨0, 0, 0, ?_, ?_, List.length_pos.mpr hAne⟩
      · exact repsScanU_stop _ (Or.inl (by rw [huq]; exact hu14))
      · exact repsScanU_stop _ (Or.inl (by rw [huq2]; exact hu14))
    case pos =>
      have hAd_len : (A.drop (upRunL A)).length = A.length - upRunL A :=
        List.length_drop _ _
      have hAdrop_ne : A.drop (upRunL A) ≠ [] :=
        drop_ne_nil_of_lt A _ hulek
      have hdropq : (A ++ q).drop (upRunL A) = A.drop (upRunL A) ++ q :=
        List.drop_append_of_le_length (by omega)
      have hdropq2 : (A ++ q2).drop (upRunL A) = A.drop (upRunL A) ++ q2 :=
        List.drop_append_of_le_length (by omega)
      have h1q : 1 ≤ upRunL (A ++ q) ∧ upRunL (A ++ q) ≤ 4 := by
        rw [huq]
        exact hu14
      have h1q2 : 1 ≤ upRunL (A ++ q2) ∧ upRunL (A ++ q2) ≤ 4 := by
        rw [huq2]
        exact hu14
      by_cases hallws : ∀ c ∈ A.drop (upRunL A), pyWs c = true
      case pos =>
        left
        have hwq_full : wsRunL ((A ++ q).drop (upRunL (A ++ q))) =
            (A.drop (upRunL A)).length := by
          rw [huq, hdropq]
          exact wsRunL_append_exact _ q hallws hqh
        refine reps_lift_match (A ++ q) q h1q ?_ ?_ hqm
        · rw [hwq_full]
          have := List.length_pos.mpr hAdrop_ne
          omega
        · rw [hwq_full, huq, ← List.drop_drop, hdropq, List.drop_left]
      case neg =>
        obtain ⟨cw, hcwmem, hcw⟩ : ∃ c ∈ A.drop (upRunL A), pyWs c = false := by
          push_neg at hallws
          obtain ⟨c, hc, hcp⟩ := hallws
          exact ⟨c, hc, by simpa using hcp⟩
        obtain ⟨hwq, hwlt⟩ := wsRunL_append_conf (A.drop (upRunL A)) q
          ⟨cw, hcwmem, hcw⟩
        obtain ⟨hwq2, _⟩ := wsRunL_append_conf (A.drop (upRunL A)) q2
          ⟨cw, hcwmem, hcw⟩
        have hwq_conf : wsRunL ((A ++ q).drop (upRunL (A ++ q))) =
            wsRunL (A.drop (upRunL A)) := by
          rw [huq, hdropq]
          exact hwq
        have hwq2_conf : wsRunL ((A ++ q2).drop (upRunL (A ++ q2))) =
            wsRunL (A.drop (upRunL A)) := by
          rw [huq2, hdropq2]
          exact hwq2
        by_cases hw0 : wsRunL (A.drop (upRunL A)) = 0
        case pos =>
          refine Or.inr ⟨0, 0, 0, ?_, ?_, List.length_pos.mpr hAne⟩
          · refine repsScanU_stop _ (Or.inr ?_)
            rw [hwq_conf]
            exact hw0
          · refine repsScanU_stop _ (Or.inr ?_)
            rw [hwq2_conf]
            exact hw0
        case neg =>
          have h2q : 1 ≤ wsRunL ((A ++ q).drop (upRunL (A ++ q))) := by
            rw [hwq_conf]
            omega
          have h2q2 : 1 ≤ wsRunL ((A ++ q2).drop (upRunL (A ++ q2))) := by
            rw [hwq2_conf]
            omega
          have hA2eq : (A.drop (upRunL A)).drop (wsRunL (A.drop (upRunL A))) =
              A.drop (upRunL A + wsRunL (A.drop (upRunL A))) :=
            List.drop_drop _ _ _
          have hA2len : (A.drop (upRunL A + wsRunL (A.drop (upRunL A)))).length =
              A.length - (upRunL A + wsRunL (A.drop (upRunL A))) :=
            List.length_drop _ _
          have hA2ne : A.drop (upRunL A + wsRunL (A.drop (upRunL A))) ≠ [] := by
            refine drop_ne_nil_of_lt A _ ?_
            omega
          have hA2last : ∀ c,
              (A.drop (upRunL A + wsRunL (A.drop (upRunL A)))).getLast? =
                some c → isWordCh c = false := by
            intro c hc
            apply hlast
            rw [← getLast?_drop_of_ne_nil A
              (upRunL A + wsRunL (A.drop (upRunL A))) hA2ne]
            exact hc
          have hA2lenle :
              (A.drop (upRunL A + wsRunL (A.drop (upRunL A)))).length ≤ m := by
            rw [hA2len]
            omega
          have htailq : ((A ++ q).drop (upRunL (A ++ q))).drop
              (wsRunL ((A ++ q).drop (upRunL (A ++ q)))) =
              A.drop (upRunL A + wsRunL (A.drop (upRunL A))) ++ q := by
            rw [hwq_conf, huq, hdropq,
              List.drop_append_of_le_length (by omega), hA2eq]
          have htailq2 : ((A ++ q2).drop (upRunL (A ++ q2))).drop
              (wsRunL ((A ++ q2).drop (upRunL (A ++ q2)))) =
              A.drop (upRunL A + wsRunL (A.drop (upRunL A))) ++ q2 := by
            rw [hwq2_conf, huq2, hdropq2,
              List.drop_append_of_le_length (by omega), hA2eq]
          rcases ih (A.drop (upRunL A + wsRunL (A.drop (upRunL A)))) q q2
            hA2lenle hA2ne hA2last hqh hq2h hqm with
            hin | ⟨r2, cf2, lt2, hr2q, hr2q2, hcf2⟩
          case inl =>
            left
            refine reps_lift_match (A ++ q)
              (A.drop (upRunL A + wsRunL (A.drop (upRunL A))) ++ q)
              h1q h2q ?_ hin
            rw [← List.drop_drop]
            exact htailq
          case inr =>
            right
            cases r2 with
            | zero =>
              have hsq := repsScanU_step0 (A ++ q) h1q h2q cf2 lt2
                (by rw [htailq]; exact hr2q)
              have hsq2 := repsScanU_step0 (A ++ q2) h1q2 h2q2 cf2 lt2
                (by rw [htailq2]; exact hr2q2)
              rw [hwq_conf, huq] at hsq
              rw [hwq2_conf, huq2] at hsq2
              refine ⟨1, upRunL A + wsRunL (A.drop (upRunL A)), upRunL A,
                hsq, hsq2, ?_⟩
              omega
            | succ r3 =>
              have hsq := repsScanU_stepS (A ++ q) h1q h2q r3 cf2 lt2
                (by rw [htailq]; exact hr2q)
              have hsq2 := repsScanU_stepS (A ++ q2) h1q2 h2q2 r3 cf2 lt2
                (by rw [htailq2]; exact hr2q2)
              rw [hwq_conf, huq] at hsq
              rw [hwq2_conf, huq2] at hsq2
              refine ⟨r3 + 2, upRunL A + wsRunL (A.drop (upRunL A)) + cf2,
                upRunL A + wsRunL (A.drop (upRunL A)) + lt2, hsq, hsq2, ?_⟩
              rw [hA2len] at hcf2
              omega

/-- Main confinement corollary: if a continuation that admits a match is
replaced behind a non-word-ending prefix by another non-whitespace-headed
continuation, a failing match attempt keeps failing. -/
theorem conf_main (A q q2 : List Char) (hAne : A ≠ [])
    (hlast : ∀ c, A.getLast? = some c → isWordCh c = false)
    (hqh : ∀ c, q.head? = some c → pyWs c = false)
    (hq2h : ∀ c, q2.head? = some c → pyWs c = false)
    (hqm : matchAtU false q ≠ none)
    (hnone : matchAtU false (A ++ q) = none) :
    matchAtU false (A ++ q2) = none := by
  rcases conf_data A.length A q q2 le_rfl hAne hlast hqh hq2h hqm with
    h | ⟨r, cf, lt, h1, h2, hcf⟩
  · exact absurd hnone h
  · obtain ⟨hr2, hf1⟩ := matchAtU_none_data _ _ _ _ h1 hnone
    have hado : A.drop cf ≠ [] := drop_ne_nil_of_lt A cf hcf
    have hlast2 : ∀ c, (A.drop cf).getLast? = some c → isWordCh c = false := by
      intro c hc
      apply hlast
      rw [← getLast?_drop_of_ne_nil A cf hado]
      exact hc
    have hfeq : finalOkAt ((A ++ q).drop cf) =
        finalOkAt ((A ++ q2).drop cf) := by
      rw [List.drop_append_of_le_length (by omega),
        List.drop_append_of_le_length (by omega)]
      exact finalOkAt_conf _ q q2 hado hlast2
    refine matchAtU_none_of _ r cf lt h2 hr2 ?_
    intro hf
    exact hf1 (hfeq.trans hf)


/-! ## First-match decomposition and match shape -/



theorem drop_left_len (a x : List Char) (k : Nat) (hk : a.length = k) :
    (a ++ x).drop k = x := by
  rw [← hk]
  exact List.drop_left a x

theorem take_left_len (a x : List Char) (k : Nat) (hk : a.length = k) :
    (a ++ x).take k = a := by
  rw [← hk]
  exact List.take_left a x

theorem blocksFlat_append_pair (bs : List (List Char × List Char))
    (T S F : List Char) :
    blocksFlat (bs ++ [(T, S)]) F = blocksFlat bs (T ++ S ++ F) := by
  rw [blocksFlat, blocksFlat, List.foldr_append]
  rfl

/-- First-match decomposition of one substitution pass: either no match
fires and the pass is the identity, or the input splits at the first
match position. -/
theorem fmd : ∀ (n : Nat) (pw : Bool) (x : List Char), x.length ≤ n →
    scanU pw x = x ∨
    ∃ (p q : List Char) (e : Nat), x = p ++ q ∧ matchAtU false q = some e ∧
      scanU pw x = p ++ ((q.take e).filter (fun c => c ≠ ' ') ++
        scanU true (q.drop e)) ∧
      (p = [] → pw = false) ∧
      (∀ c, p.getLast? = some c → isWordCh c = false) := by
  intro n
  induction n with
  | zero =>
    intro pw x hx
    left
    rw [List.eq_nil_of_length_eq_zero (Nat.le_zero.mp hx)]
    rfl
  | succ m ih =>
    intro pw x hx
    cases x with
    | nil => left; rfl
    | cons c t =>
      cases hm : matchAtU pw (c :: t) with
      | some e =>
        right
        have hpw : pw = false := matchAtU_some_pw pw _ e hm
        subst hpw
        obtain ⟨he1, _⟩ := matchAtU_le false _ e hm
        refine ⟨[], c :: t, e, rfl, hm, ?_, fun _ => rfl,
          by intro d hd; simp at hd⟩
        rw [scanU_step_some false c t e hm he1, List.nil_append]
      | none =>
        have hstep := scanU_step_none pw c t hm
        rcases ih (isWordCh c) t
            (by simp only [List.length_cons] at hx; omega) with
          h1 | ⟨p, q, e, hxq, hqm, hout, hpnil, hplast⟩
        · left
          rw [hstep, h1]
        · right
          refine ⟨c :: p, q, e, by rw [hxq]; rfl, hqm, ?_, ?_, ?_⟩
          · rw [hstep, hout]
            rfl
          · intro h
            exact absurd h (List.cons_ne_nil c p)
          · intro d hd
            cases p with
            | nil =>
              simp only [List.getLast?_singleton, Option.some.injEq] at hd
              rw [← hd]
              exact hpnil rfl
            | cons p0 ps =>
              rw [List.getLast?_cons_cons] at hd
              exact hplast d hd

/-- The region consumed by a successful match is a block list of
uppercase tokens and whitespace separators, and the remaining context is
admissible. -/
theorem match_shape (q : List Char) (e : Nat)
    (hm : matchAtU false q = some e) :
    ∃ bs F, (∀ p ∈ bs, WFpair p) ∧ F ≠ [] ∧ (∀ c ∈ F, isUp c = true) ∧
      q.take e = blocksFlat bs F ∧ CtxOK (q.drop e) := by
  rcases hr : repsScanU q with ⟨r, cf, lt⟩
  rcases matchAtU_some_data q r cf lt e hr hm with
    ⟨hf, h2r, he⟩ | ⟨hf, h3r, he⟩
  · obtain ⟨rr, rfl⟩ : ∃ k, r = k + 1 := ⟨r - 1, by omega⟩
    obtain ⟨bs, T, S, hwf, hlen, hT1, hT2, hS1, hS2, hcf, hlt, hstop, hhead⟩ :=
      repsShape q.length q le_rfl rr cf lt hr
    obtain ⟨hu1, hu4, hnw⟩ := finalOkAt_true _ hf
    have hu_le : upRunL (q.drop cf) ≤ (q.drop cf).length := upRun_le_length _
    have hFne : (q.drop cf).take (upRunL (q.drop cf)) ≠ [] := by
      intro hcon
      have hlc := congrArg List.length hcon
      rw [List.length_take] at hlc
      simp only [List.length_nil] at hlc
      omega
    refine ⟨bs ++ [(T, S)], (q.drop cf).take (upRunL (q.drop cf)), ?_, hFne,
      upRun_take_upper _, ?_, ?_⟩
    · intro p hp
      rcases List.mem_append.mp hp with hp2 | hp2
      · exact hwf p hp2
      · simp only [List.mem_singleton] at hp2
        subst hp2
        exact ⟨hT1, hT2, hS1, hS2⟩
    · rw [he, List.take_add, hcf, blocksFlat_final_append,
        blocksFlat_append_pair]
    · left
      rw [he, ← List.drop_drop]
      intro c hc
      refine ⟨hnw c hc, ?_⟩
      have hw0 : wsRunL ((q.drop cf).drop (upRunL (q.drop cf))) = 0 :=
        reps_stop_inv _ hstop ⟨hu1, hu4⟩
      exact wsRun_zero _ hw0 c hc
  · obtain ⟨rr, rfl⟩ : ∃ k, r = k + 1 := ⟨r - 1, by omega⟩
    obtain ⟨bs, T, S, hwf, hlen, hT1, hT2, hS1, hS2, hcf, hlt, hstop, hhead⟩ :=
      repsShape q.length q le_rfl rr cf lt hr
    refine ⟨bs, T, hwf, hT1, hT2, by rw [he]; exact hlt, ?_⟩
    right
    have hsplit : q.drop lt = S ++ q.drop cf := by
      have h1 : q.take cf = q.take lt ++ S := by
        rw [hcf, hlt, blocksFlat_final_append]
      have h2 : q.take lt ++ q.drop lt = q.take lt ++ (S ++ q.drop cf) := by
        rw [List.take_append_drop]
        conv_lhs => rw [← List.take_append_drop cf q]
        rw [h1, List.append_assoc]
      exact List.append_cancel_left h2
    exact ⟨S, q.drop cf, by rw [he]; exact hsplit, hS1, hS2, hstop, hf, hhead⟩

/-- Removing the ASCII spaces from a block region yields another block
region whose separators are space-free. -/
theorem filter_blocks : ∀ (bs : List (List Char × List Char))
    (F : List Char), (∀ p ∈ bs, WFpair p) → F ≠ [] →
    (∀ c ∈ F, isUp c = true) →
    ∃ bs2 F2, (∀ p ∈ bs2, WFpairF p) ∧ F2 ≠ [] ∧
      (∀ c ∈ F2, isUp c = true) ∧
      (blocksFlat bs F).filter (fun x => x ≠ ' ') = blocksFlat bs2 F2 := by
  intro bs
  induction bs with
  | nil =>
    intro F hwf hF1 hFup
    refine ⟨[], F, by simp, hF1, hFup, ?_⟩
    exact filter_no_space F (up_no_space F hFup)
  | cons p bs ih =>
    intro F hwf hF1 hFup
    obtain ⟨U, V⟩ := p
    obtain ⟨hU1, hUup, hV1, hVws⟩ := hwf (U, V) (by simp)
    obtain ⟨bs2, F2, hwf2, hF2ne, hF2up, hfe⟩ :=
      ih F (fun pp hpp => hwf pp (List.mem_cons_of_mem _ hpp)) hF1 hFup
    rw [blocksFlat_cons, List.filter_append, List.filter_append,
      filter_no_space U (up_no_space U hUup), hfe]
    by_cases hVf : V.filter (fun x => x ≠ ' ') = []
    · rw [hVf, List.append_nil]
      cases bs2 with
      | nil =>
        refine ⟨[], U ++ F2, by simp, ?_, ?_, rfl⟩
        · intro hcon
          exact hU1 (List.append_eq_nil.mp hcon).1
        · intro c hc
          rcases List.mem_append.mp hc with h | h
          · exact hUup c h
          · exact hF2up c h
      | cons p2 bs3 =>
        obtain ⟨U2, W2⟩ := p2
        obtain ⟨h21, h2up, h2w1, h2ws, h2ns⟩ := hwf2 (U2, W2) (by simp)
        refine ⟨(U ++ U2, W2) :: bs3, F2, ?_, hF2ne, hF2up, ?_⟩
        · intro pp hpp
          rcases List.mem_cons.mp hpp with rfl | hpp2
          · refine ⟨fun h => hU1 (List.append_eq_nil.mp h).1, ?_, h2w1,
              h2ws, h2ns⟩
            intro c hc
            rcases List.mem_append.mp hc with h | h
            · exact hUup c h
            · exact h2up c h
          · exact hwf2 pp (List.mem_cons_of_mem _ hpp2)
        · rw [blocksFlat_cons, blocksFlat_cons]
          simp [List.append_assoc]
    · refine ⟨(U, V.filter (fun x => x ≠ ' ')) :: bs2, F2, ?_, hF2ne,
        hF2up, ?_⟩
      · intro pp hpp
        rcases List.mem_cons.mp hpp with rfl | hpp2
        · refine ⟨hU1, hUup, hVf, ?_, ?_⟩
          · intro c hc
            exact hVws c (List.mem_of_mem_filter hc)
          · intro c hc
            simpa using List.of_mem_filter hc
        · exact hwf2 pp hpp2
      · rw [blocksFlat_cons]

/-- A suffix on which the scan stops immediately, whose final-token test
fails and whose head is not whitespace keeps these three properties
after one substitution pass. -/
theorem fail0_preserve (y : List Char) (h0 : repsScanU y = (0, 0, 0))
    (hf : finalOkAt y = false)
    (hh : ∀ c, y.head? = some c → pyWs c = false) :
    repsScanU (scanU false y) = (0, 0, 0) ∧
    finalOkAt (scanU false y) = false ∧
    (∀ c, (scanU false y).head? = some c → pyWs c = false) := by
  have hm : matchAtU false y = none := matchAtU_r0_none false y 0 0 h0
  by_cases hu0 : upRunL y = 0
  · cases y with
    | nil => exact ⟨rfl, rfl, fun c hc => Option.noConfusion hc⟩
    | cons d t =>
      have hd : isUp d = false := by
        cases hdu : isUp d with
        | false => rfl
        | true => rw [upRun_head_up d t hdu] at hu0; omega
      rw [scanU_step_none false d t hm]
      have hu02 : upRunL (d :: scanU (isWordCh d) t) = 0 := upRun_head_not _ _ hd
      refine ⟨repsScanU_stop _ (Or.inl (by rw [hu02]; omega)), ?_, ?_⟩
      · rw [finalOkAt, hu02]
        simp
      · intro c hc
        simp only [List.head?_cons, Option.some.injEq] at hc
        rw [← hc]
        exact hh d rfl
  · have hu1 : 1 ≤ upRunL y := by omega
    have hl : (y.take (upRunL y)).length = upRunL y := by
      rw [List.length_take]
      exact min_eq_left (upRun_le_length y)
    have hTne : y.take (upRunL y) ≠ [] := by
      intro hcon
      have hlc := congrArg List.length hcon
      rw [hl] at hlc
      simp at hlc
      omega
    have hsplit : y = y.take (upRunL y) ++ y.drop (upRunL y) :=
      (List.take_append_drop _ _).symm
    have hcopy : scanU false y =
        y.take (upRunL y) ++ scanU true (y.drop (upRunL y)) := by
      conv_lhs => rw [hsplit]
      exact token_copy _ _ false hTne
        (fun c hc => up_word c (upRun_take_upper y c hc))
        (by rw [← hsplit]; exact hm)
    by_cases hu4 : upRunL y ≤ 4
    · cases hyd : y.drop (upRunL y) with
      | nil =>
        exfalso
        rw [finalOkAt, hyd] at hf
        rw [decide_eq_true ⟨hu1, hu4⟩] at hf
        simp at hf
      | cons d t2 =>
        have hdword : isWordCh d = true := by
          cases hdw : isWordCh d with
          | true => rfl
          | false =>
            exfalso
            rw [finalOkAt, hyd] at hf
            rw [decide_eq_true ⟨hu1, hu4⟩] at hf
            simp [hdw] at hf
        have hdnu : isUp d = false := upRun_stop y d (by rw [hyd]; rfl)
        have hdnw : pyWs d = false := word_not_ws d hdword
        rw [hcopy, hyd, scanU_true_cons]
        have huo : upRunL (y.take (upRunL y) ++
            d :: scanU (isWordCh d) t2) = upRunL y := by
          have h2 := upRunL_append_exact (y.take (upRunL y))
            (d :: scanU (isWordCh d) t2) (upRun_take_upper y)
            (by intro c hc
                simp only [List.head?_cons, Option.some.injEq] at hc
                rw [← hc]
                exact hdnu)
          rw [hl] at h2
          exact h2
        refine ⟨?_, ?_, ?_⟩
        · refine repsScanU_stop _ (Or.inr ?_)
          rw [huo, drop_left_len _ _ _ hl]
          exact wsRun_head_not _ _ hdnw
        · rw [finalOkAt, huo, drop_left_len _ _ _ hl]
          simp [hdword]
        · intro c hc
          rw [head?_append_ne_nil _ _ hTne] at hc
          exact up_not_ws c (head?_prop_of_all _ (upRun_take_upper y) c hc)
    · rw [hcopy]
      have huo : 5 ≤ upRunL (y.take (upRunL y) ++
          scanU true (y.drop (upRunL y))) := by
        have h2 := upRun_ge_prefix (y.take (upRunL y))
          (scanU true (y.drop (upRunL y))) (upRun_take_upper y)
        rw [hl] at h2
        omega
      have hnot : ¬(1 ≤ upRunL (y.take (upRunL y) ++
          scanU true (y.drop (upRunL y))) ∧
          upRunL (y.take (upRunL y) ++
            scanU true (y.drop (upRunL y))) ≤ 4) := by omega
      refine ⟨repsScanU_stop _ (Or.inl hnot), ?_, ?_⟩
      · rw [finalOkAt, decide_eq_false hnot]
        simp
      · intro c hc
        rw [head?_append_ne_nil _ _ hTne] at hc
        exact up_not_ws c (head?_prop_of_all _ (upRun_take_upper y) c hc)


/-! ## Scanning a space-free block region -/

theorem take_append_len (a x : List Char) (k : Nat) :
    (a ++ x).take (a.length + k) = a ++ x.take k := by
  rw [List.take_add, List.take_left, List.drop_left]

theorem drop_append_len (a x : List Char) (k : Nat) :
    (a ++ x).drop (a.length + k) = x.drop k := by
  rw [← List.drop_drop, List.drop_left]

theorem scanU_some (x : List Char) (e : Nat)
    (hm : matchAtU false x = some e) :
    scanU false x = (x.take e).filter (fun c => c ≠ ' ') ++
      scanU true (x.drop e) := by
  obtain ⟨he1, he2⟩ := matchAtU_le false x e hm
  cases x with
  | nil =>
    simp only [List.length_nil] at he2
    omega
  | cons c t => exact scanU_step_some false c t e hm he1

theorem scanU_match_region (pre ctx : List Char)
    (hns : ∀ c ∈ pre, c ≠ ' ')
    (hm : matchAtU false (pre ++ ctx) = some pre.length) :
    scanU false (pre ++ ctx) = pre ++ scanU true ctx := by
  rw [scanU_some _ _ hm, List.take_left, List.drop_left,
    filter_no_space pre hns]

theorem compose_step (U V R : List Char)
    (hUns : ∀ c ∈ U, c ≠ ' ') (hVns : ∀ c ∈ V, c ≠ ' ')
    (e1 : Nat)
    (hBm : matchAtU false (U ++ (V ++ R)) =
      some (U.length + V.length + e1))
    (hRm : matchAtU false R = some e1) :
    scanU false (U ++ (V ++ R)) = U ++ (V ++ scanU false R) := by
  rw [scanU_some _ _ hBm, scanU_some _ _ hRm]
  rw [show U.length + V.length + e1 = U.length + (V.length + e1) by omega]
  rw [take_append_len, take_append_len, drop_append_len, drop_append_len]
  rw [List.filter_append, List.filter_append, filter_no_space U hUns,
    filter_no_space V hVns]
  simp [List.append_assoc]

theorem blocks_head_up (bs : List (List Char × List Char)) (F ctx : List Char)
    (hwf : ∀ p ∈ bs, WFpairF p) (hF1 : F ≠ [])
    (hFup : ∀ c ∈ F, isUp c = true) :
    ∀ c, (blocksFlat bs F ++ ctx).head? = some c → isUp c = true := by
  intro c hc
  cases bs with
  | nil =>
    rw [blocksFlat_nil, head?_append_ne_nil F ctx hF1] at hc
    exact head?_prop_of_all F hFup c hc
  | cons p bs2 =>
    obtain ⟨U, V⟩ := p
    obtain ⟨hU1, hUup, _, _, _⟩ := hwf (U, V) (by simp)
    have hUV : U ++ V ≠ [] := fun h => hU1 (List.append_eq_nil.mp h).1
    have hUVB : (U ++ V) ++ blocksFlat bs2 F ≠ [] :=
      fun h => hUV (List.append_eq_nil.mp h).1
    rw [blocksFlat_cons] at hc
    rw [head?_append_ne_nil _ ctx hUVB, head?_append_ne_nil _ _ hUV,
      head?_append_ne_nil U V hU1] at hc
    exact head?_prop_of_all U hUup c hc

theorem region_nil (F ctx : List Char) (hF1 : F ≠ [])
    (hFup : ∀ c ∈ F, isUp c = true) (hctx : CtxOK ctx) :
    scanU false (F ++ ctx) = F ++ scanU true ctx := by
  refine token_copy F ctx false hF1
    (fun c hc => up_word c (hFup c hc)) ?_
  rcases hctx with hCA | ⟨S, y, rfl, hS1, hSws, hy0, hyf, hyh⟩
  · exact matchAtU_r0_none false _ 0 0
      (region_reps_nil_CA F ctx hF1 hFup hCA)
  · by_cases h4 : F.length ≤ 4
    · exact matchAtU_none_of _ 1 _ _
        (pair_reps0 F S y hF1 h4 hFup hS1 hSws hyh 0 0 hy0)
        (by omega) (fun _ => by omega)
    · exact matchAtU_r0_none false _ 0 0
        (region_reps_nil_CB_long F S y hFup (by omega) hS1 hSws)

/-- One substitution pass copies a space-free block region verbatim and
resumes on the context with the word flag set. -/
theorem region : ∀ (n : Nat) (bs : List (List Char × List Char))
    (F ctx : List Char), bs.length ≤ n →
    (∀ p ∈ bs, WFpairF p) → F ≠ [] → (∀ c ∈ F, isUp c = true) →
    CtxOK ctx →
    scanU false (blocksFlat bs F ++ ctx) =
      blocksFlat bs F ++ scanU true ctx := by
  intro n
  induction n with
  | zero =>
    intro bs F ctx hlen hwf hF1 hFup hctx
    have hb : bs = [] := List.eq_nil_of_length_eq_zero (Nat.le_zero.mp hlen)
    subst hb
    rw [blocksFlat_nil]
    exact region_nil F ctx hF1 hFup hctx
  | succ m ih =>
    intro bs F ctx hlen hwf hF1 hFup hctx
    cases bs with
    | nil =>
      rw [blocksFlat_nil]
      exact region_nil F ctx hF1 hFup hctx
    | cons p bs2 =>
      obtain ⟨U, V⟩ := p
      obtain ⟨hU1, hUup, hV1, hVws, hVns⟩ := hwf (U, V) (by simp)
      have hwf2 : ∀ pp ∈ bs2, WFpairF pp :=
        fun pp hpp => hwf pp (List.mem_cons_of_mem _ hpp)
      have hlen2 : bs2.length ≤ m := by
        simp only [List.length_cons] at hlen
        omega
      have hUword : ∀ c ∈ U, isWordCh c = true :=
        fun c hc => up_word c (hUup c hc)
      have hUns : ∀ c ∈ U, c ≠ ' ' := up_no_space U hUup
      have hRhead_up : ∀ c, (blocksFlat bs2 F ++ ctx).head? = some c →
          isUp c = true := blocks_head_up bs2 F ctx hwf2 hF1 hFup
      have hRhead_ws : ∀ c, (blocksFlat bs2 F ++ ctx).head? = some c →
          pyWs c = false := fun c hc => up_not_ws c (hRhead_up c hc)
      have hflat : blocksFlat ((U, V) :: bs2) F ++ ctx =
          U ++ (V ++ (blocksFlat bs2 F ++ ctx)) := by
        rw [blocksFlat_cons]
        simp [List.append_assoc]
      have hflat2 : blocksFlat ((U, V) :: bs2) F ++ scanU true ctx =
          U ++ (V ++ (blocksFlat bs2 F ++ scanU true ctx)) := by
        rw [blocksFlat_cons]
        simp [List.append_assoc]
      rw [hflat, hflat2]
      by_cases h4 : U.length ≤ 4
      case neg =>
        have hu := (pair_run_data U V (blocksFlat bs2 F ++ ctx)
          hU1 hUup hV1 hVws hRhead_ws).1
        have hm : matchAtU false (U ++ (V ++ (blocksFlat bs2 F ++ ctx))) =
            none := matchAtU_r0_none false _ 0 0
          (repsScanU_stop _ (Or.inl (by rw [hu]; omega)))
        rw [token_copy U _ false hU1 hUword hm, ws_copy V hVws hV1 true _,
          ih bs2 F ctx hlen2 hwf2 hF1 hFup hctx]
      case pos =>
        rcases hR : repsScanU (blocksFlat bs2 F ++ ctx) with ⟨r1, cf1, lt1⟩
        cases r1 with
        | zero =>
          have hreps := pair_reps0 U V _ hU1 h4 hUup hV1 hVws hRhead_ws
            cf1 lt1 hR
          have hm : matchAtU false (U ++ (V ++ (blocksFlat bs2 F ++ ctx))) =
              none := matchAtU_none_of _ 1 _ _ hreps (by omega)
            (fun _ => by omega)
          rw [token_copy U _ false hU1 hUword hm, ws_copy V hVws hV1 true _,
            ih bs2 F ctx hlen2 hwf2 hF1 hFup hctx]
        | succ r2 =>
          have hreps := pair_repsS U V _ hU1 h4 hUup hV1 hVws hRhead_ws
            r2 cf1 lt1 hR
          have hsfx : (U ++ (V ++ (blocksFlat bs2 F ++ ctx))).drop
              (U.length + V.length + cf1) =
              (blocksFlat bs2 F ++ ctx).drop cf1 := by
            rw [show U.length + V.length + cf1 =
              U.length + (V.length + cf1) by omega,
              drop_append_len, drop_append_len]
          cases hfo : finalOkAt ((blocksFlat bs2 F ++ ctx).drop cf1) with
          | true =>
            cases r2 with
            | succ r3 =>
              have hRm : matchAtU false (blocksFlat bs2 F ++ ctx) =
                  some (cf1 + upRunL ((blocksFlat bs2 F ++ ctx).drop cf1)) :=
                matchAtU_full _ _ _ _ hR hfo (by omega)
              have hBm0 := matchAtU_full _ _ _ _ hreps
                (by rw [hsfx]; exact hfo) (by omega)
              rw [hsfx] at hBm0
              rw [show U.length + V.length + cf1 +
                  upRunL ((blocksFlat bs2 F ++ ctx).drop cf1) =
                  U.length + V.length +
                  (cf1 + upRunL ((blocksFlat bs2 F ++ ctx).drop cf1))
                  by omega] at hBm0
              rw [compose_step U V _ hUns hVns _ hBm0 hRm,
                ih bs2 F ctx hlen2 hwf2 hF1 hFup hctx]
            | zero =>
              -- direct full match: the region has exactly two pairs and a
              -- short final token before a word-free context
              cases bs2 with
              | nil =>
                exfalso
                rw [blocksFlat_nil] at hR hfo
                rcases hctx with hCA | ⟨S, y, rfl, hS1, hSws, hy0, hyf, hyh⟩
                · rw [region_reps_nil_CA F ctx hF1 hFup hCA] at hR
                  injection hR with h1 _
                  omega
                · by_cases hF4 : F.length ≤ 4
                  · have hcb := pair_reps0 F S y hF1 hF4 hFup hS1 hSws hyh
                      0 0 hy0
                    rw [hcb] at hR
                    injection hR with h1 h2
                    injection h2 with h2 h3
                    rw [← h2, drop_append_len, List.drop_left, hyf] at hfo
                    exact Bool.false_ne_true hfo
                  · rw [region_reps_nil_CB_long F S y hFup (by omega)
                      hS1 hSws] at hR
                    injection hR with h1 _
                    omega
              | cons p2 bs3 =>
                obtain ⟨U2, V2⟩ := p2
                obtain ⟨h21, h2up, h2v1, h2ws, h2ns⟩ := hwf2 (U2, V2) (by simp)
                have hwf3 : ∀ pp ∈ bs3, WFpairF pp :=
                  fun pp hpp => hwf2 pp (List.mem_cons_of_mem _ hpp)
                have hR3head_up : ∀ c, (blocksFlat bs3 F ++ ctx).head? =
                    some c → isUp c = true :=
                  blocks_head_up bs3 F ctx hwf3 hF1 hFup
                have hR3head_ws : ∀ c, (blocksFlat bs3 F ++ ctx).head? =
                    some c → pyWs c = false :=
                  fun c hc => up_not_ws c (hR3head_up c hc)
                have hRform : blocksFlat ((U2, V2) :: bs3) F ++ ctx =
                    U2 ++ (V2 ++ (blocksFlat bs3 F ++ ctx)) := by
                  rw [blocksFlat_cons]
                  simp [List.append_assoc]
                by_cases h24 : U2.length ≤ 4
                case neg =>
                  exfalso
                  have hu2 := (pair_run_data U2 V2 (blocksFlat bs3 F ++ ctx)
                    h21 h2up h2v1 h2ws hR3head_ws).1
                  have h0 : repsScanU (U2 ++ (V2 ++ (blocksFlat bs3 F ++
                      ctx))) = (0, 0, 0) :=
                    repsScanU_stop _ (Or.inl (by rw [hu2]; omega))
                  rw [hRform, h0] at hR
                  injection hR with h1 _
                  omega
                case pos =>
                  rcases hR3 : repsScanU (blocksFlat bs3 F ++ ctx) with
                    ⟨r3, cf3, lt3⟩
                  cases r3 with
                  | succ r4 =>
                    exfalso
                    have hps := pair_repsS U2 V2 _ h21 h24 h2up h2v1 h2ws
                      hR3head_ws r4 cf3 lt3 hR3
                    rw [hRform, hps] at hR
                    injection hR with h1 _
                    omega
                  | zero =>
                    have hr30 : repsScanU (blocksFlat bs3 F ++ ctx) =
                        (0, 0, 0) := repsScanU_r0 _ _ _ hR3
                    have hpr := pair_reps0 U2 V2 _ h21 h24 h2up h2v1 h2ws
                      hR3head_ws 0 0 hr30
                    rw [hRform, hpr] at hR
                    injection hR with h1 h2
                    injection h2 with h2 h3
                    have hfo3 : finalOkAt (blocksFlat bs3 F ++ ctx) = true := by
                      rw [hRform, ← h2, drop_append_len, List.drop_left] at hfo
                      exact hfo
                    cases bs3 with
                    | cons p3 bs4 =>
                      exfalso
                      obtain ⟨U3, V3⟩ := p3
                      obtain ⟨h31, h3up, h3v1, h3ws, h3ns⟩ :=
                        hwf3 (U3, V3) (by simp)
                      have hR4head_ws : ∀ c, (blocksFlat bs4 F ++ ctx).head? =
                          some c → pyWs c = false :=
                        fun c hc => up_not_ws c (blocks_head_up bs4 F ctx
                          (fun pp hpp => hwf3 pp (List.mem_cons_of_mem _ hpp))
                          hF1 hFup c hc)
                      have hform3 : blocksFlat ((U3, V3) :: bs4) F ++ ctx =
                          U3 ++ (V3 ++ (blocksFlat bs4 F ++ ctx)) := by
                        rw [blocksFlat_cons]
                        simp [List.append_assoc]
                      by_cases h34 : U3.length ≤ 4
                      · rcases hR4 : repsScanU (blocksFlat bs4 F ++ ctx) with
                          ⟨r5, p5⟩
                        rcases p5 with ⟨cf5, lt5⟩
                        cases r5 with
                        | zero =>
                          have hps := pair_reps0 U3 V3 _ h31 h34 h3up h3v1
                            h3ws hR4head_ws cf5 lt5 hR4
                          rw [hform3, hps] at hr30
                          injection hr30 with hh _
                          omega
                        | succ r6 =>
                          have hps := pair_repsS U3 V3 _ h31 h34 h3up h3v1
                            h3ws hR4head_ws r6 cf5 lt5 hR4
                          rw [hform3, hps] at hr30
                          injection hr30 with hh _
                          omega
                      · have hu3 := (pair_run_data U3 V3
                          (blocksFlat bs4 F ++ ctx) h31 h3up h3v1 h3ws
                          hR4head_ws).1
                        have hnot : ¬(1 ≤ upRunL (U3 ++ (V3 ++
                            (blocksFlat bs4 F ++ ctx))) ∧
                            upRunL (U3 ++ (V3 ++ (blocksFlat bs4 F ++
                              ctx))) ≤ 4) := by
                          rw [hu3]
                          omega
                        rw [hform3, finalOkAt, decide_eq_false hnot] at hfo3
                        simp at hfo3
                    | nil =>
                      rw [blocksFlat_nil] at hr30 hfo3
                      rcases hctx with hCA | ⟨S, y, rfl, hS1, hSws, hy0,
                        hyf, hyh⟩
                      ·
                        have huF : upRunL (F ++ ctx) = F.length :=
                          upRunL_append_exact F ctx hFup
                            (fun c hc => not_word_not_up c (hCA c hc).1)
                        have hBm := matchAtU_full _ _ _ _ hreps
                          (by rw [hsfx]; exact hfo) (by omega)
                        rw [hsfx] at hBm
                        have hdrop_cf1 : (blocksFlat ((U2, V2) :: ([] :
                            List (List Char × List Char))) F ++ ctx).drop
                            cf1 = F ++ ctx := by
                          rw [hRform, ← h2, drop_append_len, List.drop_left,
                            blocksFlat_nil]
                        rw [hdrop_cf1, huF] at hBm
                        have hBeq : U ++ (V ++ (blocksFlat ((U2, V2) :: ([] :
                            List (List Char × List Char))) F ++ ctx)) =
                            (U ++ (V ++ (U2 ++ (V2 ++ F)))) ++ ctx := by
                          rw [blocksFlat_cons, blocksFlat_nil]
                          simp [List.append_assoc]
                        rw [hBeq] at hBm ⊢
                        have hel : U.length + V.length + cf1 + F.length =
                            (U ++ (V ++ (U2 ++ (V2 ++ F)))).length := by
                          simp only [List.length_append]
                          omega
                        rw [hel] at hBm
                        have hns : ∀ c ∈ U ++ (V ++ (U2 ++ (V2 ++ F))),
                            c ≠ ' ' := by
                          intro c hc
                          simp only [List.mem_append] at hc
                          rcases hc with h | h | h | h | h
                          · exact hUns c h
                          · exact hVns c h
                          · exact up_ne_space c (h2up c h)
                          · exact h2ns c h
                          · exact up_ne_space c (hFup c h)
                        rw [scanU_match_region _ ctx hns hBm,
                          blocksFlat_cons, blocksFlat_nil]
                        simp [List.append_assoc]
                      ·
                        exfalso
                        by_cases hF4 : F.length ≤ 4
                        · have hcb := pair_reps0 F S y hF1 hF4 hFup hS1 hSws
                            hyh 0 0 hy0
                          rw [hcb] at hr30
                          injection hr30 with hh _
                          omega
                        · have huF : upRunL (F ++ (S ++ y)) = F.length := by
                            refine upRunL_append_exact F (S ++ y) hFup ?_
                            intro c hc
                            rw [head?_append_ne_nil S y hS1] at hc
                            exact ws_not_up c (head?_prop_of_all S hSws c hc)
                          have hnot : ¬(1 ≤ upRunL (F ++ (S ++ y)) ∧
                              upRunL (F ++ (S ++ y)) ≤ 4) := by
                            rw [huF]
                            omega
                          rw [finalOkAt, decide_eq_false hnot] at hfo3
                          simp at hfo3
          | false =>
            cases r2 with
            | zero =>
              have hm : matchAtU false (U ++ (V ++ (blocksFlat bs2 F ++
                  ctx))) = none := by
                refine matchAtU_none_of _ 2 _ _ hreps (by omega) ?_
                intro hfB
                rw [hsfx, hfo] at hfB
                exact absurd hfB Bool.false_ne_true
              rw [token_copy U _ false hU1 hUword hm,
                ws_copy V hVws hV1 true _,
                ih bs2 F ctx hlen2 hwf2 hF1 hFup hctx]
            | succ r3 =>
              cases r3 with
              | succ r4 =>
                have hRm : matchAtU false (blocksFlat bs2 F ++ ctx) =
                    some lt1 := matchAtU_back _ _ _ _ hR hfo (by omega)
                have hBm0 := matchAtU_back _ _ _ _ hreps
                  (by rw [hsfx]; exact hfo) (by omega)
                rw [compose_step U V _ hUns hVns lt1 hBm0 hRm,
                  ih bs2 F ctx hlen2 hwf2 hF1 hFup hctx]
              | zero =>
                -- direct backtrack match at the third token boundary
                have hBm := matchAtU_back _ _ _ _ hreps
                  (by rw [hsfx]; exact hfo) (by omega)
                cases bs2 with
                | nil =>
                  exfalso
                  rw [blocksFlat_nil] at hR
                  rcases hctx with hCA | ⟨S, y, rfl, hS1, hSws, hy0,
                    hyf, hyh⟩
                  · rw [region_reps_nil_CA F ctx hF1 hFup hCA] at hR
                    injection hR with h1 _
                    omega
                  · by_cases hF4 : F.length ≤ 4
                    · rw [pair_reps0 F S y hF1 hF4 hFup hS1 hSws hyh
                        0 0 hy0] at hR
                      injection hR with h1 _
                      omega
                    · rw [region_reps_nil_CB_long F S y hFup (by omega)
                        hS1 hSws] at hR
                      injection hR with h1 _
                      omega
                | cons p2 bs3 =>
                  obtain ⟨U2, V2⟩ := p2
                  obtain ⟨h21, h2up, h2v1, h2ws, h2ns⟩ :=
                    hwf2 (U2, V2) (by simp)
                  have hwf3 : ∀ pp ∈ bs3, WFpairF pp :=
                    fun pp hpp => hwf2 pp (List.mem_cons_of_mem _ hpp)
                  have hR3head_up : ∀ c, (blocksFlat bs3 F ++ ctx).head? =
                      some c → isUp c = true :=
                    blocks_head_up bs3 F ctx hwf3 hF1 hFup
                  have hR3head_ws : ∀ c, (blocksFlat bs3 F ++ ctx).head? =
                      some c → pyWs c = false :=
                    fun c hc => up_not_ws c (hR3head_up c hc)
                  have hRform : blocksFlat ((U2, V2) :: bs3) F ++ ctx =
                      U2 ++ (V2 ++ (blocksFlat bs3 F ++ ctx)) := by
                    rw [blocksFlat_cons]
                    simp [List.append_assoc]
                  by_cases h24 : U2.length ≤ 4
                  case neg =>
                    exfalso
                    have hu2 := (pair_run_data U2 V2
                      (blocksFlat bs3 F ++ ctx) h21 h2up h2v1 h2ws
                      hR3head_ws).1
                    have h0 : repsScanU (U2 ++ (V2 ++ (blocksFlat bs3 F ++
                        ctx))) = (0, 0, 0) :=
                      repsScanU_stop _ (Or.inl (by rw [hu2]; omega))
                    rw [hRform, h0] at hR
                    injection hR with h1 _
                    omega
                  case pos =>
                    rcases hR3 : repsScanU (blocksFlat bs3 F ++ ctx) with
                      ⟨r3, cf3, lt3⟩
                    cases r3 with
                    | zero =>
                      exfalso
                      have hpr := pair_reps0 U2 V2 _ h21 h24 h2up h2v1 h2ws
                        hR3head_ws cf3 lt3 hR3
                      rw [hRform, hpr] at hR
                      injection hR with h1 _
                      omega
                    | succ r4 =>
                      cases r4 with
                      | succ r5 =>
                        exfalso
                        have hps := pair_repsS U2 V2 _ h21 h24 h2up h2v1
                          h2ws hR3head_ws (r5 + 1) cf3 lt3 hR3
                        rw [hRform, hps] at hR
                        injection hR with h1 _
                        omega
                      | zero =>
                        have hps := pair_repsS U2 V2 _ h21 h24 h2up h2v1
                          h2ws hR3head_ws 0 cf3 lt3 hR3
                        rw [hRform, hps] at hR
                        injection hR with h1 h2
                        injection h2 with h2 h3
                        cases bs3 with
                        | nil =>
                          rw [blocksFlat_nil] at hR3
                          rcases hctx with hCA | ⟨S, y, rfl, hS1, hSws,
                            hy0, hyf, hyh⟩
                          · exfalso
                            rw [region_reps_nil_CA F ctx hF1 hFup hCA] at hR3
                            injection hR3 with hh _
                            omega
                          ·
                            by_cases hF4 : F.length ≤ 4
                            case neg =>
                              exfalso
                              rw [region_reps_nil_CB_long F S y hFup
                                (by omega) hS1 hSws] at hR3
                              injection hR3 with hh _
                              omega
                            case pos =>
                              have hcb := pair_reps0 F S y hF1 hF4 hFup hS1
                                hSws hyh 0 0 hy0
                              rw [hcb] at hR3
                              injection hR3 with hh h5
                              injection h5 with h5 h6
                              have hBeq : U ++ (V ++ (blocksFlat ((U2, V2) ::
                                  ([] : List (List Char × List Char))) F ++
                                  (S ++ y))) =
                                  (U ++ (V ++ (U2 ++ (V2 ++ F)))) ++
                                    (S ++ y) := by
                                rw [blocksFlat_cons, blocksFlat_nil]
                                simp [List.append_assoc]
                              rw [hBeq] at hBm ⊢
                              have hel : U.length + V.length + lt1 =
                                  (U ++ (V ++ (U2 ++ (V2 ++ F)))).length := by
                                simp only [List.length_append]
                                omega
                              rw [hel] at hBm
                              have hns : ∀ c ∈ U ++ (V ++ (U2 ++ (V2 ++ F))),
                                  c ≠ ' ' := by
                                intro c hc
                                simp only [List.mem_append] at hc
                                rcases hc with h | h | h | h | h
                                · exact hUns c h
                                · exact hVns c h
                                · exact up_ne_space c (h2up c h)
                                · exact h2ns c h
                                · exact up_ne_space c (hFup c h)
                              rw [scanU_match_region _ (S ++ y) hns hBm,
                                blocksFlat_cons, blocksFlat_nil]
                              simp [List.append_assoc]
                        | cons p3 bs4 =>
                          obtain ⟨U3, V3⟩ := p3
                          obtain ⟨h31, h3up, h3v1, h3ws, h3ns⟩ :=
                            hwf3 (U3, V3) (by simp)
                          have hwf4 : ∀ pp ∈ bs4, WFpairF pp :=
                            fun pp hpp => hwf3 pp (List.mem_cons_of_mem _ hpp)
                          have hR4head_up : ∀ c, (blocksFlat bs4 F ++
                              ctx).head? = some c → isUp c = true :=
                            blocks_head_up bs4 F ctx hwf4 hF1 hFup
                          have hR4head_ws : ∀ c, (blocksFlat bs4 F ++
                              ctx).head? = some c → pyWs c = false :=
                            fun c hc => up_not_ws c (hR4head_up c hc)
                          have hform3 : blocksFlat ((U3, V3) :: bs4) F ++
                              ctx = U3 ++ (V3 ++ (blocksFlat bs4 F ++
                              ctx)) := by
                            rw [blocksFlat_cons]
                            simp [List.append_assoc]
                          by_cases h34 : U3.length ≤ 4
                          case neg =>
                            exfalso
                            have hu3 := (pair_run_data U3 V3
                              (blocksFlat bs4 F ++ ctx) h31 h3up h3v1 h3ws
                              hR4head_ws).1
                            have h0 : repsScanU (U3 ++ (V3 ++
                                (blocksFlat bs4 F ++ ctx))) = (0, 0, 0) :=
                              repsScanU_stop _ (Or.inl (by rw [hu3]; omega))
                            rw [hform3, h0] at hR3
                            injection hR3 with hh _
                            omega
                          case pos =>
                            rcases hR4 : repsScanU (blocksFlat bs4 F ++ ctx)
                              with ⟨r5, cf5, lt5⟩
                            cases r5 with
                            | succ r6 =>
                              exfalso
                              have hps3 := pair_repsS U3 V3 _ h31 h34 h3up
                                h3v1 h3ws hR4head_ws r6 cf5 lt5 hR4
                              rw [hform3, hps3] at hR3
                              injection hR3 with hh _
                              omega
                            | zero =>
                              have hps3 := pair_reps0 U3 V3 _ h31 h34 h3up
                                h3v1 h3ws hR4head_ws cf5 lt5 hR4
                              rw [hform3, hps3] at hR3
                              injection hR3 with hh h5
                              injection h5 with h5 h6
                              have hlen4 : bs4.length ≤ m := by
                                simp only [List.length_cons] at hlen
                                omega
                              have hBeq : U ++ (V ++ (blocksFlat ((U2, V2) ::
                                  (U3, V3) :: bs4) F ++ ctx)) =
                                  (U ++ (V ++ (U2 ++ (V2 ++ U3)))) ++
                                    (V3 ++ (blocksFlat bs4 F ++ ctx)) := by
                                rw [blocksFlat_cons, blocksFlat_cons]
                                simp [List.append_assoc]
                              rw [hBeq] at hBm ⊢
                              have hel : U.length + V.length + lt1 =
                                  (U ++ (V ++ (U2 ++ (V2 ++ U3)))).length := by
                                simp only [List.length_append]
                                omega
                              rw [hel] at hBm
                              have hns : ∀ c ∈ U ++ (V ++ (U2 ++ (V2 ++ U3))),
                                  c ≠ ' ' := by
                                intro c hc
                                simp only [List.mem_append] at hc
                                rcases hc with h | h | h | h | h
                                · exact hUns c h
                                · exact hVns c h
                                · exact up_ne_space c (h2up c h)
                                · exact h2ns c h
                                · exact up_ne_space c (h3up c h)
                              rw [scanU_match_region _ _ hns hBm,
                                ws_copy V3 h3ws h3v1 true _,
                                ih bs4 F ctx hlen4 hwf4 hF1 hFup hctx,
                                blocksFlat_cons, blocksFlat_cons]
                              simp [List.append_assoc]


/-! ## Idempotence of the substitution scan -/

theorem scanU_idem : ∀ (n : Nat) (l : List Char), l.length ≤ n →
    ∀ pw, scanU pw (scanU pw l) = scanU pw l := by
  intro n
  induction n with
  | zero =>
    intro l hl pw
    rw [List.eq_nil_of_length_eq_zero (Nat.le_zero.mp hl)]
    rfl
  | succ m ih =>
    intro l hl pw
    cases l with
    | nil => rfl
    | cons c t =>
      cases hm : matchAtU pw (c :: t) with
      | none =>
        rw [scanU_step_none pw c t hm]
        have hm2 : matchAtU pw (c :: scanU (isWordCh c) t) = none := by
          cases pw with
          | true => exact matchAtU_true true _ rfl
          | false =>
            cases hup : isUp c with
            | false =>
              refine matchAtU_head_not_up false _ ?_
              intro d hd
              simp only [List.head?_cons, Option.some.injEq] at hd
              rw [← hd]
              exact hup
            | true =>
              have hword : isWordCh c = true := up_word c hup
              rcases fmd t.length (isWordCh c) t le_rfl with
                h1 | ⟨p, q, e, hxq, hqm, hout, hpnil, hplast⟩
              · rw [h1]
                exact hm
              · have hpne : p ≠ [] := by
                  intro hp
                  have h2 := hpnil hp
                  rw [hword] at h2
                  exact Bool.noConfusion h2
                have hqe : q ≠ [] := by
                  intro hq
                  rw [hq, matchAtU_r0_none false [] 0 0 rfl] at hqm
                  exact Option.noConfusion hqm
                have hqhead_up : ∀ d, q.head? = some d → isUp d = true := by
                  intro d hd
                  cases hdu : isUp d with
                  | true => rfl
                  | false =>
                    exfalso
                    have hq0 : matchAtU false q = none := by
                      refine matchAtU_head_not_up false q ?_
                      intro d2 hd2
                      rw [hd] at hd2
                      injection hd2 with h12
                      rw [← h12]
                      exact hdu
                    rw [hq0] at hqm
                    exact Option.noConfusion hqm
                have hqhead_ws : ∀ d, q.head? = some d → pyWs d = false :=
                  fun d hd => up_not_ws d (hqhead_up d hd)
                obtain ⟨he1, _⟩ := matchAtU_le false q e hqm
                have hq2head : ∀ d, ((q.take e).filter (fun x => x ≠ ' ') ++
                    scanU true (q.drop e)).head? = some d →
                    pyWs d = false := by
                  cases q with
                  | nil => exact absurd rfl hqe
                  | cons q0 qt =>
                    have hq0up : isUp q0 = true := hqhead_up q0 rfl
                    have hq0s : q0 ≠ ' ' := up_ne_space q0 hq0up
                    obtain ⟨e2, rfl⟩ : ∃ k, e = k + 1 := ⟨e - 1, by omega⟩
                    intro d hd
                    simp only [List.take_succ_cons, List.filter_cons] at hd
                    rw [if_pos (by simpa using hq0s)] at hd
                    simp only [List.cons_append, List.head?_cons,
                      Option.some.injEq] at hd
                    rw [← hd]
                    exact up_not_ws q0 hq0up
                have hAlast : ∀ d, (c :: p).getLast? = some d →
                    isWordCh d = false := by
                  intro d hd
                  cases p with
                  | nil => exact absurd rfl hpne
                  | cons p0 ps =>
                    rw [List.getLast?_cons_cons] at hd
                    exact hplast d hd
                have hnone2 := conf_main (c :: p) q
                  ((q.take e).filter (fun x => x ≠ ' ') ++
                    scanU true (q.drop e))
                  (List.cons_ne_nil c p) hAlast hqhead_ws hq2head
                  (by rw [hqm]; simp)
                  (by rw [List.cons_append, ← hxq]; exact hm)
                rw [hout]
                exact hnone2
        rw [scanU_step_none pw c (scanU (isWordCh c) t) hm2,
          ih t (by simp only [List.length_cons] at hl; omega) (isWordCh c)]
      | some e =>
        have hpw : pw = false := matchAtU_some_pw pw _ e hm
        subst hpw
        obtain ⟨he1, he2⟩ := matchAtU_le false _ e hm
        rw [scanU_step_some false c t e hm he1]
        obtain ⟨bs, F, hwf, hF1, hFup, htake, hctx⟩ := match_shape (c :: t) e hm
        obtain ⟨bs2, F2, hwf2, hF21, hF2up, hfe⟩ :=
          filter_blocks bs F hwf hF1 hFup
        rw [htake, hfe]
        have hctxR : CtxOK (scanU true ((c :: t).drop e)) := by
          rcases hctx with hCA | ⟨S, y, hsy, hS1, hSws, hy0, hyf, hyh⟩
          · left
            cases hz : (c :: t).drop e with
            | nil =>
              intro d hd
              exact Option.noConfusion hd
            | cons z0 zt =>
              intro d hd
              rw [scanU_true_cons] at hd
              simp only [List.head?_cons, Option.some.injEq] at hd
              rw [← hd]
              exact hCA z0 (by rw [hz]; rfl)
          · right
            obtain ⟨hy1, hy2, hy3⟩ := fail0_preserve y hy0 hyf hyh
            refine ⟨S, scanU false y, ?_, hS1, hSws, hy1, hy2, hy3⟩
            rw [hsy, ws_copy S hSws hS1 true y]
        rw [region bs2.length bs2 F2 (scanU true ((c :: t).drop e)) le_rfl
          hwf2 hF21 hF2up hctxR]
        rw [ih ((c :: t).drop e)
          (by
            rw [List.length_drop]
            simp only [List.length_cons] at hl he2 ⊢
            omega) true]

theorem scanU_idem_full (l : List Char) (pw : Bool) :
    scanU pw (scanU pw l) = scanU pw l :=
  scanU_idem l.length l le_rfl pw


/-! ## C7 and C8: idempotence and commutation of the Text Cleaner -/

theorem lig_pass_fixed (out : List Char)
    (hnl : '\n' ∉ out)
    (ha1 : Char.ofNat 0xfb01 ∉ out) (ha2 : Char.ofNat 0xfb02 ∉ out)
    (ha3 : Char.ofNat 0xfb00 ∉ out) (ha4 : Char.ofNat 0xfb03 ∉ out)
    (ha5 : Char.ofNat 0xfb04 ∉ out) (ha6 : Char.ofNat 0xfb05 ∉ out)
    (ha7 : Char.ofNat 0xfb06 ∉ out) (ha8 : Char.ofNat 0x2019 ∉ out)
    (ha9 : Char.ofNat 0x2013 ∉ out) (ha10 : Char.ofNat 0x2014 ∉ out)
    (ha11 : Char.ofNat 0x2212 ∉ out) (ha12 : Char.ofNat 0xa0 ∉ out) :
    LIG_TABLE.foldl (fun acc kv => replaceStrL kv.1.data kv.2.data acc) out =
      out := by
  refine foldl_replace_id LIG_TABLE out ?_
  intro kv hkv
  simp only [LIG_TABLE, List.mem_cons, List.not_mem_nil, or_false] at hkv
  rcases hkv with rfl | rfl | rfl | rfl | rfl | rfl | rfl | rfl | rfl | rfl |
    rfl | rfl | rfl | rfl
  · exact replaceStr_absent_id _ _ (Char.ofNat 0xfb01) (by simp) _ _ ha1
  · exact replaceStr_absent_id _ _ (Char.ofNat 0xfb02) (by simp) _ _ ha2
  · exact replaceStr_absent_id _ _ (Char.ofNat 0xfb00) (by simp) _ _ ha3
  · exact replaceStr_absent_id _ _ (Char.ofNat 0xfb03) (by simp) _ _ ha4
  · exact replaceStr_absent_id _ _ (Char.ofNat 0xfb04) (by simp) _ _ ha5
  · exact replaceStr_absent_id _ _ (Char.ofNat 0xfb05) (by simp) _ _ ha6
  · exact replaceStr_absent_id _ _ (Char.ofNat 0xfb06) (by simp) _ _ ha7
  · exact replaceStr_absent_id _ _ (Char.ofNat 0x2019) (by simp) _ _ ha8
  · exact replaceStr_self_id apos _ _
  · exact replaceStr_absent_id _ _ '\n' (by decide) _ _ hnl
  · exact replaceStr_absent_id _ _ (Char.ofNat 0x2013) (by simp) _ _ ha9
  · exact replaceStr_absent_id _ _ (Char.ofNat 0x2014) (by simp) _ _ ha10
  · exact replaceStr_absent_id _ _ (Char.ofNat 0x2212) (by simp) _ _ ha11
  · exact replaceStr_absent_id _ _ (Char.ofNat 0xa0) (by simp) _ _ ha12

theorem data_mk (l : List Char) : (String.mk l).data = l := rfl

theorem cleanupLigatures_second_pass_id (s : String) (h : '\n' ∉ s.data) :
    cleanupLigatures (cleanupLigatures s) = cleanupLigatures s := by
  have hnl2 : '\n' ∉ LIG_TABLE.foldl
      (fun acc kv => replaceStrL kv.1.data kv.2.data acc) s.data :=
    foldl_preserve_absent '\n' LIG_TABLE s.data h (by decide)
  rw [cleanupLigatures, cleanupLigatures, data_mk]
  exact congrArg String.mk (lig_pass_fixed _ hnl2
    (after_pass_absent (Char.ofNat 0xfb01) LIG_TABLE s.data (by decide)
      (Or.inr (by decide)))
    (after_pass_absent (Char.ofNat 0xfb02) LIG_TABLE s.data (by decide)
      (Or.inr (by decide)))
    (after_pass_absent (Char.ofNat 0xfb00) LIG_TABLE s.data (by decide)
      (Or.inr (by decide)))
    (after_pass_absent (Char.ofNat 0xfb03) LIG_TABLE s.data (by decide)
      (Or.inr (by decide)))
    (after_pass_absent (Char.ofNat 0xfb04) LIG_TABLE s.data (by decide)
      (Or.inr (by decide)))
    (after_pass_absent (Char.ofNat 0xfb05) LIG_TABLE s.data (by decide)
      (Or.inr (by decide)))
    (after_pass_absent (Char.ofNat 0xfb06) LIG_TABLE s.data (by decide)
      (Or.inr (by decide)))
    (after_pass_absent (Char.ofNat 0x2019) LIG_TABLE s.data (by decide)
      (Or.inr (by decide)))
    (after_pass_absent (Char.ofNat 0x2013) LIG_TABLE s.data (by decide)
      (Or.inr (by decide)))
    (after_pass_absent (Char.ofNat 0x2014) LIG_TABLE s.data (by decide)
      (Or.inr (by decide)))
    (after_pass_absent (Char.ofNat 0x2212) LIG_TABLE s.data (by decide)
      (Or.inr (by decide)))
    (after_pass_absent (Char.ofNat 0xa0) LIG_TABLE s.data (by decide)
      (Or.inr (by decide))))

theorem cleanupUppercaseSpacing_id_nospace (t : String) (h : ' ' ∉ t.data) :
    cleanupUppercaseSpacing t = t := by
  rw [cleanupUppercaseSpacing, scanU, scanF_id_of_no_space _ _ _ h]

/-- Counterexample to C7 as stated: `cleanup_ligatures` is not idempotent.
On the input built by wrapping the accidental 15-character table key in
its own first three and last eleven characters, the first pass replaces
the embedded key and thereby recreates the key exactly; the second pass
then replaces it again, producing a different string. -/
theorem cleanup_ligatures_not_idempotent_cex :
    cleanupLigatures (String.mk
        (strangeKey.data.take 3 ++ strangeKey.data ++ strangeKey.data.drop 4)) =
      strangeKey ∧
    cleanupLigatures (cleanupLigatures (String.mk
        (strangeKey.data.take 3 ++ strangeKey.data ++ strangeKey.data.drop 4))) =
      "\"" ∧
    cleanupLigatures (cleanupLigatures (String.mk
        (strangeKey.data.take 3 ++ strangeKey.data ++ strangeKey.data.drop 4))) ≠
      cleanupLigatures (String.mk
        (strangeKey.data.take 3 ++ strangeKey.data ++ strangeKey.data.drop 4)) := by
  refine ⟨by decide, by decide, by decide⟩

/-- A full substitution pass is idempotent: the second pass reproduces
its input unchanged on every string. -/
theorem cleanupUppercaseSpacing_idem (t : String) :
    cleanupUppercaseSpacing (cleanupUppercaseSpacing t) =
      cleanupUppercaseSpacing t := by
  rw [cleanupUppercaseSpacing, cleanupUppercaseSpacing, data_mk,
    scanU_idem_full]

/-- C7 (amended): `cleanup_uppercase_spacing` is idempotent on every
input (a match region is emitted with only its ASCII spaces removed,
and a second pass copies every collapsed region verbatim), and
`cleanup_ligatures` is idempotent on every input that contains no
newline; it is not idempotent in general, because the replacement of
the accidental multi-line table key can recreate that key. -/
theorem text_cleaner_idempotent (s t : String) (hs : '\n' ∉ s.data) :
    cleanupLigatures (cleanupLigatures s) = cleanupLigatures s ∧
    cleanupUppercaseSpacing (cleanupUppercaseSpacing t) =
      cleanupUppercaseSpacing t :=
  ⟨cleanupLigatures_second_pass_id s hs, cleanupUppercaseSpacing_idem t⟩

/-- Witness for C7 (amended) at a newline-free input on which the
ligature pass acts (an fi-ligature) and an input on which the spacing
pass collapses an uppercase run. -/
theorem text_cleaner_idempotent_witness :
    ('\n' ∉ (String.mk [Char.ofNat 0xfb01, 'l', 'e']).data) ∧
    (cleanupLigatures (cleanupLigatures (String.mk [Char.ofNat 0xfb01, 'l', 'e'])) =
        cleanupLigatures (String.mk [Char.ofNat 0xfb01, 'l', 'e']) ∧
      cleanupUppercaseSpacing (cleanupUppercaseSpacing "AB CD EF x") =
        cleanupUppercaseSpacing "AB CD EF x") :=
  ⟨by decide,
    text_cleaner_idempotent (String.mk [Char.ofNat 0xfb01, 'l', 'e'])
      "AB CD EF x" (by decide)⟩

/-- Counterexample to C8 as stated: the two Text Cleaner passes do not
commute. On `A<nbsp>B<nbsp>C` the spacing pass matches first (U+00A0 is
regex whitespace) but removes only ASCII spaces, and the ligature pass
then maps the non-breaking spaces to ASCII spaces, giving `A B C`; in
the other order the ligature pass first produces `A B C` and the
spacing pass then contracts it to `ABC`. -/
theorem text_cleaner_commute_cex :
    cleanupLigatures (cleanupUppercaseSpacing (String.mk
        ['A', Char.ofNat 0xa0, 'B', Char.ofNat 0xa0, 'C'])) = "A B C" ∧
    cleanupUppercaseSpacing (cleanupLigatures (String.mk
        ['A', Char.ofNat 0xa0, 'B', Char.ofNat 0xa0, 'C'])) = "ABC" ∧
    cleanupLigatures (cleanupUppercaseSpacing (String.mk
        ['A', Char.ofNat 0xa0, 'B', Char.ofNat 0xa0, 'C'])) ≠
      cleanupUppercaseSpacing (cleanupLigatures (String.mk
        ['A', Char.ofNat 0xa0, 'B', Char.ofNat 0xa0, 'C'])) := by
  refine ⟨by decide, by decide, by decide⟩

/-- C8 (amended): the two Text Cleaner passes commute on every input all
of whose characters are ASCII and that contains no newline: there the
ligature pass is the identity (every effective table key needs a
non-ASCII character or a newline), and it stays the identity on the
output of the spacing pass, whose characters are a subset of the
input's. -/
theorem text_cleaner_commute_ascii (s : String)
    (h : ∀ c ∈ s.data, c.toNat < 128) (hnl : '\n' ∉ s.data) :
    cleanupLigatures (cleanupUppercaseSpacing s) =
      cleanupUppercaseSpacing (cleanupLigatures s) := by
  have hsub : ∀ c ∈ (cleanupUppercaseSpacing s).data, c ∈ s.data := by
    intro c hc
    exact scanF_subset s.data.length false s.data c hc
  rw [cleanupLigatures_id_ascii (cleanupUppercaseSpacing s)
      (fun c hc => h c (hsub c hc)) (fun hc => hnl (hsub _ hc)),
    cleanupLigatures_id_ascii s h hnl]

/-- Witness for C8 (amended) at an ASCII, newline-free input on which
the spacing pass acts. -/
theorem text_cleaner_commute_ascii_witness :
    (∀ c ∈ "AB CD EF x".data, c.toNat < 128) ∧ ('\n' ∉ "AB CD EF x".data) ∧
    cleanupLigatures (cleanupUppercaseSpacing "AB CD EF x") =
      cleanupUppercaseSpacing (cleanupLigatures "AB CD EF x") :=
  ⟨by decide, by decide, text_cleaner_commute_ascii "AB CD EF x"
    (by decide) (by decide)⟩

end PdfMan
